import Mathlib

/-!
Verification development for the data dependence graph (DDG) builder of
src/angr/analyses/ddg.py.

Shallow-embedding conventions used throughout:
  * Python dicts are modelled as insertion-ordered association lists with
    first-match lookup (`alookup`), in-place replacement on an existing key and
    append on a fresh key (`ainsert`).  Real dicts never hold duplicate keys,
    and the development proves the corresponding Nodup invariants where needed.
  * Python sets of code locations are modelled as duplicate-free lists; the
    code only ever adds an element after a membership test, which preserves
    freedom from duplicates.  Iteration order of a Python set is unspecified;
    the model fixes list order, and no theorem below depends on that order.
  * Machine integers (addresses, register offsets, temporary ids, statement
    indices, bit widths) are modelled as Nat; the source never overflows them.
  * Fallible code (the KeyError raised by reading an undefined temporary)
    is modelled with Except.
  * Mutable attributes of the analysis object that the source file writes but
    never reads (self._new, self._read_edge, self._symbolic_mem_ops) are not
    modelled.  The ghost fields `emitted` and `enqueued` of `TrackState` are
    pure logs (every edge handed to `_add_edge`, every edge tuple appended to a
    pending dict); they are write-only instrumentation and do not influence any
    other component.
-/

namespace DDG

/-- Modelled from the spec (section 3, Code Location) and the import
`from .code_location import CodeLocation` (the class itself is not under src/):
a program point is either (basic-block address, statement index) or a marker
identifying an external-behavior stub (`sim_procedure`); two locations are
equal iff the fields match. -/
inductive CodeLocation
  | loc (bblAddr : Nat) (stmtIdx : Nat)
  | simProc (name : Nat)
deriving DecidableEq, Repr

/-- Modelled from the spec (section 3, Variable) and the import
`from simuvex import SimRegisterVariable, SimMemoryVariable` (external
collaborator): a register variable is (offset, width), a memory variable is
(resolved address, width); equality is exact match of kind and both fields,
with no overlap reasoning. -/
inductive SimVariable
  | reg (offset : Nat) (size : Nat)
  | mem (addr : Nat) (size : Nat)
deriving DecidableEq, Repr

/-- The dependence categories used as the value of the "type" label key in
ddg.py: "mem", "reg", "tmp", "exit". -/
inductive DepType
  | mem
  | reg
  | tmp
  | exitT
deriving DecidableEq, Repr

/-- The values of the "subtype" label key in ddg.py: "mem_addr", "mem_data". -/
inductive SubType
  | memAddr
  | memData
deriving DecidableEq, Repr

/-- The values of the "data" label key in ddg.py: either a variable
(keep_data mode, ddg.py line 382) or a temporary id (lines 326, 342). -/
inductive EdgeData
  | var (v : SimVariable)
  | tmp (t : Nat)
deriving DecidableEq, Repr

/-- An edge label dict of ddg.py.  The source uses a Python dict whose keys
are drawn from "type", "data", "count", "subtype"; a structure of optional
fields models it ("subtype" holds the tuple accumulated by
`_annotate_edges_in_dict`, `[]` standing for an absent key). -/
structure Labels where
  type : Option DepType := none
  data : Option EdgeData := none
  count : Option Nat := none
  subtype : List SubType := []
deriving DecidableEq, Repr

/-- One edge of the dependence graph (and also one pending edge tuple
`(prev_code_loc, current_code_loc, labels)` of `_track`). -/
abbrev Edge := CodeLocation × CodeLocation × Labels

/-- The dependence graph: the networkx.DiGraph of ddg.py, reduced to its edge
list (the only part the source reads: `self.graph.edges()` membership and
`add_edge`). -/
abbrev DepGraph := List Edge

/-- A set of defining code locations (a Python set in ddg.py). -/
abbrev DefSet := List CodeLocation

/-- A live-definition snapshot: the `live_defs` dict of ddg.py, mapping a
variable to the set of code locations defining it. -/
abbrev LiveDefs := List (SimVariable × DefSet)

/-- The `prevdefs` dict built by `_def_lookup`: code location to labels. -/
abbrev PrevDefs := List (CodeLocation × Labels)

/-- A pending edge dict of `_track` (`temps_to_edges` / `regs_to_edges`):
defaultdict(list) keyed by temporary id or register offset. -/
abbrev EdgeDict := List (Nat × List Edge)

/-- Association-list lookup: Python dict `d[k]` / `k in d`, first match. -/
def alookup [DecidableEq α] : List (α × β) → α → Option β
  | [], _ => none
  | p :: rest, k => if p.1 = k then some p.2 else alookup rest k

/-- Association-list update: Python dict `d[k] = v` (replace in place when the
key exists, append otherwise). -/
def ainsert [DecidableEq α] : List (α × β) → α → β → List (α × β)
  | [], k, v => [(k, v)]
  | p :: rest, k, v => if p.1 = k then (k, v) :: rest else p :: ainsert rest k v

/-- defaultdict(list) element access `dict_[key]`: returns the stored list,
creating an empty entry when the key is absent. -/
def ddGetCreate (d : EdgeDict) (key : Nat) : EdgeDict × List Edge :=
  match alookup d key with
  | some es => (d, es)
  | none => (d ++ [(key, [])], [])

/-- defaultdict(list) append `dict_[key].append(e)`. -/
def ddAppend (d : EdgeDict) (key : Nat) (e : Edge) : EdgeDict :=
  let de := ddGetCreate d key
  ainsert de.1 key (de.2 ++ [e])

/-- defaultdict(list) append for Nat lists (used by the dfs-successors dict). -/
def ddAppendNat (d : List (Nat × List Nat)) (key : Nat) (v : Nat) : List (Nat × List Nat) :=
  match alookup d key with
  | some vs => ainsert d key (vs ++ [v])
  | none => d ++ [(key, [v])]

/-- `(s_a, s_b) in self.graph.edges()` (ddg.py line 419). -/
def hasEdge (g : DepGraph) (s t : CodeLocation) : Bool :=
  g.any (fun e => decide (e.1 = s) && decide (e.2.1 = t))

/-- DDG._add_edge (ddg.py lines 412-422): add an edge from s to t carrying
`edge_labels` unless an edge with the same (source, target) pair is already in
the graph; in that case the graph is left unchanged (the new labels are
dropped).  The write-only `self._new` flag is not modelled. -/
def addEdge (g : DepGraph) (s t : CodeLocation) (edge_labels : Labels) : DepGraph :=
  if hasEdge g s t then g else g ++ [(s, t, edge_labels)]

/-- The "type" label computed by `_def_lookup` (ddg.py lines 374-379) from the
kind of the variable.  The `raise AngrDDGError` branch for an unknown variable
kind is unreachable in the model because `SimVariable` has exactly the two
kinds. -/
def varDepType : SimVariable → DepType
  | .mem _ _ => .mem
  | .reg _ _ => .reg

/-- The count computation of `_def_lookup` (ddg.py lines 390-393): the source
reads `prevdefs[code_loc]["count"] + 1` when the code location is already in
`prevdefs`, else 0; in this model the "count" access is `labels.count.getD 0`
(within one call every labels dict stored in `prevdefs` carries a count, so
the default is never exercised). -/
def countNext (prevdefs : PrevDefs) (code_loc : CodeLocation) : Nat :=
  match alookup prevdefs code_loc with
  | some labels => labels.count.getD 0 + 1
  | none => 0

/-- DDG._def_lookup (ddg.py lines 357-398): backward lookup of the reaching
definitions of `var` in `live_defs`, producing the `prevdefs` dict from each
reaching code location to its labels.  With keep_data the labels carry the
variable itself; otherwise they carry a running count per code location
(`countNext`: 0 for the first occurrence, incremented on a repeat). -/
def defLookup (keep_data : Bool) (live_defs : LiveDefs) (var : SimVariable) : PrevDefs :=
  match alookup live_defs var with
  | none => []
  | some code_loc_set =>
    code_loc_set.foldl (fun prevdefs code_loc =>
      let type_ := varDepType var
      if keep_data then
        ainsert prevdefs code_loc { type := some type_, data := some (.var var) }
      else
        ainsert prevdefs code_loc
          { type := some type_, count := some (countNext prevdefs code_loc) }) []

/-- DDG._kill (ddg.py lines 400-410): kill all previous definitions of `var`,
setting its entry to the single-element set containing `code_loc`. -/
def kill (live_defs : LiveDefs) (var : SimVariable) (code_loc : CodeLocation) : LiveDefs :=
  ainsert live_defs var [code_loc]

/-- The read/write tag of a SimAction (`a.action` in ddg.py). -/
inductive RW
  | read
  | write
deriving DecidableEq, Repr

/-- The location fields every action record carries (`a.bbl_addr`,
`a.stmt_idx`, `a.sim_procedure`). -/
structure ALoc where
  bblAddr : Option Nat
  stmtIdx : Nat
  simProc : Nat
deriving DecidableEq, Repr

/-- ddg.py lines 262-265: the code location of the current action — the
sim-procedure marker when `bbl_addr` is None, else (bbl_addr, stmt_idx). -/
def ALoc.codeLoc (a : ALoc) : CodeLocation :=
  match a.bblAddr with
  | none => .simProc a.simProc
  | some b => .loc b a.stmtIdx

/-- One action record of a state trace (`a` in `_track`), a tagged variant of
the dynamic dispatch on `a.type` in ddg.py:
  * mem: `a.actual_addrs` (None or the explicit list of resolved addresses),
    the concretized `state.se.any_int(a.addr.ast)` fallback address,
    `a.data.ast.size()`, and the four structural dependency lists
    `a.addr.reg_deps`, `a.addr.tmp_deps`, `a.data.reg_deps`, `a.data.tmp_deps`;
  * reg: `a.offset` and `a.data.ast.size()`;
  * tmp: `a.tmp`;
  * exitA: the "exit" (control transfer) action with its `a.tmp_deps`. -/
inductive SimAction
  | mem (aloc : ALoc) (action : RW) (actualAddrs : Option (List Nat)) (addrConc : Nat)
        (dataSize : Nat) (addrRegDeps addrTmpDeps dataRegDeps dataTmpDeps : List Nat)
  | reg (aloc : ALoc) (action : RW) (offset : Nat) (dataSize : Nat)
  | tmp (aloc : ALoc) (action : RW) (tmpId : Nat)
  | exitA (aloc : ALoc) (tmpDeps : List Nat)
deriving DecidableEq, Repr

/-- The location fields of an action. -/
def SimAction.aloc : SimAction → ALoc
  | .mem al _ _ _ _ _ _ _ _ => al
  | .reg al _ _ _ => al
  | .tmp al _ _ => al
  | .exitA al _ => al

/-- The code location of an action (ddg.py lines 262-265). -/
def SimAction.codeLoc (a : SimAction) : CodeLocation := a.aloc.codeLoc

/-- ddg.py lines 268-272: the address list of a memory action — the singleton
concretized address when `actual_addrs` is None, else `set(a.actual_addrs)`
(modelled as `dedup`, fixing a first-occurrence order for the unordered
Python set). -/
def memAddrList (actualAddrs : Option (List Nat)) (addrConc : Nat) : List Nat :=
  match actualAddrs with
  | none => [addrConc]
  | some l => l.dedup

/-- The exception a trace replay can raise: the KeyError of `temps[a.tmp]`
(ddg.py lines 325, 341) when a temporary is read before any write to it. -/
inductive TrackErr
  | tmpKeyError (t : Nat)
deriving DecidableEq, Repr

/-- The mutable state of one `_track` invocation: the copied live_defs, the
local `temps` dict, the two pending edge dicts, and the graph under
construction.  `emitted` and `enqueued` are ghost logs (see the file header):
`emitted` records every edge handed to `_add_edge`, `enqueued` records every
edge tuple appended to a pending dict. -/
structure TrackState where
  live_defs : LiveDefs
  temps : List (Nat × CodeLocation)
  temps_to_edges : EdgeDict
  regs_to_edges : EdgeDict
  graph : DepGraph
  emitted : List Edge
  enqueued : List Edge
deriving DecidableEq, Repr

/-- `self._add_edge(s, t, **labels)` from inside `_track`, with the ghost
emission log. -/
def emitEdge (st : TrackState) (s t : CodeLocation) (labels : Labels) : TrackState :=
  { st with graph := addEdge st.graph s t labels, emitted := st.emitted ++ [(s, t, labels)] }

/-- `_annotate_edges_in_dict` (ddg.py lines 225-241): append the new subtype
value to the "subtype" key of the labels of every edge tuple stored under
`key` (creating the tuple `(v,)` when the key was absent from the labels). -/
def annotateEdges (d : EdgeDict) (key : Nat) (v : SubType) : EdgeDict :=
  let de := ddGetCreate d key
  ainsert de.1 key (de.2.map (fun e => (e.1, e.2.1, { e.2.2 with subtype := e.2.2.subtype ++ [v] })))

/-- `_dump_edge_from_dict` (ddg.py lines 243-258): hand every edge tuple
stored under `key` to `_add_edge` and, when `del_key`, remove the key from the
dict.  Takes and returns the graph, the ghost emission log and the dict. -/
def dumpFrom (g : DepGraph) (em : List Edge) (d : EdgeDict) (key : Nat) (del_key : Bool) :
    DepGraph × List Edge × EdgeDict :=
  let de := ddGetCreate d key
  let ge := de.2.foldl (fun (p : DepGraph × List Edge) e =>
      (addEdge p.1 e.1 e.2.1 e.2.2, p.2 ++ [e])) (g, em)
  (ge.1, ge.2, if del_key then de.1.filter (fun p => !(decide (p.1 = key))) else de.1)

/-- `dumpFrom` applied to the `regs_to_edges` dict of the track state. -/
def dumpRegs (st : TrackState) (key : Nat) (del_key : Bool) : TrackState :=
  let r := dumpFrom st.graph st.emitted st.regs_to_edges key del_key
  { st with graph := r.1, emitted := r.2.1, regs_to_edges := r.2.2 }

/-- `dumpFrom` applied to the `temps_to_edges` dict of the track state. -/
def dumpTemps (st : TrackState) (key : Nat) (del_key : Bool) : TrackState :=
  let r := dumpFrom st.graph st.emitted st.temps_to_edges key del_key
  { st with graph := r.1, emitted := r.2.1, temps_to_edges := r.2.2 }

/-- The memory-action body of `_track` per resolved address (ddg.py lines
274-299): on a read add one edge per reaching definition directly to the
graph; on a write kill the memory variable; then annotate the pending edges of
every structural register / temporary dependency of the address ("mem_addr")
and of the data ("mem_data"). -/
def memAddrStep (keep_data : Bool) (action : RW) (dataSize : Nat)
    (addrRegDeps addrTmpDeps dataRegDeps dataTmpDeps : List Nat)
    (current_code_loc : CodeLocation) (st : TrackState) (addr : Nat) : TrackState :=
  let var := SimVariable.mem addr dataSize
  let st := if action = RW.read then
      (defLookup keep_data st.live_defs var).foldl
        (fun st p => emitEdge st p.1 current_code_loc p.2) st
    else st
  let st := if action = RW.write then
      { st with live_defs := kill st.live_defs var current_code_loc }
    else st
  let st := addrRegDeps.foldl
    (fun st r => { st with regs_to_edges := annotateEdges st.regs_to_edges r .memAddr }) st
  let st := addrTmpDeps.foldl
    (fun st t => { st with temps_to_edges := annotateEdges st.temps_to_edges t .memAddr }) st
  let st := dataRegDeps.foldl
    (fun st r => { st with regs_to_edges := annotateEdges st.regs_to_edges r .memData }) st
  let st := dataTmpDeps.foldl
    (fun st t => { st with temps_to_edges := annotateEdges st.temps_to_edges t .memData }) st
  st

/-- The register-read body of `_track` (ddg.py lines 307-316): look up the
reaching definitions, flush any pending edge group stored under this offset,
then queue one edge per reaching definition under the offset. -/
def regReadStep (keep_data : Bool) (offset dataSize : Nat)
    (current_code_loc : CodeLocation) (st : TrackState) : TrackState :=
  let prevdefs := defLookup keep_data st.live_defs (SimVariable.reg offset dataSize)
  let st := if (alookup st.regs_to_edges offset).isSome then dumpRegs st offset true else st
  prevdefs.foldl (fun st p =>
    let e : Edge := (p.1, current_code_loc, p.2)
    { st with regs_to_edges := ddAppend st.regs_to_edges offset e,
              enqueued := st.enqueued ++ [e] }) st

/-- The temporary-read body of `_track` after the `temps` lookup succeeded
(ddg.py lines 326-331): flush any pending group under this temporary id and
queue the new "tmp" edge. -/
def tmpReadStep (tmpId : Nat) (current_code_loc prev_code_loc : CodeLocation)
    (st : TrackState) : TrackState :=
  let e : Edge := (prev_code_loc, current_code_loc,
    { type := some .tmp, data := some (.tmp tmpId) })
  let st := if (alookup st.temps_to_edges tmpId).isSome then dumpTemps st tmpId true else st
  { st with temps_to_edges := ddAppend st.temps_to_edges tmpId e,
            enqueued := st.enqueued ++ [e] }

/-- The per-dependency body of the exit action of `_track` (ddg.py lines
340-347): take the defining location of the temporary from `temps` (KeyError
when absent), flush any pending group under the id, and queue the new "exit"
edge. -/
def exitDepStep (current_code_loc : CodeLocation) (st : TrackState) (t : Nat) :
    Except TrackErr TrackState :=
  match alookup st.temps t with
  | none => .error (.tmpKeyError t)
  | some prev_code_loc =>
    let e : Edge := (prev_code_loc, current_code_loc,
      { type := some .exitT, data := some (.tmp t) })
    let st := if (alookup st.temps_to_edges t).isSome then dumpTemps st t true else st
    .ok { st with temps_to_edges := ddAppend st.temps_to_edges t e,
                  enqueued := st.enqueued ++ [e] }

/-- The body of the per-action loop of `_track` (ddg.py lines 260-347),
processing one action record:
  * mem (lines 267-299): `memAddrStep` per resolved address;
  * reg (lines 301-320): `regReadStep` on a read; on a write kill the register
    variable;
  * tmp (lines 322-335): on a read take the defining location from the local
    `temps` dict (KeyError when absent) and run `tmpReadStep`; on a write
    record the defining location in `temps`;
  * exitA (lines 337-347): `exitDepStep` per temporary dependency. -/
def trackAction (keep_data : Bool) (st : TrackState) (a : SimAction) :
    Except TrackErr TrackState :=
  match a with
  | .mem aloc action actualAddrs addrConc dataSize addrRegDeps addrTmpDeps dataRegDeps dataTmpDeps =>
    .ok ((memAddrList actualAddrs addrConc).foldl
      (memAddrStep keep_data action dataSize addrRegDeps addrTmpDeps dataRegDeps dataTmpDeps
        aloc.codeLoc) st)
  | .reg aloc action offset dataSize =>
    if action = RW.read then
      .ok (regReadStep keep_data offset dataSize aloc.codeLoc st)
    else
      .ok { st with live_defs := kill st.live_defs (SimVariable.reg offset dataSize) aloc.codeLoc }
  | .tmp aloc action tmpId =>
    if action = RW.read then
      match alookup st.temps tmpId with
      | none => .error (.tmpKeyError tmpId)
      | some prev_code_loc => .ok (tmpReadStep tmpId aloc.codeLoc prev_code_loc st)
    else
      .ok { st with temps := ainsert st.temps tmpId aloc.codeLoc }
  | .exitA aloc tmpDeps => tmpDeps.foldlM (exitDepStep aloc.codeLoc) st

/-- One terminal execution state recorded at a CFG node: the fake-return test
`state.scratch.jumpkind == "Ijk_FakeRet"` reduced to a boolean, the
concretized instruction pointer `state.se.any_int(state.ip)`, and the ordered
action log `state.log.actions`. -/
structure FinalState where
  isFakeRet : Bool
  ip : Nat
  actions : List SimAction
deriving DecidableEq, Repr

/-- DDG._track (ddg.py lines 201-355): copy the incoming live definitions,
replay the action list, then flush every still-pending edge group of both
dicts (del_key False, as in the source) and return the resulting state (the
new live definitions, the graph grown with all emitted edges, and the ghost
logs). -/
def track (keep_data : Bool) (state : FinalState) (live_defs : LiveDefs) (g : DepGraph) :
    Except TrackErr TrackState :=
  let st0 : TrackState :=
    { live_defs := live_defs, temps := [], temps_to_edges := [], regs_to_edges := [],
      graph := g, emitted := [], enqueued := [] }
  match state.actions.foldlM (fun s a => trackAction keep_data s a) st0 with
  | .error e => .error e
  | .ok st =>
    let st := st.regs_to_edges.foldl (fun s p => dumpRegs s p.1 false) st
    let st := st.temps_to_edges.foldl (fun s p => dumpTemps s p.1 false) st
    .ok st

/-- The CFG collaborator, reduced to what ddg.py consumes: the adjacency of
`self._cfg.graph` (every node is identified with its address, following the
TODO at ddg.py line 124 assuming one node per address), and the
`node.final_states` data. -/
structure CFG where
  adj : List (Nat × List Nat)
  finals : List (Nat × List FinalState)
deriving DecidableEq, Repr

/-- `self._cfg.graph.successors(node)` (ddg.py line 153). -/
def CFG.successors (cfg : CFG) (n : Nat) : List Nat := (alookup cfg.adj n).getD []

/-- `node.final_states` (ddg.py line 145). -/
def CFG.final_states (cfg : CFG) (n : Nat) : List FinalState := (alookup cfg.finals n).getD []

/-- Modelled from the spec: the CFG collaborator lookup-by-address operation
(`self._cfg.get_any_node(self._start)`, ddg.py line 126; the CFG class is part
of the repository but not under src/).  The spec gives only
`node_at(address) -> Node`; the repository implementation scans the nodes and
returns None when no node carries the address, modelled as `Option.none`. -/
def getAnyNode (cfg : CFG) (addr : Nat) : Option Nat :=
  if addr ∈ cfg.adj.map Prod.fst then some addr else none

/-- Fuel that dominates the number of nodes a DFS over `adj` can ever visit
(every visited node is a key or occurs in a successor list). -/
def dfsFuel (adj : List (Nat × List Nat)) : Nat :=
  adj.length + (adj.map (fun p => p.2.length)).sum + 1

/-- The recursive core of networkx dfs_edges: visit the children of `u` in
order, emitting the tree edge (u, c) for every not-yet-visited child c and
descending into c before the next sibling; returns the grown visited list and
the emitted edges.  The fuel only bounds the recursion depth and is chosen
large enough (`dfsFuel`) that it is never exhausted on the inputs used. -/
def dfsVisit (adj : List (Nat × List Nat)) : Nat → List Nat → Nat → List Nat × List (Nat × Nat)
  | 0, visited, _ => (visited, [])
  | fuel + 1, visited, u =>
    ((alookup adj u).getD []).foldl
      (fun (acc : List Nat × List (Nat × Nat)) c =>
        if c ∈ acc.1 then acc
        else
          let r := dfsVisit adj fuel (acc.1 ++ [c]) c
          (r.1, acc.2 ++ [(u, c)] ++ r.2))
      (visited, [])

/-- networkx dfs_edges(G, source): DFS tree edges in preorder.  A None source
(Python None, which the source passes when `get_any_node` found no node) makes
networkx walk every node of the graph as a DFS forest. -/
def dfsEdges (adj : List (Nat × List Nat)) (source : Option Nat) : List (Nat × Nat) :=
  let starts := match source with
    | none => adj.map Prod.fst
    | some s => [s]
  (starts.foldl (fun (acc : List Nat × List (Nat × Nat)) s =>
      if s ∈ acc.1 then acc
      else
        let r := dfsVisit adj (dfsFuel adj) (acc.1 ++ [s]) s
        (r.1, acc.2 ++ r.2))
    ([], [])).2

/-- networkx dfs_successors(G, source): the dict from a DFS tree parent to its
list of tree children, keys in order of first appearance. -/
def dfsSuccessors (adj : List (Nat × List Nat)) (source : Option Nat) : List (Nat × List Nat) :=
  (dfsEdges adj source).foldl (fun d pc => ddAppendNat d pc.1 pc.2) []

/-- The per-location body of the merge loop (ddg.py lines 182-186): add the
location to the entry of `var` unless it is already present, marking
changed. -/
def mergeAddLoc (var : SimVariable) (acc : LiveDefs × Bool) (code_loc : CodeLocation) :
    LiveDefs × Bool :=
  let cur := (alookup acc.1 var).getD []
  if code_loc ∈ cur then acc
  else (ainsert acc.1 var (cur ++ [code_loc]), true)

/-- The per-variable body of the merge loop of `_construct` (ddg.py lines
175-186): when the variable is absent from the successor snapshot insert its
set and mark changed; otherwise add each code location not already present
(`mergeAddLoc`), marking changed for each addition. -/
def mergeVarDefs (acc : LiveDefs × Bool) (entry : SimVariable × DefSet) : LiveDefs × Bool :=
  match alookup acc.1 entry.1 with
  | none => (ainsert acc.1 entry.1 entry.2, true)
  | some _ => entry.2.foldl (mergeAddLoc entry.1) acc

/-- The merge loop of `_construct` (ddg.py lines 174-186): fold the new
definitions into the successor snapshot, returning the merged snapshot and the
`changed` flag. -/
def mergeDefs (new_defs : LiveDefs) (defs_for_next_node : LiveDefs) : LiveDefs × Bool :=
  new_defs.foldl mergeVarDefs (defs_for_next_node, false)

/-- The re-enqueue block of `_construct` (ddg.py lines 188-199), run when the
merge reported a change: enqueue the successor when it is not already queued;
then walk `networkx.dfs_successors` from the successor and, for every node s
in the child lists, append s — but only under the test
`if successing_node not in worklist_set`, exactly as written in the source
(the test names the successor, not s). -/
def enqueueChanged (cfg : CFG) (worklist : List Nat) (successing_node : Nat) : List Nat :=
  let worklist := if successing_node ∈ worklist then worklist else worklist ++ [successing_node]
  let all_successors_dict := dfsSuccessors cfg.adj (some successing_node)
  all_successors_dict.foldl (fun wl p =>
    p.2.foldl (fun wl s => if successing_node ∈ wl then wl else wl ++ [s]) wl) worklist

/-- The state of the fixpoint driver loop of `_construct`: the worklist (the
source keeps the list and a mirror membership set in lockstep; the model keeps
the list and tests membership on it), the `live_defs_per_node` dict and the
graph under construction. -/
structure LoopState where
  worklist : List Nat
  live_defs_per_node : List (Nat × LiveDefs)
  graph : DepGraph
deriving DecidableEq, Repr

/-- The per-final-state body of `_construct` (ddg.py lines 154-199): skip a
fake-return state when the node has other terminal states; find the successor
node whose address equals the concretized instruction pointer, skipping the
state when none matches; replay the trace against the current live
definitions of the node; merge the resulting definitions into the successor
snapshot (creating an empty entry first when absent); and on a change run the
re-enqueue block. -/
def processState (keep_data : Bool) (cfg : CFG) (node : Nat) (numFinal : Nat)
    (st : LoopState) (state : FinalState) : Except TrackErr LoopState :=
  if state.isFakeRet && decide (1 < numFinal) then .ok st
  else
    match (cfg.successors node).filter (fun n => decide (n = state.ip)) with
    | [] => .ok st
    | successing_node :: _ =>
      let live_defs := (alookup st.live_defs_per_node node).getD []
      match track keep_data state live_defs st.graph with
      | .error e => .error e
      | .ok ts =>
        let new_defs := ts.live_defs
        let ldpn := if (alookup st.live_defs_per_node successing_node).isSome
          then st.live_defs_per_node
          else st.live_defs_per_node ++ [(successing_node, [])]
        let defs_for_next_node := (alookup ldpn successing_node).getD []
        let mc := mergeDefs new_defs defs_for_next_node
        let ldpn := ainsert ldpn successing_node mc.1
        let worklist := if mc.2 then enqueueChanged cfg st.worklist successing_node
          else st.worklist
        .ok { worklist := worklist, live_defs_per_node := ldpn, graph := ts.graph }

/-- One iteration of the worklist loop of `_construct` (ddg.py lines 137-199):
pop the head node, make sure it has a (possibly empty) snapshot entry, and
process each of its final states in order. -/
def ddgStep (keep_data : Bool) (cfg : CFG) (st : LoopState) : Except TrackErr LoopState :=
  match st.worklist with
  | [] => .ok st
  | node :: rest =>
    let final_states := cfg.final_states node
    let ldpn := if (alookup st.live_defs_per_node node).isSome then st.live_defs_per_node
      else st.live_defs_per_node ++ [(node, [])]
    let st1 : LoopState := { worklist := rest, live_defs_per_node := ldpn, graph := st.graph }
    final_states.foldlM (fun s state => processState keep_data cfg node final_states.length s state) st1

/-- The worklist loop of `_construct`, fuel-indexed: `none` means the fuel ran
out before the worklist emptied (the termination theorem shows sufficient fuel
always exists); `some (.ok st)` means the loop drained the worklist; `some
(.error e)` means a trace replay raised. -/
def ddgLoop (keep_data : Bool) (cfg : CFG) : Nat → LoopState → Option (Except TrackErr LoopState)
  | 0, st => if st.worklist.isEmpty then some (.ok st) else none
  | fuel + 1, st =>
    if st.worklist.isEmpty then some (.ok st)
    else match ddgStep keep_data cfg st with
      | .error e => some (.error e)
      | .ok st1 => ddgLoop keep_data cfg fuel st1

/-- The initial worklist of `_construct` (ddg.py line 129):
`list(networkx.dfs_successors(self._cfg.graph, initial_node))`, the keys of
the dfs-successors dict seeded from `get_any_node(start)`. -/
def initWorklist (cfg : CFG) (start : Nat) : List Nat :=
  (dfsSuccessors cfg.adj (getAnyNode cfg start)).map Prod.fst

/-- DDG._construct (ddg.py lines 102-199), fuel-indexed: seed the worklist
from the entry lookup and run the fixpoint loop on empty snapshots and an
empty graph. -/
def ddgConstruct (keep_data : Bool) (cfg : CFG) (start : Nat) (fuel : Nat) :
    Option (Except TrackErr LoopState) :=
  ddgLoop keep_data cfg fuel
    { worklist := initWorklist cfg start, live_defs_per_node := [], graph := [] }

/-! Specification-side definitions used only in theorem statements. -/

/-- The temporary ids an action writes. -/
def tmpWritesOf : SimAction → List Nat
  | .tmp _ .write t => [t]
  | _ => []

/-- The temporary ids an action reads (a tmp read, or the dependencies of an
exit). -/
def tmpReadsOf : SimAction → List Nat
  | .tmp _ .read t => [t]
  | .exitA _ deps => deps
  | _ => []

/-- The code locations of the temporary writes of an action. -/
def tmpWriteLocsOf : SimAction → List CodeLocation
  | .tmp al .write _ => [al.codeLoc]
  | _ => []

/-- All code locations of temporary writes in a trace. -/
def tmpWriteLocs (l : List SimAction) : List CodeLocation := l.flatMap tmpWriteLocsOf

/-- The variables an action can mention in live definitions (the killed or
looked-up variables it constructs). -/
def actionVars : SimAction → List SimVariable
  | .mem _ _ actualAddrs addrConc dataSize _ _ _ _ =>
    (memAddrList actualAddrs addrConc).map (fun addr => .mem addr dataSize)
  | .reg _ _ offset dataSize => [.reg offset dataSize]
  | _ => []

/-- All variables mentioned by a trace. -/
def actionsVars (l : List SimAction) : List SimVariable := l.flatMap actionVars

/-- All code locations of a trace. -/
def actionsLocs (l : List SimAction) : List CodeLocation := l.map SimAction.codeLoc

/-- All variables mentioned by any trace of the CFG. -/
def cfgVars (cfg : CFG) : List SimVariable :=
  cfg.finals.flatMap (fun p => p.2.flatMap (fun s => actionsVars s.actions))

/-- All code locations of any trace of the CFG. -/
def cfgLocs (cfg : CFG) : List CodeLocation :=
  cfg.finals.flatMap (fun p => p.2.flatMap (fun s => actionsLocs s.actions))

/-- The union of all successor lists of the CFG. -/
def succUnion (cfg : CFG) : List Nat := cfg.adj.flatMap Prod.snd

/-- A dependence graph is well formed when no two edges share the same
(source, target) pair. -/
def DGWF (g : DepGraph) : Prop :=
  List.Pairwise (fun e1 e2 => ¬ (e1.1 = e2.1 ∧ e1.2.1 = e2.2.1)) g

/-- Well-formedness of one live-definition snapshot relative to a variable
universe and a location universe: distinct keys, every key in the variable
universe, every definition set duplicate-free, nonempty and inside the
location universe. -/
def LDWF (V : List SimVariable) (L : List CodeLocation) (ld : LiveDefs) : Prop :=
  (ld.map Prod.fst).Nodup ∧
  ∀ p ∈ ld, p.1 ∈ V ∧ p.2.Nodup ∧ (∀ c ∈ p.2, c ∈ L) ∧ p.2 ≠ []

/-- Well-formedness of the loop state relative to a node universe, a variable
universe and a location universe. -/
def LoopWF (N : List Nat) (V : List SimVariable) (L : List CodeLocation) (st : LoopState) : Prop :=
  (∀ n ∈ st.worklist, n ∈ N) ∧
  (st.live_defs_per_node.map Prod.fst).Nodup ∧
  ∀ p ∈ st.live_defs_per_node, p.1 ∈ N ∧ LDWF V L p.2

/-- Some edge with the given (source, target) pair is in the emission log. -/
def pairEmitted (em : List Edge) (s t : CodeLocation) : Prop :=
  ∃ e ∈ em, e.1 = s ∧ e.2.1 = t

/-- Some edge with the given (source, target) pair is stored in a pending edge
dict. -/
def pairPending (d : EdgeDict) (s t : CodeLocation) : Prop :=
  ∃ k es, alookup d k = some es ∧ ∃ e ∈ es, e.1 = s ∧ e.2.1 = t

/-- An edge whose labels mark it as derived from a temporary read or from the
temporary dependency of an exit. -/
def isTmpEdge (e : Edge) : Prop :=
  e.2.2.type = some DepType.tmp ∨ e.2.2.type = some DepType.exitT

/-- The (source, target) pair is already emitted or still pending in one of
the two pending edge dicts of the track state. -/
def pairLive (st : TrackState) (s t : CodeLocation) : Prop :=
  pairEmitted st.emitted s t ∨ pairPending st.temps_to_edges s t ∨
    pairPending st.regs_to_edges s t

/-- Every enqueued edge has a live (emitted or pending) (source, target)
pair: the invariant behind claim C8. -/
def C8Inv (st : TrackState) : Prop :=
  ∀ e ∈ st.enqueued, pairLive st e.1 e.2.1

/-- The invariant behind claim C9, relative to a set W of temporary-write
locations seen so far: every location stored in `temps` and the source of
every tmp/exit-labeled edge (enqueued, emitted, or pending in either dict) is
in W. -/
def C9Inv (W : List CodeLocation) (st : TrackState) : Prop :=
  (∀ q ∈ st.temps, q.2 ∈ W) ∧
  (∀ e ∈ st.enqueued, isTmpEdge e → e.1 ∈ W) ∧
  (∀ e ∈ st.emitted, isTmpEdge e → e.1 ∈ W) ∧
  (∀ k es, alookup st.temps_to_edges k = some es → ∀ e ∈ es, isTmpEdge e → e.1 ∈ W) ∧
  (∀ k es, alookup st.regs_to_edges k = some es → ∀ e ∈ es, isTmpEdge e → e.1 ∈ W)

/-- The total number of stored defining locations of one snapshot. -/
def szLD (ld : LiveDefs) : Nat := (ld.map (fun p => p.2.length)).sum

/-- The total number of stored defining locations over all snapshots. -/
def szPN (d : List (Nat × LiveDefs)) : Nat := (d.map (fun p => szLD p.2)).sum

/-- A three-node chain CFG 1 -> 2 -> 3 used as a concrete input: when a merge
into successor 2 changes its snapshot while the worklist is empty, node 3 is
transitively reachable from 2 and not queued. -/
def cfgChain : CFG := { adj := [(1, [2]), (2, [3]), (3, [])], finals := [] }

/-- A two-action trace at block 0x1000: write register 16 then read it. -/
def fsRegPair : FinalState :=
  { isFakeRet := false, ip := 0x2000,
    actions := [
      SimAction.reg { bblAddr := some 0x1000, stmtIdx := 0, simProc := 0 } RW.write 16 32,
      SimAction.reg { bblAddr := some 0x1000, stmtIdx := 1, simProc := 0 } RW.read 16 32] }

/-- The track state that `track false fsRegPair [] []` produces: the read
queues one edge under register offset 16 and the end-of-trace flush emits
it. -/
def tsRegPair : TrackState :=
  { live_defs := [(SimVariable.reg 16 32, [CodeLocation.loc 0x1000 0])],
    temps := [],
    temps_to_edges := [],
    regs_to_edges := [(16, [(CodeLocation.loc 0x1000 0, CodeLocation.loc 0x1000 1,
      { type := some DepType.reg, count := some 0 })])],
    graph := [(CodeLocation.loc 0x1000 0, CodeLocation.loc 0x1000 1,
      { type := some DepType.reg, count := some 0 })],
    emitted := [(CodeLocation.loc 0x1000 0, CodeLocation.loc 0x1000 1,
      { type := some DepType.reg, count := some 0 })],
    enqueued := [(CodeLocation.loc 0x1000 0, CodeLocation.loc 0x1000 1,
      { type := some DepType.reg, count := some 0 })] }

/-- A trace writing temporary 3 at (0x1000, 1) and then taking an exit whose
target depends on it, as in Scenario D of the spec. -/
def fsTmpExit : FinalState :=
  { isFakeRet := false, ip := 0x2000,
    actions := [
      SimAction.tmp { bblAddr := some 0x1000, stmtIdx := 1, simProc := 0 } RW.write 3,
      SimAction.exitA { bblAddr := some 0x1000, stmtIdx := 2, simProc := 0 } [3]] }

/-- The track state that `track false fsTmpExit [] []` produces: the exit
queues one "exit" edge from the write of temporary 3 and the end-of-trace
flush emits it. -/
def tsTmpExit : TrackState :=
  { live_defs := [],
    temps := [(3, CodeLocation.loc 0x1000 1)],
    temps_to_edges := [(3, [(CodeLocation.loc 0x1000 1, CodeLocation.loc 0x1000 2,
      { type := some DepType.exitT, data := some (EdgeData.tmp 3) })])],
    regs_to_edges := [],
    graph := [(CodeLocation.loc 0x1000 1, CodeLocation.loc 0x1000 2,
      { type := some DepType.exitT, data := some (EdgeData.tmp 3) })],
    emitted := [(CodeLocation.loc 0x1000 1, CodeLocation.loc 0x1000 2,
      { type := some DepType.exitT, data := some (EdgeData.tmp 3) })],
    enqueued := [(CodeLocation.loc 0x1000 1, CodeLocation.loc 0x1000 2,
      { type := some DepType.exitT, data := some (EdgeData.tmp 3) })] }

/-- A trace whose first action reads temporary 5, which no action wrote. -/
def fsTmpUndef : FinalState :=
  { isFakeRet := false, ip := 0x2000,
    actions := [SimAction.tmp { bblAddr := some 0x1000, stmtIdx := 0, simProc := 0 } RW.read 5] }

/-- A two-node CFG whose entry block 0x1000 runs the write-then-read register
trace and transfers to 0x2000. -/
def cfgEdge : CFG :=
  { adj := [(0x1000, [0x2000]), (0x2000, [])], finals := [(0x1000, [fsRegPair])] }

/-- The loop state `ddgConstruct false cfgEdge _ 4` drains to: the replay of
the entry trace puts one register edge in the graph and propagates the live
definition of register 16 to node 0x2000. -/
def cEdgeState : LoopState :=
  { worklist := [],
    live_defs_per_node :=
      [(0x1000, []), (0x2000, [(SimVariable.reg 16 32, [CodeLocation.loc 0x1000 0])])],
    graph := [(CodeLocation.loc 0x1000 0, CodeLocation.loc 0x1000 1,
      { type := some DepType.reg, count := some 0 })] }

/-! ### Association-list and fold lemmas -/

theorem alookup_ainsert_self [DecidableEq α] (d : List (α × β)) (k : α) (v : β) :
    alookup (ainsert d k v) k = some v := by
  induction d with
  | nil => simp [ainsert, alookup]
  | cons p rest ih =>
    by_cases h : p.1 = k <;> simp [ainsert, alookup, h, ih]

theorem alookup_ainsert_ne [DecidableEq α] (d : List (α × β)) (k k' : α) (v : β)
    (h : ¬ k' = k) : alookup (ainsert d k v) k' = alookup d k' := by
  have h2 : ¬ k = k' := fun hh => h hh.symm
  induction d with
  | nil => simp [ainsert, alookup, h2]
  | cons p rest ih =>
    by_cases hp : p.1 = k
    · have hp' : ¬ p.1 = k' := by rw [hp]; exact h2
      simp only [ainsert, if_pos hp, alookup, if_neg h2, if_neg hp']
    · simp only [ainsert, if_neg hp, alookup]
      by_cases hp' : p.1 = k' <;> simp [hp', ih]

theorem mem_ainsert [DecidableEq α] (d : List (α × β)) (k : α) (v : β) (p : α × β)
    (hp : p ∈ ainsert d k v) : p = (k, v) ∨ p ∈ d := by
  induction d with
  | nil => simpa [ainsert] using hp
  | cons q rest ih =>
    by_cases h : q.1 = k
    · simp only [ainsert, if_pos h, List.mem_cons] at hp
      rcases hp with hp | hp
      · exact Or.inl hp
      · exact Or.inr (List.mem_cons_of_mem _ hp)
    · simp only [ainsert, if_neg h, List.mem_cons] at hp
      rcases hp with hp | hp
      · exact Or.inr (by simp [hp])
      · rcases ih hp with hh | hh
        · exact Or.inl hh
        · exact Or.inr (List.mem_cons_of_mem _ hh)

theorem alookup_eq_none [DecidableEq α] (d : List (α × β)) (k : α) :
    alookup d k = none ↔ k ∉ d.map Prod.fst := by
  induction d with
  | nil => simp [alookup]
  | cons p rest ih =>
    by_cases h : p.1 = k
    · simp [alookup, h]
    · simp [alookup, h, ih, Ne.symm h]

theorem alookup_isSome_of_mem [DecidableEq α] (d : List (α × β)) (p : α × β)
    (hp : p ∈ d) : (alookup d p.1).isSome := by
  induction d with
  | nil => simp at hp
  | cons q rest ih =>
    rcases List.mem_cons.1 hp with h | h
    · subst h; simp [alookup]
    · by_cases hq : q.1 = p.1 <;> simp [alookup, hq, ih h]

theorem keys_ainsert [DecidableEq α] (d : List (α × β)) (k : α) (v : β) :
    (ainsert d k v).map Prod.fst = d.map Prod.fst ∨
      (ainsert d k v).map Prod.fst = d.map Prod.fst ++ [k] := by
  induction d with
  | nil => simp [ainsert]
  | cons p rest ih =>
    by_cases h : p.1 = k
    · simp [ainsert, h]
    · rcases ih with ih | ih <;> simp [ainsert, h, ih]

theorem keys_nodup_ainsert [DecidableEq α] (d : List (α × β)) (k : α) (v : β)
    (h : (d.map Prod.fst).Nodup) : ((ainsert d k v).map Prod.fst).Nodup := by
  induction d with
  | nil => simp [ainsert]
  | cons p rest ih =>
    by_cases hk : p.1 = k
    · subst hk
      simpa [ainsert] using h
    · simp only [List.map_cons, List.nodup_cons] at h
      have hrest := ih h.2
      simp only [ainsert, if_neg hk, List.map_cons, List.nodup_cons]
      refine ⟨?_, hrest⟩
      rcases keys_ainsert rest k v with he | he <;> rw [he]
      · exact h.1
      · intro hmem
        rcases List.mem_append.1 hmem with hmem | hmem
        · exact h.1 hmem
        · simp at hmem
          exact hk hmem

theorem foldl_preserve {σ α : Type _} (f : σ → α → σ) (P : σ → Prop)
    (l : List α) (hf : ∀ s a, a ∈ l → P s → P (f s a)) :
    ∀ s : σ, P s → P (l.foldl f s) := by
  induction l with
  | nil => intro s h; simpa using h
  | cons a rest ih =>
    intro s h
    simp only [List.foldl_cons]
    exact ih (fun s b hb hs => hf s b (List.mem_cons_of_mem _ hb) hs) _
      (hf s a (List.mem_cons_self _ _) h)

theorem except_bind_ok {ε α β : Type _} (a : α) (f : α → Except ε β) :
    (Except.ok a >>= f) = f a := rfl

theorem except_bind_error {ε α β : Type _} (e : ε) (f : α → Except ε β) :
    ((Except.error e : Except ε α) >>= f) = Except.error e := rfl

theorem foldlM_preserve {σ α ε : Type _} (f : σ → α → Except ε σ) (P : σ → Prop)
    (l : List α) (hf : ∀ s a s', a ∈ l → P s → f s a = .ok s' → P s') :
    ∀ s s' : σ, P s → l.foldlM f s = .ok s' → P s' := by
  induction l with
  | nil =>
    intro s s' h heq
    simp only [List.foldlM_nil] at heq
    cases heq
    exact h
  | cons a rest ih =>
    intro s s' h heq
    rw [List.foldlM_cons] at heq
    cases h1 : f s a with
    | error e => rw [h1, except_bind_error] at heq; cases heq
    | ok s1 =>
      rw [h1, except_bind_ok] at heq
      exact ih (fun s b s2 hb hs hb2 => hf s b s2 (List.mem_cons_of_mem _ hb) hs hb2) s1 s'
        (hf s a s1 (List.mem_cons_self _ _) h h1) heq

theorem ainsert_of_none [DecidableEq α] (d : List (α × β)) (k : α) (v : β)
    (h : alookup d k = none) : ainsert d k v = d ++ [(k, v)] := by
  induction d with
  | nil => rfl
  | cons p rest ih =>
    rw [alookup] at h
    by_cases hp : p.1 = k
    · rw [if_pos hp] at h; cases h
    · rw [if_neg hp] at h
      simp [ainsert, hp, ih h]

theorem keys_ainsert_of_isSome [DecidableEq α] (d : List (α × β)) (k : α) (v : β)
    (h : (alookup d k).isSome = true) : (ainsert d k v).map Prod.fst = d.map Prod.fst := by
  induction d with
  | nil => simp [alookup] at h
  | cons p rest ih =>
    by_cases hp : p.1 = k
    · simp [ainsert, hp]
    · rw [alookup, if_neg hp] at h
      simp [ainsert, hp, ih h]

theorem mem_iff_alookup [DecidableEq α] (d : List (α × β))
    (hk : (d.map Prod.fst).Nodup) (p : α × β) :
    p ∈ d ↔ alookup d p.1 = some p.2 := by
  induction d with
  | nil => simp [alookup]
  | cons q rest ih =>
    simp only [List.map_cons, List.nodup_cons] at hk
    constructor
    · intro hmem
      rcases List.mem_cons.1 hmem with h | h
      · subst h; simp [alookup]
      · rw [alookup]
        by_cases hq : q.1 = p.1
        · exact absurd (by rw [hq]; exact List.mem_map_of_mem Prod.fst h) hk.1
        · rw [if_neg hq]; exact (ih hk.2).1 h
    · intro hl
      rw [alookup] at hl
      by_cases hq : q.1 = p.1
      · rw [if_pos hq] at hl
        have h2 := Option.some.inj hl
        exact List.mem_cons.2 (Or.inl (by cases p; cases q; simp_all))
      · rw [if_neg hq] at hl
        exact List.mem_cons.2 (Or.inr ((ih hk.2).2 hl))

theorem szLD_cons (p : SimVariable × DefSet) (rest : LiveDefs) :
    szLD (p :: rest) = p.2.length + szLD rest := by simp [szLD]

theorem szLD_append (d1 d2 : LiveDefs) : szLD (d1 ++ d2) = szLD d1 + szLD d2 := by
  simp [szLD]

theorem szLD_ainsert (d : LiveDefs) (k : SimVariable) (val old : DefSet)
    (hold : alookup d k = some old) :
    szLD (ainsert d k val) + old.length = szLD d + val.length := by
  induction d with
  | nil => cases hold
  | cons p rest ih =>
    rw [alookup] at hold
    by_cases hp : p.1 = k
    · rw [if_pos hp] at hold
      have h2 := Option.some.inj hold
      simp only [ainsert, if_pos hp, szLD_cons, h2]
      omega
    · rw [if_neg hp] at hold
      simp only [ainsert, if_neg hp, szLD_cons]
      have := ih hold
      omega

/-! ### Edge insertion lemmas -/

theorem addEdge_of_hasEdge (g : DepGraph) (s t : CodeLocation) (lab : Labels)
    (h : hasEdge g s t = true) : addEdge g s t lab = g := by
  simp [addEdge, h]

theorem DGWF_addEdge (g : DepGraph) (s t : CodeLocation) (lab : Labels) (h : DGWF g) :
    DGWF (addEdge g s t lab) := by
  by_cases he : hasEdge g s t = true
  · rw [addEdge_of_hasEdge g s t lab he]; exact h
  · have hall : ∀ e ∈ g, ¬ (e.1 = s ∧ e.2.1 = t) := by
      intro e hedge hcon
      apply he
      unfold hasEdge
      rw [List.any_eq_true]
      exact ⟨e, hedge, by simp [hcon.1, hcon.2]⟩
    rw [addEdge, if_neg he]
    rw [DGWF, List.pairwise_append]
    refine ⟨h, List.pairwise_singleton _ _, ?_⟩
    intro e1 he1 e2 he2
    simp only [List.mem_singleton] at he2
    subst he2
    exact hall e1 he1

/-! ### Enqueue block lemmas -/

theorem foldl_enqueue_inner (succ : Nat) (l : List Nat) (wl : List Nat) (h : succ ∈ wl) :
    l.foldl (fun wl2 s => if succ ∈ wl2 then wl2 else wl2 ++ [s]) wl = wl := by
  induction l with
  | nil => rfl
  | cons a rest ih => simp only [List.foldl_cons, if_pos h]; exact ih

theorem foldl_enqueue_outer (succ : Nat) (d : List (Nat × List Nat)) (wl : List Nat)
    (h : succ ∈ wl) :
    d.foldl (fun wl2 p =>
        p.2.foldl (fun wl3 s => if succ ∈ wl3 then wl3 else wl3 ++ [s]) wl2) wl = wl := by
  induction d with
  | nil => rfl
  | cons q rest ih =>
    simp only [List.foldl_cons, foldl_enqueue_inner succ q.2 wl h]
    exact ih

/-! ### Claims C1 (local part), C2, C4, C7 -/

/-- Claim C2 (code bug): the re-enqueue block of ddg.py lines 188-199 never
enqueues any transitively reachable node.  The inner loop tests
`if successing_node not in worklist_set` — the direct successor, which the
block has just enqueued — instead of testing the walked node s, so the loop
body is dead and the block reduces to enqueueing the direct successor alone.
The second conjunct evaluates the block at a concrete input on the chain CFG
1 -> 2 -> 3: after a change to successor 2 with an empty worklist, node 3 is
transitively reachable from 2 and unqueued, yet the resulting worklist is
exactly [2]. -/
theorem claim_C2_transitive_enqueue :
    (∀ (cfg : CFG) (worklist : List Nat) (successing_node : Nat),
        enqueueChanged cfg worklist successing_node
          = if successing_node ∈ worklist then worklist
            else worklist ++ [successing_node]) ∧
    enqueueChanged cfgChain [] 2 = [2] := by
  have main : ∀ (cfg : CFG) (wl : List Nat) (succ : Nat),
      enqueueChanged cfg wl succ = if succ ∈ wl then wl else wl ++ [succ] := by
    intro cfg wl succ
    have hrfl : enqueueChanged cfg wl succ
        = (dfsSuccessors cfg.adj (some succ)).foldl
            (fun wl2 p => p.2.foldl (fun wl3 s => if succ ∈ wl3 then wl3 else wl3 ++ [s]) wl2)
            (if succ ∈ wl then wl else wl ++ [succ]) := rfl
    have hmem : succ ∈ (if succ ∈ wl then wl else wl ++ [succ]) := by
      by_cases h : succ ∈ wl <;> simp [h]
    rw [hrfl, foldl_enqueue_outer succ _ _ hmem]
  exact ⟨main, (main cfgChain [] 2).trans (by decide)⟩

/-- Claim C4: a kill replaces the snapshot entry for exactly the written
variable with the single-element set of the writing location, and leaves the
entry of every other variable (including partially overlapping memory
variables, which are distinct keys) untouched. -/
theorem claim_C4_kill (live_defs : LiveDefs) (var : SimVariable) (code_loc : CodeLocation) :
    alookup (kill live_defs var code_loc) var = some [code_loc] ∧
    ∀ w : SimVariable, ¬ w = var →
      alookup (kill live_defs var code_loc) w = alookup live_defs w := by
  exact ⟨alookup_ainsert_self _ _ _, fun w h => alookup_ainsert_ne _ _ _ _ h⟩

/-- Witness for claim C4: killing the 4-byte memory variable at 0x8000 in a
snapshot that also tracks the overlapping 1-byte variable at 0x8001 replaces
only the 4-byte entry (two prior definers collapse to the writer) and leaves
the overlapping variable untouched. -/
theorem claim_C4_kill_witness :
    alookup (kill [(SimVariable.mem 0x8000 4, [CodeLocation.loc 0x1000 0, CodeLocation.loc 0x1100 3]),
                   (SimVariable.mem 0x8001 1, [CodeLocation.loc 0x1000 1])]
             (SimVariable.mem 0x8000 4) (CodeLocation.loc 0x2000 0)) (SimVariable.mem 0x8000 4)
      = some [CodeLocation.loc 0x2000 0] ∧
    alookup (kill [(SimVariable.mem 0x8000 4, [CodeLocation.loc 0x1000 0, CodeLocation.loc 0x1100 3]),
                   (SimVariable.mem 0x8001 1, [CodeLocation.loc 0x1000 1])]
             (SimVariable.mem 0x8000 4) (CodeLocation.loc 0x2000 0)) (SimVariable.mem 0x8001 1)
      = some [CodeLocation.loc 0x1000 1] := by
  refine ⟨(claim_C4_kill _ _ _).1, ((claim_C4_kill _ _ _).2 _ (by decide)).trans (by decide)⟩

/-- Claim C7: with keep_data disabled, every label produced by a
live-definition lookup carries a cardinality counter and no variable identity;
with keep_data enabled it carries the variable identity and no counter; and a
single reaching definition yields the counter 0. -/
theorem claim_C7_defLookup :
    (∀ (live_defs : LiveDefs) (var : SimVariable) (cl : CodeLocation) (lab : Labels),
        (cl, lab) ∈ defLookup false live_defs var →
        lab.data = none ∧ lab.count.isSome ∧ lab.type = some (varDepType var)) ∧
    (∀ (live_defs : LiveDefs) (var : SimVariable) (cl : CodeLocation) (lab : Labels),
        (cl, lab) ∈ defLookup true live_defs var →
        lab.data = some (EdgeData.var var) ∧ lab.count = none ∧
        lab.type = some (varDepType var)) ∧
    (∀ (live_defs : LiveDefs) (var : SimVariable) (L : CodeLocation),
        alookup live_defs var = some [L] →
        defLookup false live_defs var
          = [(L, { type := some (varDepType var), count := some 0 })] ∧
        defLookup true live_defs var
          = [(L, { type := some (varDepType var), data := some (EdgeData.var var) })]) := by
  refine ⟨?_, ?_, ?_⟩
  · intro live_defs var cl lab hmem
    unfold defLookup at hmem
    cases hcs : alookup live_defs var with
    | none => rw [hcs] at hmem; simp at hmem
    | some cs =>
      rw [hcs] at hmem
      have hP := foldl_preserve
        (fun prevdefs code_loc => ainsert prevdefs code_loc
          { type := some (varDepType var), count := some (countNext prevdefs code_loc) })
        (fun pd : PrevDefs => ∀ q ∈ pd,
          q.2.data = none ∧ q.2.count.isSome ∧ q.2.type = some (varDepType var)) cs
        (by
          intro s a _ hs
          intro q hq
          rcases mem_ainsert _ _ _ _ hq with h | h
          · subst h; exact ⟨rfl, rfl, rfl⟩
          · exact hs q h)
        [] (by simp)
      exact hP (cl, lab) hmem
  · intro live_defs var cl lab hmem
    unfold defLookup at hmem
    cases hcs : alookup live_defs var with
    | none => rw [hcs] at hmem; simp at hmem
    | some cs =>
      rw [hcs] at hmem
      have hP := foldl_preserve
        (fun prevdefs code_loc => ainsert prevdefs code_loc
          { type := some (varDepType var), data := some (EdgeData.var var) })
        (fun pd : PrevDefs => ∀ q ∈ pd,
          q.2.data = some (EdgeData.var var) ∧ q.2.count = none ∧
          q.2.type = some (varDepType var)) cs
        (by
          intro s a _ hs
          intro q hq
          rcases mem_ainsert _ _ _ _ hq with h | h
          · subst h; exact ⟨rfl, rfl, rfl⟩
          · exact hs q h)
        [] (by simp)
      exact hP (cl, lab) hmem
  · intro live_defs var L h
    constructor
    · unfold defLookup
      rw [h]
      simp [ainsert, alookup, countNext]
    · unfold defLookup
      rw [h]
      simp [ainsert, alookup, countNext]

/-- Witness for claim C7, echoing Scenario B of the spec: the 4-byte memory
variable at 0x8000 defined only at (0x1000, 5) yields, without data retention,
the single label (count 0), and with retention the label carrying the
variable. -/
theorem claim_C7_defLookup_witness :
    defLookup false [(SimVariable.mem 0x8000 4, [CodeLocation.loc 0x1000 5])]
        (SimVariable.mem 0x8000 4)
      = [(CodeLocation.loc 0x1000 5, { type := some DepType.mem, count := some 0 })] ∧
    defLookup true [(SimVariable.mem 0x8000 4, [CodeLocation.loc 0x1000 5])]
        (SimVariable.mem 0x8000 4)
      = [(CodeLocation.loc 0x1000 5,
          { type := some DepType.mem, data := some (EdgeData.var (SimVariable.mem 0x8000 4)) })] := by
  exact claim_C7_defLookup.2.2
    [(SimVariable.mem 0x8000 4, [CodeLocation.loc 0x1000 5])]
    (SimVariable.mem 0x8000 4) (CodeLocation.loc 0x1000 5) (by decide)

/-- Claim C1 counterexample: deriving the same (source, target) dependence a
second time does not merge the new labels into the stored edge; the graph
keeps exactly the first labels and the distinct second labels disappear. -/
theorem claim_C1_counterexample :
    addEdge (addEdge [] (CodeLocation.loc 0x1000 2) (CodeLocation.loc 0x2000 0)
        { type := some DepType.reg, count := some 0 })
      (CodeLocation.loc 0x1000 2) (CodeLocation.loc 0x2000 0)
      { type := some DepType.reg, data := some (EdgeData.var (SimVariable.reg 16 32)) }
    = [(CodeLocation.loc 0x1000 2, CodeLocation.loc 0x2000 0,
        { type := some DepType.reg, count := some 0 })] ∧
    ¬ ({ type := some DepType.reg, data := some (EdgeData.var (SimVariable.reg 16 32)) } : Labels)
        = { type := some DepType.reg, count := some 0 } := by
  decide

/-! ### Pending edge dict lemmas -/

theorem alookup_mem [DecidableEq α] (d : List (α × β)) (k : α) (v : β)
    (h : alookup d k = some v) : (k, v) ∈ d := by
  induction d with
  | nil => cases h
  | cons p rest ih =>
    rw [alookup] at h
    by_cases hp : p.1 = k
    · rw [if_pos hp] at h
      have h2 := Option.some.inj h
      exact List.mem_cons.2 (Or.inl (by cases p; simp_all))
    · rw [if_neg hp] at h
      exact List.mem_cons.2 (Or.inr (ih h))

theorem alookup_filter_ne [DecidableEq α] (d : List (α × β)) (key k' : α) :
    alookup (d.filter (fun p => !(decide (p.1 = key)))) k'
      = if k' = key then none else alookup d k' := by
  induction d with
  | nil => simp [alookup]
  | cons p rest ih =>
    by_cases hp : p.1 = key
    · rw [List.filter_cons_of_neg (by simp [hp]), ih]
      by_cases hk : k' = key
      · simp [hk]
      · have hpk : ¬ p.1 = k' := by rw [hp]; exact fun hh => hk hh.symm
        rw [if_neg hk, if_neg hk, alookup, if_neg hpk]
    · rw [List.filter_cons_of_pos (by simp [hp])]
      by_cases hpk : p.1 = k'
      · have hk : ¬ k' = key := by rw [← hpk]; exact hp
        rw [alookup, if_pos hpk, if_neg hk, alookup, if_pos hpk]
      · rw [alookup, if_neg hpk, ih]
        by_cases hk : k' = key
        · simp [hk]
        · rw [if_neg hk, if_neg hk, alookup, if_neg hpk]

theorem ddGetCreate_snd (d : EdgeDict) (key : Nat) :
    (ddGetCreate d key).2 = (alookup d key).getD [] := by
  unfold ddGetCreate
  cases h : alookup d key <;> simp [h]

theorem ddGetCreate_fst_lookup (d : EdgeDict) (key : Nat) (k' : Nat) :
    alookup (ddGetCreate d key).1 k'
      = if k' = key then some ((alookup d key).getD []) else alookup d k' := by
  unfold ddGetCreate
  cases h : alookup d key with
  | some es =>
    by_cases hk : k' = key
    · simp [hk, h]
    · simp [hk]
  | none =>
    have hrw : d ++ [(key, ([] : List Edge))] = ainsert d key [] :=
      (ainsert_of_none d key [] h).symm
    by_cases hk : k' = key
    · subst hk
      simp only [hrw, alookup_ainsert_self, if_pos rfl, h]
      rfl
    · simp only [hrw, if_neg hk]
      exact alookup_ainsert_ne _ _ _ _ hk

theorem ddGetCreate_fst_of_isSome (d : EdgeDict) (key : Nat)
    (h : (alookup d key).isSome = true) : (ddGetCreate d key).1 = d := by
  unfold ddGetCreate
  cases h2 : alookup d key with
  | some es => rfl
  | none => rw [h2] at h; cases h

theorem alookup_ddAppend (d : EdgeDict) (key : Nat) (e : Edge) (k' : Nat) :
    alookup (ddAppend d key e) k'
      = if k' = key then some ((alookup d key).getD [] ++ [e]) else alookup d k' := by
  have hd : ddAppend d key e
      = ainsert (ddGetCreate d key).1 key ((ddGetCreate d key).2 ++ [e]) := rfl
  rw [hd]
  by_cases hk : k' = key
  · subst hk
    rw [if_pos rfl, alookup_ainsert_self, ddGetCreate_snd]
  · rw [if_neg hk, alookup_ainsert_ne _ _ _ _ hk, ddGetCreate_fst_lookup, if_neg hk]

theorem alookup_annotateEdges (d : EdgeDict) (key : Nat) (v : SubType) (k' : Nat) :
    alookup (annotateEdges d key v) k'
      = if k' = key then
          some (((alookup d key).getD []).map
            (fun e => (e.1, e.2.1, { e.2.2 with subtype := e.2.2.subtype ++ [v] })))
        else alookup d k' := by
  have hd : annotateEdges d key v
      = ainsert (ddGetCreate d key).1 key
          ((ddGetCreate d key).2.map
            (fun e => (e.1, e.2.1, { e.2.2 with subtype := e.2.2.subtype ++ [v] }))) := rfl
  rw [hd]
  by_cases hk : k' = key
  · subst hk
    rw [if_pos rfl, alookup_ainsert_self, ddGetCreate_snd]
  · rw [if_neg hk, alookup_ainsert_ne _ _ _ _ hk, ddGetCreate_fst_lookup, if_neg hk]

theorem dump_fold_snd (es : List Edge) : ∀ (g : DepGraph) (em : List Edge),
    (es.foldl (fun (p : DepGraph × List Edge) e =>
        (addEdge p.1 e.1 e.2.1 e.2.2, p.2 ++ [e])) (g, em)).2 = em ++ es := by
  induction es with
  | nil => intro g em; simp
  | cons e rest ih =>
    intro g em
    simp only [List.foldl_cons]
    rw [ih]
    simp

theorem dump_fold_fst_DGWF (es : List Edge) : ∀ (g : DepGraph) (em : List Edge),
    DGWF g →
    DGWF (es.foldl (fun (p : DepGraph × List Edge) e =>
        (addEdge p.1 e.1 e.2.1 e.2.2, p.2 ++ [e])) (g, em)).1 := by
  intro g em h
  have := foldl_preserve
    (fun (p : DepGraph × List Edge) e => (addEdge p.1 e.1 e.2.1 e.2.2, p.2 ++ [e]))
    (fun p => DGWF p.1) es
    (fun s a _ hs => DGWF_addEdge _ _ _ _ hs) (g, em) h
  exact this

theorem dumpFrom_emitted (g : DepGraph) (em : List Edge) (d : EdgeDict) (key : Nat)
    (dk : Bool) : (dumpFrom g em d key dk).2.1 = em ++ (alookup d key).getD [] := by
  have hd : (dumpFrom g em d key dk).2.1
      = ((ddGetCreate d key).2.foldl (fun (p : DepGraph × List Edge) e =>
          (addEdge p.1 e.1 e.2.1 e.2.2, p.2 ++ [e])) (g, em)).2 := rfl
  rw [hd, dump_fold_snd, ddGetCreate_snd]

theorem dumpFrom_DGWF (g : DepGraph) (em : List Edge) (d : EdgeDict) (key : Nat)
    (dk : Bool) (h : DGWF g) : DGWF (dumpFrom g em d key dk).1 := by
  have hd : (dumpFrom g em d key dk).1
      = ((ddGetCreate d key).2.foldl (fun (p : DepGraph × List Edge) e =>
          (addEdge p.1 e.1 e.2.1 e.2.2, p.2 ++ [e])) (g, em)).1 := rfl
  rw [hd]
  exact dump_fold_fst_DGWF _ _ _ h

theorem dumpFrom_dict_del (g : DepGraph) (em : List Edge) (d : EdgeDict) (key : Nat)
    (k' : Nat) : alookup (dumpFrom g em d key true).2.2 k'
      = if k' = key then none else alookup d k' := by
  have hd : (dumpFrom g em d key true).2.2
      = (ddGetCreate d key).1.filter (fun p => !(decide (p.1 = key))) := rfl
  rw [hd, alookup_filter_ne]
  by_cases hk : k' = key
  · simp [hk]
  · rw [if_neg hk, if_neg hk, ddGetCreate_fst_lookup, if_neg hk]

theorem dumpFrom_dict_keep (g : DepGraph) (em : List Edge) (d : EdgeDict) (key : Nat)
    (k' : Nat) : alookup (dumpFrom g em d key false).2.2 k'
      = if k' = key then some ((alookup d key).getD []) else alookup d k' := by
  have hd : (dumpFrom g em d key false).2.2 = (ddGetCreate d key).1 := rfl
  rw [hd]
  exact ddGetCreate_fst_lookup d key k'

theorem dumpFrom_dict_keep_eq (g : DepGraph) (em : List Edge) (d : EdgeDict) (key : Nat)
    (h : (alookup d key).isSome = true) : (dumpFrom g em d key false).2.2 = d := by
  have hd : (dumpFrom g em d key false).2.2 = (ddGetCreate d key).1 := rfl
  rw [hd]
  exact ddGetCreate_fst_of_isSome d key h

/-! ### Merge loop lemmas -/

theorem mergeAddLoc_fold (v : SimVariable) (locs : List CodeLocation) :
    ∀ (acc : LiveDefs × Bool) (cur0 : DefSet), alookup acc.1 v = some cur0 →
    ∃ added : DefSet,
      alookup (locs.foldl (mergeAddLoc v) acc).1 v = some (cur0 ++ added) ∧
      (∀ l ∈ added, l ∉ cur0 ∧ l ∈ locs) ∧
      (∀ l ∈ locs, l ∈ cur0 ++ added) ∧
      ((locs.foldl (mergeAddLoc v) acc).2 = true ↔ acc.2 = true ∨ ¬ added = []) ∧
      (∀ w, ¬ w = v → alookup (locs.foldl (mergeAddLoc v) acc).1 w = alookup acc.1 w) ∧
      (locs.foldl (mergeAddLoc v) acc).1.map Prod.fst = acc.1.map Prod.fst ∧
      szLD (locs.foldl (mergeAddLoc v) acc).1 = szLD acc.1 + added.length ∧
      added.Nodup ∧
      (added = [] → locs.foldl (mergeAddLoc v) acc = acc) := by
  induction locs with
  | nil =>
    intro acc cur0 h
    exact ⟨[], by simpa using h, by simp, by simp, by simp, fun w _ => rfl, rfl, by simp,
      by simp, fun _ => rfl⟩
  | cons l rest ih =>
    intro acc cur0 h
    have hstep : mergeAddLoc v acc l
        = if l ∈ cur0 then acc else (ainsert acc.1 v (cur0 ++ [l]), true) := by
      unfold mergeAddLoc
      rw [h]
      rfl
    by_cases hl : l ∈ cur0
    · simp only [List.foldl_cons, hstep, if_pos hl]
      obtain ⟨added, p1, p2, p3, p4, p5, p6, p7, p8, p9⟩ := ih acc cur0 h
      refine ⟨added, p1, ?_, ?_, p4, p5, p6, p7, p8, p9⟩
      · intro x hx
        exact ⟨(p2 x hx).1, List.mem_cons_of_mem _ (p2 x hx).2⟩
      · intro x hx
        rcases List.mem_cons.1 hx with h2 | h2
        · subst h2; exact List.mem_append.2 (Or.inl hl)
        · exact p3 x h2
    · simp only [List.foldl_cons, hstep, if_neg hl]
      have hlook : alookup (ainsert acc.1 v (cur0 ++ [l]), true).1 v = some (cur0 ++ [l]) :=
        alookup_ainsert_self _ _ _
      obtain ⟨added2, q1, q2, q3, q4, q5, q6, q7, q8, q9⟩ := ih _ _ hlook
      refine ⟨l :: added2, ?_, ?_, ?_, ?_, ?_, ?_, ?_, ?_, ?_⟩
      · rw [q1]; simp
      · intro x hx
        rcases List.mem_cons.1 hx with h2 | h2
        · subst h2; exact ⟨hl, List.mem_cons_self _ _⟩
        · obtain ⟨hn, hm⟩ := q2 x h2
          refine ⟨fun hc => hn (List.mem_append.2 (Or.inl hc)), List.mem_cons_of_mem _ hm⟩
      · intro x hx
        rcases List.mem_cons.1 hx with h2 | h2
        · subst h2
          exact List.mem_append.2 (Or.inr (List.mem_cons_self _ _))
        · have h3 := q3 x h2
          simp only [List.mem_append, List.mem_cons, List.mem_singleton] at h3 ⊢
          tauto
      · have h3 : (rest.foldl (mergeAddLoc v) (ainsert acc.1 v (cur0 ++ [l]), true)).2 = true :=
          q4.mpr (Or.inl rfl)
        exact iff_of_true h3 (Or.inr (by simp))
      · intro w hw
        rw [q5 w hw]
        exact alookup_ainsert_ne _ _ _ _ hw
      · rw [q6]
        exact keys_ainsert_of_isSome _ _ _ (by rw [h]; rfl)
      · rw [q7]
        have hgoal : szLD (ainsert acc.1 v (cur0 ++ [l])) + added2.length
            = szLD acc.1 + (l :: added2).length := by
          have hsz := szLD_ainsert acc.1 v (cur0 ++ [l]) cur0 h
          simp only [List.length_append, List.length_cons, List.length_nil] at hsz ⊢
          omega
        exact hgoal
      · refine List.nodup_cons.mpr ⟨?_, q8⟩
        intro hc
        exact (q2 l hc).1 (List.mem_append.2 (Or.inr (List.mem_cons_self _ _)))
      · intro hc; cases hc

theorem mergeVarDefs_spec (acc : LiveDefs × Bool) (entry : SimVariable × DefSet)
    (hne : ¬ entry.2 = []) (hnd : entry.2.Nodup) :
    ∃ added : DefSet,
      alookup (mergeVarDefs acc entry).1 entry.1
        = some ((alookup acc.1 entry.1).getD [] ++ added) ∧
      (∀ l ∈ added, l ∉ (alookup acc.1 entry.1).getD [] ∧ l ∈ entry.2) ∧
      (∀ l ∈ entry.2, l ∈ (alookup acc.1 entry.1).getD [] ++ added) ∧
      ((mergeVarDefs acc entry).2 = true ↔ acc.2 = true ∨ ¬ added = []) ∧
      (∀ w, ¬ w = entry.1 → alookup (mergeVarDefs acc entry).1 w = alookup acc.1 w) ∧
      ((mergeVarDefs acc entry).1.map Prod.fst = acc.1.map Prod.fst ∨
        ((mergeVarDefs acc entry).1.map Prod.fst = acc.1.map Prod.fst ++ [entry.1] ∧
          entry.1 ∉ acc.1.map Prod.fst)) ∧
      szLD (mergeVarDefs acc entry).1 = szLD acc.1 + added.length ∧
      added.Nodup ∧
      (added = [] → mergeVarDefs acc entry = acc) := by
  cases hlook : alookup acc.1 entry.1 with
  | none =>
    have heq : mergeVarDefs acc entry = (ainsert acc.1 entry.1 entry.2, true) := by
      unfold mergeVarDefs; rw [hlook]
    refine ⟨entry.2, ?_, ?_, ?_, ?_, ?_, ?_, ?_, hnd, ?_⟩
    · rw [heq]
      simp [alookup_ainsert_self]
    · intro l hl
      exact ⟨by simp, hl⟩
    · intro l hl
      simpa using hl
    · rw [heq]
      exact iff_of_true rfl (Or.inr hne)
    · intro w hw
      rw [heq]
      exact alookup_ainsert_ne _ _ _ _ hw
    · rw [heq]
      refine Or.inr ⟨?_, (alookup_eq_none _ _).1 hlook⟩
      rw [ainsert_of_none _ _ _ hlook]
      simp
    · rw [heq]
      rw [ainsert_of_none _ _ _ hlook, szLD_append, szLD_cons]
      simp [szLD]
    · intro hc; exact absurd hc hne
  | some cur0 =>
    have heq : mergeVarDefs acc entry = entry.2.foldl (mergeAddLoc entry.1) acc := by
      unfold mergeVarDefs; rw [hlook]
    obtain ⟨added, p1, p2, p3, p4, p5, p6, p7, p8, p9⟩ :=
      mergeAddLoc_fold entry.1 entry.2 acc cur0 hlook
    refine ⟨added, ?_, ?_, ?_, ?_, ?_, ?_, ?_, p8, ?_⟩
    · rw [heq]; simpa using p1
    · intro l hl
      simpa using p2 l hl
    · intro l hl
      simpa using p3 l hl
    · rw [heq]; exact p4
    · intro w hw
      rw [heq]; exact p5 w hw
    · rw [heq]; exact Or.inl p6
    · rw [heq]; exact p7
    · intro hc
      rw [heq]; exact p9 hc

theorem mergeDefs_fold_spec (nd : List (SimVariable × DefSet)) :
    ∀ (dfn : LiveDefs) (c : Bool),
      (nd.map Prod.fst).Nodup →
      (∀ p ∈ nd, ¬ p.2 = [] ∧ p.2.Nodup) →
      (∀ w, w ∉ nd.map Prod.fst →
        alookup (nd.foldl mergeVarDefs (dfn, c)).1 w = alookup dfn w) ∧
      (∀ p ∈ nd, ∃ added : DefSet,
        alookup (nd.foldl mergeVarDefs (dfn, c)).1 p.1
            = some ((alookup dfn p.1).getD [] ++ added) ∧
        (∀ l ∈ added, l ∉ (alookup dfn p.1).getD [] ∧ l ∈ p.2) ∧
        (∀ l ∈ p.2, l ∈ (alookup dfn p.1).getD [] ++ added) ∧ added.Nodup) ∧
      ((nd.foldl mergeVarDefs (dfn, c)).2 = true ↔
        c = true ∨ ∃ p ∈ nd, ∃ l ∈ p.2, l ∉ (alookup dfn p.1).getD []) ∧
      szLD dfn ≤ szLD (nd.foldl mergeVarDefs (dfn, c)).1 ∧
      (c = false → (nd.foldl mergeVarDefs (dfn, c)).2 = true →
        szLD dfn + 1 ≤ szLD (nd.foldl mergeVarDefs (dfn, c)).1) ∧
      ((nd.foldl mergeVarDefs (dfn, c)).2 = false →
        (nd.foldl mergeVarDefs (dfn, c)).1 = dfn ∧ c = false) ∧
      (∀ k ∈ (nd.foldl mergeVarDefs (dfn, c)).1.map Prod.fst,
        k ∈ dfn.map Prod.fst ∨ k ∈ nd.map Prod.fst) ∧
      ((dfn.map Prod.fst).Nodup → ((nd.foldl mergeVarDefs (dfn, c)).1.map Prod.fst).Nodup) := by
  induction nd with
  | nil =>
    intro dfn c _ _
    refine ⟨fun w _ => rfl, by simp, by simp, Nat.le_refl _, ?_, ?_, fun k hk => Or.inl hk, fun h => h⟩
    · intro hc h2
      rw [hc] at h2
      cases h2
    · intro h
      exact ⟨rfl, h⟩
  | cons p0 rest ih =>
    intro dfn c hkeys hvals
    simp only [List.map_cons, List.nodup_cons] at hkeys
    have hp0 := hvals p0 (List.mem_cons_self _ _)
    obtain ⟨added0, m1, m2, m3, m4, m5, m6, m7, m8, m9⟩ :=
      mergeVarDefs_spec (dfn, c) p0 hp0.1 hp0.2
    simp only [List.foldl_cons]
    set acc1 := mergeVarDefs (dfn, c) p0 with hacc1
    obtain ⟨i1, i2, i3, i4, i5, i6, i7, i8⟩ :=
      ih acc1.1 acc1.2 hkeys.2 (fun p hp => hvals p (List.mem_cons_of_mem _ hp))
    have hfold : rest.foldl mergeVarDefs (acc1.1, acc1.2) = rest.foldl mergeVarDefs acc1 := by
      rfl
    rw [hfold] at i1 i2 i3 i4 i5 i6 i7 i8
    have hne_of_mem : ∀ p ∈ rest, ¬ p.1 = p0.1 := by
      intro p hp hc
      exact hkeys.1 (by rw [← hc]; exact List.mem_map_of_mem Prod.fst hp)
    have hadded0_iff : ¬ added0 = [] ↔ ∃ l ∈ p0.2, l ∉ (alookup dfn p0.1).getD [] := by
      constructor
      · intro hne2
        cases hadded : added0 with
        | nil => exact absurd hadded hne2
        | cons x xs =>
          have hx := m2 x (by rw [hadded]; exact List.mem_cons_self _ _)
          exact ⟨x, hx.2, hx.1⟩
      · rintro ⟨l, hl, hnot⟩ hempty
        rw [hempty] at m3
        have := m3 l hl
        simp at this
        exact hnot this
    refine ⟨?_, ?_, ?_, ?_, ?_, ?_, ?_, ?_⟩
    · intro w hw
      simp only [List.map_cons, List.mem_cons] at hw
      push_neg at hw
      rw [i1 w (by simpa using hw.2), m5 w hw.1]
    · intro p hp
      rcases List.mem_cons.1 hp with h2 | h2
      · subst h2
        have hlook1 : alookup (rest.foldl mergeVarDefs acc1).1 p.1 = alookup acc1.1 p.1 := by
          apply i1
          intro hc
          rcases List.mem_map.1 hc with ⟨q, hq, hq2⟩
          exact hne_of_mem q hq hq2
        exact ⟨added0, by rw [hlook1]; exact m1, m2, m3, m8⟩
      · obtain ⟨added, a1, a2, a3, a4⟩ := i2 p h2
        have hlp : alookup acc1.1 p.1 = alookup dfn p.1 := m5 p.1 (hne_of_mem p h2)
        rw [hlp] at a1 a2 a3
        exact ⟨added, a1, a2, a3, a4⟩
    · rw [i3]
      have hc1 : acc1.2 = true ↔ c = true ∨ ¬ added0 = [] := m4
      constructor
      · rintro (h2 | h2)
        · rcases hc1.1 h2 with h3 | h3
          · exact Or.inl h3
          · exact Or.inr ⟨p0, List.mem_cons_self _ _, hadded0_iff.1 h3⟩
        · obtain ⟨p, hp, l, hl, hnot⟩ := h2
          rw [m5 p.1 (hne_of_mem p hp)] at hnot
          exact Or.inr ⟨p, List.mem_cons_of_mem _ hp, l, hl, hnot⟩
      · rintro (h2 | h2)
        · exact Or.inl (hc1.2 (Or.inl h2))
        · obtain ⟨p, hp, l, hl, hnot⟩ := h2
          rcases List.mem_cons.1 hp with h3 | h3
          · subst h3
            exact Or.inl (hc1.2 (Or.inr (hadded0_iff.2 ⟨l, hl, hnot⟩)))
          · refine Or.inr ⟨p, h3, l, hl, ?_⟩
            rw [m5 p.1 (hne_of_mem p h3)]
            exact hnot
    · have hd : szLD (dfn, c).1 = szLD dfn := rfl
      calc szLD dfn ≤ szLD acc1.1 := by rw [m7]; omega
        _ ≤ _ := i4
    · intro hc h2
      have hd : szLD (dfn, c).1 = szLD dfn := rfl
      cases hc1 : acc1.2 with
      | true =>
        rcases m4.1 hc1 with h3 | h3
        · rw [hc] at h3; cases h3
        · have hlen : 1 ≤ added0.length := by
            cases hadded : added0 with
            | nil => exact absurd hadded h3
            | cons x xs => simp
          calc szLD dfn + 1 ≤ szLD acc1.1 := by rw [m7]; omega
            _ ≤ _ := i4
      | false =>
        have h4 := i5 hc1 h2
        have hnotor : ¬ (c = true ∨ ¬ added0 = []) := by
          rw [← m4, hc1]
          simp
        have h6 : added0 = [] := by
          by_contra hcon
          exact hnotor (Or.inr hcon)
        have h8 : acc1.1 = dfn := by rw [m9 h6]
        rw [h8] at h4
        exact h4
    · intro h2
      obtain ⟨h3, h4⟩ := i6 h2
      have hnotor : ¬ (c = true ∨ ¬ added0 = []) := by
        rw [← m4, h4]
        simp
      have h5 : added0 = [] := by
        by_contra hcon
        exact hnotor (Or.inr hcon)
      have h6 : acc1 = (dfn, c) := m9 h5
      have h7 : c = false := by
        have hcc : acc1.2 = c := by rw [h6]
        rw [← hcc, h4]
      refine ⟨?_, h7⟩
      rw [h3, h6]
    · intro k hk
      rcases i7 k hk with h2 | h2
      · rcases m6 with h3 | h3
        · rw [h3] at h2
          exact Or.inl h2
        · rw [h3.1] at h2
          rcases List.mem_append.1 h2 with h4 | h4
          · exact Or.inl h4
          · simp only [List.mem_singleton] at h4
            exact Or.inr (by rw [h4]; simp)
      · exact Or.inr (List.mem_cons_of_mem _ h2)
    · intro hdfn
      apply i8
      rcases m6 with h3 | h3
      · rw [h3]; exact hdfn
      · rw [h3.1]
        rw [List.nodup_append]
        exact ⟨hdfn, List.nodup_singleton _, by
          intro x hx hx2
          simp only [List.mem_singleton] at hx2
          subst hx2
          exact h3.2 hx⟩

/-- Claim C5: merging the new definitions of a trace replay into the stored
snapshot of the successor node inserts the definition set of every variable
absent from the snapshot, adds exactly the not-yet-present code locations for
every variable already present, leaves every other variable untouched, and
reports a change exactly when some code location was newly added (the
hypotheses state that the new-defs dict has distinct keys and duplicate-free,
nonempty sets — true of every dict the trace replay produces). -/
theorem claim_C5_merge (new_defs defs_for_next_node : LiveDefs)
    (h1 : (new_defs.map Prod.fst).Nodup)
    (h2 : ∀ p ∈ new_defs, ¬ p.2 = [] ∧ p.2.Nodup) :
    (∀ w, w ∉ new_defs.map Prod.fst →
        alookup (mergeDefs new_defs defs_for_next_node).1 w
          = alookup defs_for_next_node w) ∧
    (∀ p ∈ new_defs, ∃ added : DefSet,
        alookup (mergeDefs new_defs defs_for_next_node).1 p.1
          = some ((alookup defs_for_next_node p.1).getD [] ++ added) ∧
        (∀ l ∈ added, l ∉ (alookup defs_for_next_node p.1).getD [] ∧ l ∈ p.2) ∧
        (∀ l ∈ p.2, l ∈ (alookup defs_for_next_node p.1).getD [] ++ added)) ∧
    ((mergeDefs new_defs defs_for_next_node).2 = true ↔
        ∃ p ∈ new_defs, ∃ l ∈ p.2, l ∉ (alookup defs_for_next_node p.1).getD []) := by
  obtain ⟨g1, g2, g3, _, _, _, _, _⟩ :=
    mergeDefs_fold_spec new_defs defs_for_next_node false h1 h2
  refine ⟨g1, ?_, by simpa using g3⟩
  intro p hp
  obtain ⟨added, a1, a2, a3, _⟩ := g2 p hp
  exact ⟨added, a1, a2, a3⟩

/-! ### Pending pair tracking (claim C8) -/

theorem pairEmitted_append (em more : List Edge) (s t : CodeLocation)
    (h : pairEmitted em s t) : pairEmitted (em ++ more) s t := by
  obtain ⟨e, he, hs, ht⟩ := h
  exact ⟨e, List.mem_append.2 (Or.inl he), hs, ht⟩

theorem pairPending_annotate (d : EdgeDict) (key : Nat) (v : SubType) (s t : CodeLocation)
    (h : pairPending d s t) : pairPending (annotateEdges d key v) s t := by
  obtain ⟨k0, es, hlook, e, he, hs, ht⟩ := h
  by_cases hk : k0 = key
  · subst hk
    have hes : (alookup d k0).getD [] = es := by rw [hlook]; rfl
    refine ⟨k0, ((alookup d k0).getD []).map
        (fun e2 => (e2.1, e2.2.1, { e2.2.2 with subtype := e2.2.2.subtype ++ [v] })), ?_, ?_⟩
    · rw [alookup_annotateEdges, if_pos rfl]
    · rw [hes]
      exact ⟨(e.1, e.2.1, { e.2.2 with subtype := e.2.2.subtype ++ [v] }),
        List.mem_map_of_mem _ he, hs, ht⟩
  · exact ⟨k0, es, by rw [alookup_annotateEdges, if_neg hk]; exact hlook, e, he, hs, ht⟩

theorem pairPending_ddAppend (d : EdgeDict) (key : Nat) (e2 : Edge) (s t : CodeLocation)
    (h : pairPending d s t) : pairPending (ddAppend d key e2) s t := by
  obtain ⟨k0, es, hlook, e, he, hs, ht⟩ := h
  by_cases hk : k0 = key
  · subst hk
    have hes : (alookup d k0).getD [] = es := by rw [hlook]; rfl
    refine ⟨k0, (alookup d k0).getD [] ++ [e2],
      by rw [alookup_ddAppend, if_pos rfl], e, ?_, hs, ht⟩
    rw [hes]
    exact List.mem_append.2 (Or.inl he)
  · exact ⟨k0, es, by rw [alookup_ddAppend, if_neg hk]; exact hlook, e, he, hs, ht⟩

theorem pairPending_ddAppend_self (d : EdgeDict) (key : Nat) (e2 : Edge) :
    pairPending (ddAppend d key e2) e2.1 e2.2.1 :=
  ⟨key, (alookup d key).getD [] ++ [e2], by rw [alookup_ddAppend, if_pos rfl],
   e2, List.mem_append.2 (Or.inr (List.mem_cons_self _ _)), rfl, rfl⟩

theorem pairLive_emitEdge (st : TrackState) (s0 t0 : CodeLocation) (lab : Labels)
    (s t : CodeLocation) (h : pairLive st s t) : pairLive (emitEdge st s0 t0 lab) s t := by
  rcases h with h | h | h
  · exact Or.inl (pairEmitted_append _ _ _ _ h)
  · exact Or.inr (Or.inl h)
  · exact Or.inr (Or.inr h)

theorem pairLive_dumpRegs (st : TrackState) (k : Nat) (dk : Bool) (s t : CodeLocation)
    (h : pairLive st s t) : pairLive (dumpRegs st k dk) s t := by
  have hem : (dumpRegs st k dk).emitted
      = st.emitted ++ (alookup st.regs_to_edges k).getD [] := by
    have hr : (dumpRegs st k dk).emitted
        = (dumpFrom st.graph st.emitted st.regs_to_edges k dk).2.1 := rfl
    rw [hr, dumpFrom_emitted]
  have htd : (dumpRegs st k dk).temps_to_edges = st.temps_to_edges := rfl
  have hrd : (dumpRegs st k dk).regs_to_edges
      = (dumpFrom st.graph st.emitted st.regs_to_edges k dk).2.2 := rfl
  rcases h with h | h | h
  · exact Or.inl (by rw [hem]; exact pairEmitted_append _ _ _ _ h)
  · exact Or.inr (Or.inl (by rw [htd]; exact h))
  · obtain ⟨k0, es, hlook, e, he, hs, ht⟩ := h
    by_cases hk : k0 = k
    · subst hk
      have hes : (alookup st.regs_to_edges k0).getD [] = es := by rw [hlook]; rfl
      refine Or.inl ?_
      rw [hem, hes]
      exact ⟨e, List.mem_append.2 (Or.inr he), hs, ht⟩
    · refine Or.inr (Or.inr ⟨k0, es, ?_, e, he, hs, ht⟩)
      rw [hrd]
      cases dk with
      | true => rw [dumpFrom_dict_del, if_neg hk]; exact hlook
      | false => rw [dumpFrom_dict_keep, if_neg hk]; exact hlook

theorem pairLive_dumpTemps (st : TrackState) (k : Nat) (dk : Bool) (s t : CodeLocation)
    (h : pairLive st s t) : pairLive (dumpTemps st k dk) s t := by
  have hem : (dumpTemps st k dk).emitted
      = st.emitted ++ (alookup st.temps_to_edges k).getD [] := by
    have hr : (dumpTemps st k dk).emitted
        = (dumpFrom st.graph st.emitted st.temps_to_edges k dk).2.1 := rfl
    rw [hr, dumpFrom_emitted]
  have hrd : (dumpTemps st k dk).regs_to_edges = st.regs_to_edges := rfl
  have htd : (dumpTemps st k dk).temps_to_edges
      = (dumpFrom st.graph st.emitted st.temps_to_edges k dk).2.2 := rfl
  rcases h with h | h | h
  · exact Or.inl (by rw [hem]; exact pairEmitted_append _ _ _ _ h)
  · obtain ⟨k0, es, hlook, e, he, hs, ht⟩ := h
    by_cases hk : k0 = k
    · subst hk
      have hes : (alookup st.temps_to_edges k0).getD [] = es := by rw [hlook]; rfl
      refine Or.inl ?_
      rw [hem, hes]
      exact ⟨e, List.mem_append.2 (Or.inr he), hs, ht⟩
    · refine Or.inr (Or.inl ⟨k0, es, ?_, e, he, hs, ht⟩)
      rw [htd]
      cases dk with
      | true => rw [dumpFrom_dict_del, if_neg hk]; exact hlook
      | false => rw [dumpFrom_dict_keep, if_neg hk]; exact hlook
  · refine Or.inr (Or.inr ?_)
    rw [hrd]
    exact h

theorem C8Inv_of_mono (st st' : TrackState) (henq : st'.enqueued = st.enqueued)
    (hlive : ∀ s t, pairLive st s t → pairLive st' s t) (h : C8Inv st) : C8Inv st' := by
  intro e he
  rw [henq] at he
  exact hlive _ _ (h e he)

theorem C8Inv_emitEdge (st : TrackState) (s0 t0 : CodeLocation) (lab : Labels)
    (h : C8Inv st) : C8Inv (emitEdge st s0 t0 lab) :=
  C8Inv_of_mono st _ rfl (pairLive_emitEdge st s0 t0 lab) h

theorem C8Inv_dumpRegs (st : TrackState) (k : Nat) (dk : Bool) (h : C8Inv st) :
    C8Inv (dumpRegs st k dk) :=
  C8Inv_of_mono st _ rfl (pairLive_dumpRegs st k dk) h

theorem C8Inv_dumpTemps (st : TrackState) (k : Nat) (dk : Bool) (h : C8Inv st) :
    C8Inv (dumpTemps st k dk) :=
  C8Inv_of_mono st _ rfl (pairLive_dumpTemps st k dk) h

theorem C8Inv_annotateRegs (st : TrackState) (r : Nat) (v : SubType) (h : C8Inv st) :
    C8Inv { st with regs_to_edges := annotateEdges st.regs_to_edges r v } := by
  refine C8Inv_of_mono st _ rfl ?_ h
  intro s t hl
  rcases hl with hl | hl | hl
  · exact Or.inl hl
  · exact Or.inr (Or.inl hl)
  · exact Or.inr (Or.inr (pairPending_annotate _ _ _ _ _ hl))

theorem C8Inv_annotateTemps (st : TrackState) (r : Nat) (v : SubType) (h : C8Inv st) :
    C8Inv { st with temps_to_edges := annotateEdges st.temps_to_edges r v } := by
  refine C8Inv_of_mono st _ rfl ?_ h
  intro s t hl
  rcases hl with hl | hl | hl
  · exact Or.inl hl
  · exact Or.inr (Or.inl (pairPending_annotate _ _ _ _ _ hl))
  · exact Or.inr (Or.inr hl)

theorem C8Inv_live_defs (st : TrackState) (ld : LiveDefs) (h : C8Inv st) :
    C8Inv { st with live_defs := ld } := by
  refine C8Inv_of_mono st _ rfl ?_ h
  intro s t hl
  exact hl

theorem C8Inv_temps (st : TrackState) (tm : List (Nat × CodeLocation)) (h : C8Inv st) :
    C8Inv { st with temps := tm } := by
  refine C8Inv_of_mono st _ rfl ?_ h
  intro s t hl
  exact hl

theorem C8Inv_regAppend (st : TrackState) (k : Nat) (e : Edge) (h : C8Inv st) :
    C8Inv { st with regs_to_edges := ddAppend st.regs_to_edges k e,
                    enqueued := st.enqueued ++ [e] } := by
  intro e2 he2
  rcases List.mem_append.1 he2 with h2 | h2
  · have hl := h e2 h2
    rcases hl with hl | hl | hl
    · exact Or.inl hl
    · exact Or.inr (Or.inl hl)
    · exact Or.inr (Or.inr (pairPending_ddAppend _ _ _ _ _ hl))
  · simp only [List.mem_singleton] at h2
    subst h2
    exact Or.inr (Or.inr (pairPending_ddAppend_self _ _ _))

theorem C8Inv_tempAppend (st : TrackState) (k : Nat) (e : Edge) (h : C8Inv st) :
    C8Inv { st with temps_to_edges := ddAppend st.temps_to_edges k e,
                    enqueued := st.enqueued ++ [e] } := by
  intro e2 he2
  rcases List.mem_append.1 he2 with h2 | h2
  · have hl := h e2 h2
    rcases hl with hl | hl | hl
    · exact Or.inl hl
    · exact Or.inr (Or.inl (pairPending_ddAppend _ _ _ _ _ hl))
    · exact Or.inr (Or.inr hl)
  · simp only [List.mem_singleton] at h2
    subst h2
    exact Or.inr (Or.inl (pairPending_ddAppend_self _ _ _))

theorem C8Inv_memAddrStep (kd : Bool) (action : RW) (ds : Nat) (ard atd drd dtd : List Nat)
    (cl : CodeLocation) (st : TrackState) (addr : Nat) (h : C8Inv st) :
    C8Inv (memAddrStep kd action ds ard atd drd dtd cl st addr) := by
  have h1 : ∀ s : TrackState, C8Inv s → C8Inv (if action = RW.read then
      (defLookup kd s.live_defs (SimVariable.mem addr ds)).foldl
        (fun st2 p => emitEdge st2 p.1 cl p.2) s else s) := by
    intro s hs
    split
    · exact foldl_preserve _ C8Inv _ (fun s2 p _ hs2 => C8Inv_emitEdge s2 p.1 cl p.2 hs2) s hs
    · exact hs
  have h2 : ∀ s : TrackState, C8Inv s → C8Inv (if action = RW.write then
      { s with live_defs := kill s.live_defs (SimVariable.mem addr ds) cl } else s) := by
    intro s hs
    split
    · exact C8Inv_live_defs s _ hs
    · exact hs
  have h3 : ∀ s : TrackState, C8Inv s → C8Inv (ard.foldl
      (fun st2 r => { st2 with regs_to_edges := annotateEdges st2.regs_to_edges r .memAddr }) s) :=
    fun s hs => foldl_preserve _ C8Inv _ (fun s2 r _ hs2 => C8Inv_annotateRegs s2 r _ hs2) s hs
  have h4 : ∀ s : TrackState, C8Inv s → C8Inv (atd.foldl
      (fun st2 t => { st2 with temps_to_edges := annotateEdges st2.temps_to_edges t .memAddr }) s) :=
    fun s hs => foldl_preserve _ C8Inv _ (fun s2 r _ hs2 => C8Inv_annotateTemps s2 r _ hs2) s hs
  have h5 : ∀ s : TrackState, C8Inv s → C8Inv (drd.foldl
      (fun st2 r => { st2 with regs_to_edges := annotateEdges st2.regs_to_edges r .memData }) s) :=
    fun s hs => foldl_preserve _ C8Inv _ (fun s2 r _ hs2 => C8Inv_annotateRegs s2 r _ hs2) s hs
  have h6 : ∀ s : TrackState, C8Inv s → C8Inv (dtd.foldl
      (fun st2 t => { st2 with temps_to_edges := annotateEdges st2.temps_to_edges t .memData }) s) :=
    fun s hs => foldl_preserve _ C8Inv _ (fun s2 r _ hs2 => C8Inv_annotateTemps s2 r _ hs2) s hs
  exact h6 _ (h5 _ (h4 _ (h3 _ (h2 _ (h1 _ h)))))

theorem C8Inv_regReadStep (kd : Bool) (offset ds : Nat) (cl : CodeLocation)
    (st : TrackState) (h : C8Inv st) : C8Inv (regReadStep kd offset ds cl st) := by
  have h1 : ∀ s : TrackState, C8Inv s →
      C8Inv (if (alookup s.regs_to_edges offset).isSome then dumpRegs s offset true else s) := by
    intro s hs
    split
    · exact C8Inv_dumpRegs s offset true hs
    · exact hs
  have h2 : ∀ (pd : PrevDefs) (s : TrackState), C8Inv s →
      C8Inv (pd.foldl (fun st2 p =>
        { st2 with regs_to_edges := ddAppend st2.regs_to_edges offset (p.1, cl, p.2),
                   enqueued := st2.enqueued ++ [(p.1, cl, p.2)] }) s) := by
    intro pd s hs
    exact foldl_preserve _ C8Inv _ (fun s2 p _ hs2 => C8Inv_regAppend s2 offset _ hs2) s hs
  exact h2 _ _ (h1 st h)

theorem C8Inv_tmpReadStep (tmpId : Nat) (cl prev : CodeLocation) (st : TrackState)
    (h : C8Inv st) : C8Inv (tmpReadStep tmpId cl prev st) := by
  have h1 : ∀ s : TrackState, C8Inv s →
      C8Inv (if (alookup s.temps_to_edges tmpId).isSome then dumpTemps s tmpId true else s) := by
    intro s hs
    split
    · exact C8Inv_dumpTemps s tmpId true hs
    · exact hs
  exact C8Inv_tempAppend _ tmpId _ (h1 st h)

theorem C8Inv_exitDepStep (cl : CodeLocation) (st : TrackState) (t : Nat)
    (st' : TrackState) (hok : exitDepStep cl st t = .ok st') (h : C8Inv st) : C8Inv st' := by
  unfold exitDepStep at hok
  cases hl : alookup st.temps t with
  | none => rw [hl] at hok; cases hok
  | some prev =>
    rw [hl] at hok
    have hst := Except.ok.inj hok
    subst hst
    have h1 : C8Inv (if (alookup st.temps_to_edges t).isSome then dumpTemps st t true else st) := by
      split
      · exact C8Inv_dumpTemps st t true h
      · exact h
    exact C8Inv_tempAppend _ t _ h1

theorem trackAction_C8 (kd : Bool) (st : TrackState) (a : SimAction) (st' : TrackState)
    (hok : trackAction kd st a = .ok st') (h : C8Inv st) : C8Inv st' := by
  cases a with
  | mem aloc action aa ac ds ard atd drd dtd =>
    have hst := Except.ok.inj hok
    subst hst
    exact foldl_preserve _ C8Inv _
      (fun s addr _ hs => C8Inv_memAddrStep kd action ds ard atd drd dtd aloc.codeLoc s addr hs)
      st h
  | reg aloc action offset ds =>
    cases action with
    | read =>
      have hst := Except.ok.inj hok
      subst hst
      exact C8Inv_regReadStep kd offset ds aloc.codeLoc st h
    | write =>
      have hst := Except.ok.inj hok
      subst hst
      exact C8Inv_live_defs st _ h
  | tmp aloc action tmpId =>
    cases action with
    | read =>
      have hok2 : (match alookup st.temps tmpId with
          | none => Except.error (TrackErr.tmpKeyError tmpId)
          | some prev_code_loc => Except.ok (tmpReadStep tmpId aloc.codeLoc prev_code_loc st))
          = Except.ok st' := hok
      cases hl : alookup st.temps tmpId with
      | none => rw [hl] at hok2; cases hok2
      | some prev =>
        rw [hl] at hok2
        have hst := Except.ok.inj hok2
        subst hst
        exact C8Inv_tmpReadStep tmpId aloc.codeLoc prev st h
    | write =>
      have hst := Except.ok.inj hok
      subst hst
      exact C8Inv_temps st _ h
  | exitA aloc tmpDeps =>
    exact foldlM_preserve (exitDepStep aloc.codeLoc) C8Inv tmpDeps
      (fun s t s2 _ hs hok2 => C8Inv_exitDepStep aloc.codeLoc s t s2 hok2 hs) st st' h hok

theorem flush_fold_regs (d0 : EdgeDict) (l : EdgeDict)
    (hl : ∀ p ∈ l, (alookup d0 p.1).isSome = true) :
    ∀ st : TrackState, st.regs_to_edges = d0 →
    ((l.foldl (fun s p => dumpRegs s p.1 false) st).regs_to_edges = d0 ∧
     (l.foldl (fun s p => dumpRegs s p.1 false) st).temps_to_edges = st.temps_to_edges ∧
     (l.foldl (fun s p => dumpRegs s p.1 false) st).enqueued = st.enqueued ∧
     (l.foldl (fun s p => dumpRegs s p.1 false) st).temps = st.temps ∧
     (l.foldl (fun s p => dumpRegs s p.1 false) st).live_defs = st.live_defs ∧
     (∃ extra, (l.foldl (fun s p => dumpRegs s p.1 false) st).emitted = st.emitted ++ extra) ∧
     (∀ p ∈ l, ∀ e ∈ (alookup d0 p.1).getD [],
        e ∈ (l.foldl (fun s p => dumpRegs s p.1 false) st).emitted) ∧
     (∀ e ∈ (l.foldl (fun s p => dumpRegs s p.1 false) st).emitted,
        e ∈ st.emitted ∨ ∃ k, e ∈ (alookup d0 k).getD []) ∧
     (DGWF st.graph → DGWF (l.foldl (fun s p => dumpRegs s p.1 false) st).graph)) := by
  induction l with
  | nil =>
    intro st hd0
    exact ⟨hd0, rfl, rfl, rfl, rfl, ⟨[], by simp⟩, by simp, fun e he => Or.inl he, fun hg => hg⟩
  | cons p rest ih =>
    intro st hd0
    simp only [List.foldl_cons]
    have hsome : (alookup st.regs_to_edges p.1).isSome = true := by
      rw [hd0]; exact hl p (List.mem_cons_self _ _)
    have hr1 : (dumpRegs st p.1 false).regs_to_edges = d0 := by
      have hq : (dumpRegs st p.1 false).regs_to_edges
          = (dumpFrom st.graph st.emitted st.regs_to_edges p.1 false).2.2 := rfl
      rw [hq, dumpFrom_dict_keep_eq _ _ _ _ hsome, hd0]
    have hem1 : (dumpRegs st p.1 false).emitted
        = st.emitted ++ (alookup d0 p.1).getD [] := by
      have hq : (dumpRegs st p.1 false).emitted
          = (dumpFrom st.graph st.emitted st.regs_to_edges p.1 false).2.1 := rfl
      rw [hq, dumpFrom_emitted, hd0]
    obtain ⟨i1, i2, i3, i4, i5, ⟨extra, i6⟩, i7, i9, i8⟩ :=
      ih (fun q hq => hl q (List.mem_cons_of_mem _ hq)) (dumpRegs st p.1 false) hr1
    refine ⟨i1, i2, i3, i4, i5, ⟨(alookup d0 p.1).getD [] ++ extra, ?_⟩, ?_, ?_, ?_⟩
    · rw [i6, hem1]
      simp
    · intro q hq e he
      rcases List.mem_cons.1 hq with h2 | h2
      · subst h2
        rw [i6, hem1]
        exact List.mem_append.2 (Or.inl (List.mem_append.2 (Or.inr he)))
      · exact i7 q h2 e he
    · intro e he
      rcases i9 e he with h2 | h2
      · rw [hem1] at h2
        rcases List.mem_append.1 h2 with h3 | h3
        · exact Or.inl h3
        · exact Or.inr ⟨p.1, h3⟩
      · exact Or.inr h2
    · intro hg
      apply i8
      have hq : (dumpRegs st p.1 false).graph
          = (dumpFrom st.graph st.emitted st.regs_to_edges p.1 false).1 := rfl
      rw [hq]
      exact dumpFrom_DGWF _ _ _ _ _ hg

theorem flush_fold_temps (d0 : EdgeDict) (l : EdgeDict)
    (hl : ∀ p ∈ l, (alookup d0 p.1).isSome = true) :
    ∀ st : TrackState, st.temps_to_edges = d0 →
    ((l.foldl (fun s p => dumpTemps s p.1 false) st).temps_to_edges = d0 ∧
     (l.foldl (fun s p => dumpTemps s p.1 false) st).regs_to_edges = st.regs_to_edges ∧
     (l.foldl (fun s p => dumpTemps s p.1 false) st).enqueued = st.enqueued ∧
     (l.foldl (fun s p => dumpTemps s p.1 false) st).temps = st.temps ∧
     (l.foldl (fun s p => dumpTemps s p.1 false) st).live_defs = st.live_defs ∧
     (∃ extra, (l.foldl (fun s p => dumpTemps s p.1 false) st).emitted = st.emitted ++ extra) ∧
     (∀ p ∈ l, ∀ e ∈ (alookup d0 p.1).getD [],
        e ∈ (l.foldl (fun s p => dumpTemps s p.1 false) st).emitted) ∧
     (∀ e ∈ (l.foldl (fun s p => dumpTemps s p.1 false) st).emitted,
        e ∈ st.emitted ∨ ∃ k, e ∈ (alookup d0 k).getD []) ∧
     (DGWF st.graph → DGWF (l.foldl (fun s p => dumpTemps s p.1 false) st).graph)) := by
  induction l with
  | nil =>
    intro st hd0
    exact ⟨hd0, rfl, rfl, rfl, rfl, ⟨[], by simp⟩, by simp, fun e he => Or.inl he, fun hg => hg⟩
  | cons p rest ih =>
    intro st hd0
    simp only [List.foldl_cons]
    have hsome : (alookup st.temps_to_edges p.1).isSome = true := by
      rw [hd0]; exact hl p (List.mem_cons_self _ _)
    have hr1 : (dumpTemps st p.1 false).temps_to_edges = d0 := by
      have hq : (dumpTemps st p.1 false).temps_to_edges
          = (dumpFrom st.graph st.emitted st.temps_to_edges p.1 false).2.2 := rfl
      rw [hq, dumpFrom_dict_keep_eq _ _ _ _ hsome, hd0]
    have hem1 : (dumpTemps st p.1 false).emitted
        = st.emitted ++ (alookup d0 p.1).getD [] := by
      have hq : (dumpTemps st p.1 false).emitted
          = (dumpFrom st.graph st.emitted st.temps_to_edges p.1 false).2.1 := rfl
      rw [hq, dumpFrom_emitted, hd0]
    obtain ⟨i1, i2, i3, i4, i5, ⟨extra, i6⟩, i7, i9, i8⟩ :=
      ih (fun q hq => hl q (List.mem_cons_of_mem _ hq)) (dumpTemps st p.1 false) hr1
    refine ⟨i1, i2, i3, i4, i5, ⟨(alookup d0 p.1).getD [] ++ extra, ?_⟩, ?_, ?_, ?_⟩
    · rw [i6, hem1]
      simp
    · intro q hq e he
      rcases List.mem_cons.1 hq with h2 | h2
      · subst h2
        rw [i6, hem1]
        exact List.mem_append.2 (Or.inl (List.mem_append.2 (Or.inr he)))
      · exact i7 q h2 e he
    · intro e he
      rcases i9 e he with h2 | h2
      · rw [hem1] at h2
        rcases List.mem_append.1 h2 with h3 | h3
        · exact Or.inl h3
        · exact Or.inr ⟨p.1, h3⟩
      · exact Or.inr h2
    · intro hg
      apply i8
      have hq : (dumpTemps st p.1 false).graph
          = (dumpFrom st.graph st.emitted st.temps_to_edges p.1 false).1 := rfl
      rw [hq]
      exact dumpFrom_DGWF _ _ _ _ _ hg

theorem track_spec (kd : Bool) (state : FinalState) (live : LiveDefs) (g : DepGraph)
    (ts : TrackState) (h : track kd state live g = .ok ts) :
    ∃ st1 : TrackState,
      state.actions.foldlM (fun s a => trackAction kd s a)
        { live_defs := live, temps := [], temps_to_edges := [], regs_to_edges := [],
          graph := g, emitted := [], enqueued := [] } = .ok st1 ∧
      ts.live_defs = st1.live_defs ∧
      ts.temps = st1.temps ∧
      ts.enqueued = st1.enqueued ∧
      (∃ extra, ts.emitted = st1.emitted ++ extra) ∧
      (∀ s t, pairPending st1.temps_to_edges s t → pairEmitted ts.emitted s t) ∧
      (∀ s t, pairPending st1.regs_to_edges s t → pairEmitted ts.emitted s t) ∧
      (∀ e ∈ ts.emitted, e ∈ st1.emitted ∨
        (∃ k, e ∈ (alookup st1.temps_to_edges k).getD []) ∨
        (∃ k, e ∈ (alookup st1.regs_to_edges k).getD [])) ∧
      (DGWF st1.graph → DGWF ts.graph) := by
  have h2 : (match state.actions.foldlM (fun s a => trackAction kd s a)
      ({ live_defs := live, temps := [], temps_to_edges := [], regs_to_edges := [],
         graph := g, emitted := [], enqueued := [] } : TrackState) with
    | Except.error e => (Except.error e : Except TrackErr TrackState)
    | Except.ok st => Except.ok
        ((st.regs_to_edges.foldl (fun s p => dumpRegs s p.1 false) st).temps_to_edges.foldl
          (fun s p => dumpTemps s p.1 false)
          (st.regs_to_edges.foldl (fun s p => dumpRegs s p.1 false) st))) = Except.ok ts := h
  cases hfold : state.actions.foldlM (fun s a => trackAction kd s a)
      ({ live_defs := live, temps := [], temps_to_edges := [], regs_to_edges := [],
         graph := g, emitted := [], enqueued := [] } : TrackState) with
  | error e => rw [hfold] at h2; cases h2
  | ok st1 =>
    rw [hfold] at h2
    obtain ⟨f1, f2, f3, f4, f5, ⟨extra1, f6⟩, f7, f9, f8⟩ :=
      flush_fold_regs st1.regs_to_edges st1.regs_to_edges
        (fun p hp => alookup_isSome_of_mem _ p hp) st1 rfl
    set st2 := st1.regs_to_edges.foldl (fun s p => dumpRegs s p.1 false) st1 with hst2
    obtain ⟨g1, g2, g3, g4, g5, ⟨extra2, g6⟩, g7, g9, g8⟩ :=
      flush_fold_temps st2.temps_to_edges st2.temps_to_edges
        (fun p hp => alookup_isSome_of_mem _ p hp) st2 rfl
    set st3 := st2.temps_to_edges.foldl (fun s p => dumpTemps s p.1 false) st2 with hst3
    have hts : ts = st3 := (Except.ok.inj h2).symm
    refine ⟨st1, rfl, ?_, ?_, ?_, ?_, ?_, ?_, ?_, ?_⟩
    · rw [hts, g5, f5]
    · rw [hts, g4, f4]
    · rw [hts, g3, f3]
    · exact ⟨extra1 ++ extra2, by rw [hts, g6, f6, List.append_assoc]⟩
    · intro s t hp
      obtain ⟨k, es, hlook, e, he, hs, ht⟩ := hp
      have hmem : (k, es) ∈ st1.temps_to_edges := alookup_mem _ _ _ hlook
      have hmem2 : (k, es) ∈ st2.temps_to_edges := by rw [f2]; exact hmem
      have hlook2 : alookup st2.temps_to_edges k = some es := by rw [f2]; exact hlook
      have hcov := g7 (k, es) hmem2 e (by rw [hlook2]; exact he)
      rw [hts]
      exact ⟨e, hcov, hs, ht⟩
    · intro s t hp
      obtain ⟨k, es, hlook, e, he, hs, ht⟩ := hp
      have hmem : (k, es) ∈ st1.regs_to_edges := alookup_mem _ _ _ hlook
      have hcov := f7 (k, es) hmem e (by rw [hlook]; exact he)
      rw [hts, g6]
      exact ⟨e, List.mem_append.2 (Or.inl hcov), hs, ht⟩
    · intro e he
      rw [hts] at he
      rcases g9 e he with h3 | h3
      · rcases f9 e h3 with h4 | h4
        · exact Or.inl h4
        · exact Or.inr (Or.inr h4)
      · obtain ⟨k, hk⟩ := h3
        refine Or.inr (Or.inl ⟨k, ?_⟩)
        rw [← f2]
        exact hk
    · intro hg
      rw [hts]
      exact g8 (f8 hg)

/-- Claim C8: every edge tuple ever queued into a pending edge group during a
trace replay is eventually handed to the graph insertion routine: after
`track` returns, every enqueued (source, target) pair occurs in the emission
log (flushed either by a later reuse of its register offset or temporary id,
or by the end-of-trace flush of both dicts). -/
theorem claim_C8_no_group_dropped (keep_data : Bool) (state : FinalState)
    (live_defs : LiveDefs) (g : DepGraph) (ts : TrackState)
    (h : track keep_data state live_defs g = .ok ts) :
    ∀ e ∈ ts.enqueued, pairEmitted ts.emitted e.1 e.2.1 := by
  obtain ⟨st1, hfold, _, _, henq, ⟨extra, hem⟩, htp, hrp, _, _⟩ :=
    track_spec keep_data state live_defs g ts h
  have hinv : C8Inv st1 := by
    refine foldlM_preserve (fun s a => trackAction keep_data s a) C8Inv state.actions
      (fun s a s2 _ hs hok => trackAction_C8 keep_data s a s2 hok hs) _ st1 ?_ hfold
    intro e he
    cases he
  intro e he
  rw [henq] at he
  rcases hinv e he with hl | hl | hl
  · rw [hem]
    exact pairEmitted_append _ _ _ _ hl
  · exact htp _ _ hl
  · exact hrp _ _ hl

/-! ### Temporary locality (claim C9) -/

theorem defLookup_type (kd : Bool) (live : LiveDefs) (var : SimVariable) :
    ∀ q ∈ defLookup kd live var, q.2.type = some (varDepType var) := by
  intro q hq
  unfold defLookup at hq
  cases hcs : alookup live var with
  | none => rw [hcs] at hq; simp at hq
  | some cs =>
    rw [hcs] at hq
    cases kd with
    | false =>
      have hP := foldl_preserve
        (fun prevdefs code_loc => ainsert prevdefs code_loc
          { type := some (varDepType var), count := some (countNext prevdefs code_loc) })
        (fun pd : PrevDefs => ∀ q2 ∈ pd, q2.2.type = some (varDepType var)) cs
        (by
          intro s a _ hs q2 hq2
          rcases mem_ainsert _ _ _ _ hq2 with h | h
          · subst h; rfl
          · exact hs q2 h)
        [] (by simp)
      exact hP q hq
    | true =>
      have hP := foldl_preserve
        (fun prevdefs code_loc => ainsert prevdefs code_loc
          { type := some (varDepType var), data := some (EdgeData.var var) })
        (fun pd : PrevDefs => ∀ q2 ∈ pd, q2.2.type = some (varDepType var)) cs
        (by
          intro s a _ hs q2 hq2
          rcases mem_ainsert _ _ _ _ hq2 with h | h
          · subst h; rfl
          · exact hs q2 h)
        [] (by simp)
      exact hP q hq

theorem defLookup_not_tmp (kd : Bool) (live : LiveDefs) (var : SimVariable)
    (cl : CodeLocation) (q : CodeLocation × Labels) (hq : q ∈ defLookup kd live var) :
    ¬ isTmpEdge (q.1, cl, q.2) := by
  intro hc
  have ht := defLookup_type kd live var q hq
  rcases hc with hc | hc
  · rw [ht] at hc
    have := Option.some.inj hc
    cases var <;> cases this
  · rw [ht] at hc
    have := Option.some.inj hc
    cases var <;> cases this

theorem C9Inv_mono (W W' : List CodeLocation) (st : TrackState)
    (hw : ∀ x ∈ W, x ∈ W') (h : C9Inv W st) : C9Inv W' st := by
  obtain ⟨h1, h2, h3, h4, h5⟩ := h
  exact ⟨fun q hq => hw _ (h1 q hq), fun e he ht => hw _ (h2 e he ht),
    fun e he ht => hw _ (h3 e he ht),
    fun k es hk e he ht => hw _ (h4 k es hk e he ht),
    fun k es hk e he ht => hw _ (h5 k es hk e he ht)⟩

theorem C9Inv_emitEdge (W : List CodeLocation) (st : TrackState) (s0 t0 : CodeLocation)
    (lab : Labels) (hsafe : isTmpEdge (s0, t0, lab) → s0 ∈ W) (h : C9Inv W st) :
    C9Inv W (emitEdge st s0 t0 lab) := by
  obtain ⟨h1, h2, h3, h4, h5⟩ := h
  refine ⟨h1, h2, ?_, h4, h5⟩
  intro e he ht
  rcases List.mem_append.1 he with he2 | he2
  · exact h3 e he2 ht
  · simp only [List.mem_singleton] at he2
    subst he2
    exact hsafe ht

theorem C9Inv_dumpRegs (W : List CodeLocation) (st : TrackState) (k : Nat) (dk : Bool)
    (h : C9Inv W st) : C9Inv W (dumpRegs st k dk) := by
  obtain ⟨h1, h2, h3, h4, h5⟩ := h
  have hem : (dumpRegs st k dk).emitted
      = st.emitted ++ (alookup st.regs_to_edges k).getD [] := by
    have hq : (dumpRegs st k dk).emitted
        = (dumpFrom st.graph st.emitted st.regs_to_edges k dk).2.1 := rfl
    rw [hq, dumpFrom_emitted]
  have hrd : (dumpRegs st k dk).regs_to_edges
      = (dumpFrom st.graph st.emitted st.regs_to_edges k dk).2.2 := rfl
  refine ⟨h1, h2, ?_, h4, ?_⟩
  · intro e he ht
    rw [hem] at he
    rcases List.mem_append.1 he with he2 | he2
    · exact h3 e he2 ht
    · cases hlk : alookup st.regs_to_edges k with
      | none => rw [hlk] at he2; cases he2
      | some es =>
        rw [hlk] at he2
        exact h5 k es hlk e he2 ht
  · intro k0 es hk0 e he ht
    rw [hrd] at hk0
    cases dk with
    | true =>
      rw [dumpFrom_dict_del] at hk0
      by_cases hkk : k0 = k
      · rw [if_pos hkk] at hk0; cases hk0
      · rw [if_neg hkk] at hk0
        exact h5 k0 es hk0 e he ht
    | false =>
      rw [dumpFrom_dict_keep] at hk0
      by_cases hkk : k0 = k
      · rw [if_pos hkk] at hk0
        have hes := Option.some.inj hk0
        subst hes
        cases hlk : alookup st.regs_to_edges k with
        | none => rw [hlk] at he; cases he
        | some es2 =>
          rw [hlk] at he
          exact h5 k es2 hlk e he ht
      · rw [if_neg hkk] at hk0
        exact h5 k0 es hk0 e he ht

theorem C9Inv_dumpTemps (W : List CodeLocation) (st : TrackState) (k : Nat) (dk : Bool)
    (h : C9Inv W st) : C9Inv W (dumpTemps st k dk) := by
  obtain ⟨h1, h2, h3, h4, h5⟩ := h
  have hem : (dumpTemps st k dk).emitted
      = st.emitted ++ (alookup st.temps_to_edges k).getD [] := by
    have hq : (dumpTemps st k dk).emitted
        = (dumpFrom st.graph st.emitted st.temps_to_edges k dk).2.1 := rfl
    rw [hq, dumpFrom_emitted]
  have htd : (dumpTemps st k dk).temps_to_edges
      = (dumpFrom st.graph st.emitted st.temps_to_edges k dk).2.2 := rfl
  refine ⟨h1, h2, ?_, ?_, h5⟩
  · intro e he ht
    rw [hem] at he
    rcases List.mem_append.1 he with he2 | he2
    · exact h3 e he2 ht
    · cases hlk : alookup st.temps_to_edges k with
      | none => rw [hlk] at he2; cases he2
      | some es =>
        rw [hlk] at he2
        exact h4 k es hlk e he2 ht
  · intro k0 es hk0 e he ht
    rw [htd] at hk0
    cases dk with
    | true =>
      rw [dumpFrom_dict_del] at hk0
      by_cases hkk : k0 = k
      · rw [if_pos hkk] at hk0; cases hk0
      · rw [if_neg hkk] at hk0
        exact h4 k0 es hk0 e he ht
    | false =>
      rw [dumpFrom_dict_keep] at hk0
      by_cases hkk : k0 = k
      · rw [if_pos hkk] at hk0
        have hes := Option.some.inj hk0
        subst hes
        cases hlk : alookup st.temps_to_edges k with
        | none => rw [hlk] at he; cases he
        | some es2 =>
          rw [hlk] at he
          exact h4 k es2 hlk e he ht
      · rw [if_neg hkk] at hk0
        exact h4 k0 es hk0 e he ht

theorem isTmpEdge_annot (e : Edge) (v : SubType) :
    isTmpEdge (e.1, e.2.1, { e.2.2 with subtype := e.2.2.subtype ++ [v] }) ↔ isTmpEdge e :=
  Iff.rfl

theorem C9Inv_annotateRegs (W : List CodeLocation) (st : TrackState) (r : Nat) (v : SubType)
    (h : C9Inv W st) :
    C9Inv W { st with regs_to_edges := annotateEdges st.regs_to_edges r v } := by
  obtain ⟨h1, h2, h3, h4, h5⟩ := h
  refine ⟨h1, h2, h3, h4, ?_⟩
  intro k0 es hk0 e he ht
  rw [alookup_annotateEdges] at hk0
  by_cases hkk : k0 = r
  · rw [if_pos hkk] at hk0
    have hes := Option.some.inj hk0
    subst hes
    obtain ⟨e2, he2, hmap⟩ := List.mem_map.1 he
    subst hmap
    cases hlk : alookup st.regs_to_edges r with
    | none => rw [hlk] at he2; cases he2
    | some es2 =>
      rw [hlk] at he2
      subst hkk
      exact h5 k0 es2 (by rw [← hlk]) e2 he2 ((isTmpEdge_annot e2 v).1 ht)
  · rw [if_neg hkk] at hk0
    exact h5 k0 es hk0 e he ht

theorem C9Inv_annotateTemps (W : List CodeLocation) (st : TrackState) (r : Nat) (v : SubType)
    (h : C9Inv W st) :
    C9Inv W { st with temps_to_edges := annotateEdges st.temps_to_edges r v } := by
  obtain ⟨h1, h2, h3, h4, h5⟩ := h
  refine ⟨h1, h2, h3, ?_, h5⟩
  intro k0 es hk0 e he ht
  rw [alookup_annotateEdges] at hk0
  by_cases hkk : k0 = r
  · rw [if_pos hkk] at hk0
    have hes := Option.some.inj hk0
    subst hes
    obtain ⟨e2, he2, hmap⟩ := List.mem_map.1 he
    subst hmap
    cases hlk : alookup st.temps_to_edges r with
    | none => rw [hlk] at he2; cases he2
    | some es2 =>
      rw [hlk] at he2
      subst hkk
      exact h4 k0 es2 (by rw [← hlk]) e2 he2 ((isTmpEdge_annot e2 v).1 ht)
  · rw [if_neg hkk] at hk0
    exact h4 k0 es hk0 e he ht

theorem C9Inv_live_defs (W : List CodeLocation) (st : TrackState) (ld : LiveDefs)
    (h : C9Inv W st) : C9Inv W { st with live_defs := ld } := h

theorem C9Inv_regAppend (W : List CodeLocation) (st : TrackState) (k : Nat) (e : Edge)
    (hsafe : isTmpEdge e → e.1 ∈ W) (h : C9Inv W st) :
    C9Inv W { st with regs_to_edges := ddAppend st.regs_to_edges k e,
                      enqueued := st.enqueued ++ [e] } := by
  obtain ⟨h1, h2, h3, h4, h5⟩ := h
  refine ⟨h1, ?_, h3, h4, ?_⟩
  · intro e2 he2 ht
    rcases List.mem_append.1 he2 with h6 | h6
    · exact h2 e2 h6 ht
    · simp only [List.mem_singleton] at h6
      subst h6
      exact hsafe ht
  · intro k0 es hk0 e2 he2 ht
    rw [alookup_ddAppend] at hk0
    by_cases hkk : k0 = k
    · rw [if_pos hkk] at hk0
      have hes := Option.some.inj hk0
      subst hes
      rcases List.mem_append.1 he2 with h6 | h6
      · cases hlk : alookup st.regs_to_edges k with
        | none => rw [hlk] at h6; cases h6
        | some es2 =>
          rw [hlk] at h6
          exact h5 k es2 hlk e2 h6 ht
      · simp only [List.mem_singleton] at h6
        subst h6
        exact hsafe ht
    · rw [if_neg hkk] at hk0
      exact h5 k0 es hk0 e2 he2 ht

theorem C9Inv_tempAppend (W : List CodeLocation) (st : TrackState) (k : Nat) (e : Edge)
    (hsafe : isTmpEdge e → e.1 ∈ W) (h : C9Inv W st) :
    C9Inv W { st with temps_to_edges := ddAppend st.temps_to_edges k e,
                      enqueued := st.enqueued ++ [e] } := by
  obtain ⟨h1, h2, h3, h4, h5⟩ := h
  refine ⟨h1, ?_, h3, ?_, h5⟩
  · intro e2 he2 ht
    rcases List.mem_append.1 he2 with h6 | h6
    · exact h2 e2 h6 ht
    · simp only [List.mem_singleton] at h6
      subst h6
      exact hsafe ht
  · intro k0 es hk0 e2 he2 ht
    rw [alookup_ddAppend] at hk0
    by_cases hkk : k0 = k
    · rw [if_pos hkk] at hk0
      have hes := Option.some.inj hk0
      subst hes
      rcases List.mem_append.1 he2 with h6 | h6
      · cases hlk : alookup st.temps_to_edges k with
        | none => rw [hlk] at h6; cases h6
        | some es2 =>
          rw [hlk] at h6
          exact h4 k es2 hlk e2 h6 ht
      · simp only [List.mem_singleton] at h6
        subst h6
        exact hsafe ht
    · rw [if_neg hkk] at hk0
      exact h4 k0 es hk0 e2 he2 ht

theorem C9Inv_memAddrStep (W : List CodeLocation) (kd : Bool) (action : RW) (ds : Nat)
    (ard atd drd dtd : List Nat) (cl : CodeLocation) (st : TrackState) (addr : Nat)
    (h : C9Inv W st) : C9Inv W (memAddrStep kd action ds ard atd drd dtd cl st addr) := by
  have h1 : ∀ s : TrackState, C9Inv W s → C9Inv W (if action = RW.read then
      (defLookup kd s.live_defs (SimVariable.mem addr ds)).foldl
        (fun st2 p => emitEdge st2 p.1 cl p.2) s else s) := by
    intro s hs
    split
    · refine foldl_preserve _ (C9Inv W) _ ?_ s hs
      intro s2 p hp hs2
      refine C9Inv_emitEdge W s2 p.1 cl p.2 ?_ hs2
      intro ht
      exact absurd ht (defLookup_not_tmp kd s.live_defs _ cl p hp)
    · exact hs
  have h2 : ∀ s : TrackState, C9Inv W s → C9Inv W (if action = RW.write then
      { s with live_defs := kill s.live_defs (SimVariable.mem addr ds) cl } else s) := by
    intro s hs
    split
    · exact C9Inv_live_defs W s _ hs
    · exact hs
  have h3 : ∀ s : TrackState, C9Inv W s → C9Inv W (ard.foldl
      (fun st2 r => { st2 with regs_to_edges := annotateEdges st2.regs_to_edges r .memAddr }) s) :=
    fun s hs => foldl_preserve _ (C9Inv W) _
      (fun s2 r _ hs2 => C9Inv_annotateRegs W s2 r _ hs2) s hs
  have h4 : ∀ s : TrackState, C9Inv W s → C9Inv W (atd.foldl
      (fun st2 t => { st2 with temps_to_edges := annotateEdges st2.temps_to_edges t .memAddr }) s) :=
    fun s hs => foldl_preserve _ (C9Inv W) _
      (fun s2 r _ hs2 => C9Inv_annotateTemps W s2 r _ hs2) s hs
  have h5 : ∀ s : TrackState, C9Inv W s → C9Inv W (drd.foldl
      (fun st2 r => { st2 with regs_to_edges := annotateEdges st2.regs_to_edges r .memData }) s) :=
    fun s hs => foldl_preserve _ (C9Inv W) _
      (fun s2 r _ hs2 => C9Inv_annotateRegs W s2 r _ hs2) s hs
  have h6 : ∀ s : TrackState, C9Inv W s → C9Inv W (dtd.foldl
      (fun st2 t => { st2 with temps_to_edges := annotateEdges st2.temps_to_edges t .memData }) s) :=
    fun s hs => foldl_preserve _ (C9Inv W) _
      (fun s2 r _ hs2 => C9Inv_annotateTemps W s2 r _ hs2) s hs
  exact h6 _ (h5 _ (h4 _ (h3 _ (h2 _ (h1 _ h)))))

theorem C9Inv_regReadStep (W : List CodeLocation) (kd : Bool) (offset ds : Nat)
    (cl : CodeLocation) (st : TrackState) (h : C9Inv W st) :
    C9Inv W (regReadStep kd offset ds cl st) := by
  have h1 : C9Inv W (if (alookup st.regs_to_edges offset).isSome then
      dumpRegs st offset true else st) := by
    split
    · exact C9Inv_dumpRegs W st offset true h
    · exact h
  refine foldl_preserve _ (C9Inv W) _ ?_ _ h1
  intro s2 p hp hs2
  refine C9Inv_regAppend W s2 offset (p.1, cl, p.2) ?_ hs2
  intro ht
  exact absurd ht (defLookup_not_tmp kd st.live_defs _ cl p hp)

theorem C9Inv_tmpReadStep (W : List CodeLocation) (tmpId : Nat) (cl prev : CodeLocation)
    (st : TrackState) (hprev : prev ∈ W) (h : C9Inv W st) :
    C9Inv W (tmpReadStep tmpId cl prev st) := by
  have h1 : C9Inv W (if (alookup st.temps_to_edges tmpId).isSome then
      dumpTemps st tmpId true else st) := by
    split
    · exact C9Inv_dumpTemps W st tmpId true h
    · exact h
  exact C9Inv_tempAppend W _ tmpId _ (fun _ => hprev) h1

theorem C9Inv_exitDepStep (W : List CodeLocation) (cl : CodeLocation) (st : TrackState)
    (t : Nat) (st' : TrackState) (hok : exitDepStep cl st t = .ok st') (h : C9Inv W st) :
    C9Inv W st' := by
  unfold exitDepStep at hok
  cases hl : alookup st.temps t with
  | none => rw [hl] at hok; cases hok
  | some prev =>
    rw [hl] at hok
    have hst := Except.ok.inj hok
    subst hst
    have hprev : prev ∈ W := h.1 (t, prev) (alookup_mem _ _ _ hl)
    have h1 : C9Inv W (if (alookup st.temps_to_edges t).isSome then
        dumpTemps st t true else st) := by
      split
      · exact C9Inv_dumpTemps W st t true h
      · exact h
    exact C9Inv_tempAppend W _ t _ (fun _ => hprev) h1

theorem trackAction_C9 (W : List CodeLocation) (kd : Bool) (st : TrackState) (a : SimAction)
    (st' : TrackState) (hok : trackAction kd st a = .ok st') (h : C9Inv W st) :
    C9Inv (W ++ tmpWriteLocsOf a) st' := by
  have hWsub : ∀ x ∈ W, x ∈ W ++ tmpWriteLocsOf a :=
    fun x hx => List.mem_append.2 (Or.inl hx)
  cases a with
  | mem aloc action aa ac ds ard atd drd dtd =>
    have hst := Except.ok.inj hok
    subst hst
    refine C9Inv_mono W _ _ hWsub ?_
    exact foldl_preserve _ (C9Inv W) _
      (fun s addr _ hs => C9Inv_memAddrStep W kd action ds ard atd drd dtd aloc.codeLoc s addr hs)
      st h
  | reg aloc action offset ds =>
    cases action with
    | read =>
      have hst := Except.ok.inj hok
      subst hst
      exact C9Inv_mono W _ _ hWsub (C9Inv_regReadStep W kd offset ds aloc.codeLoc st h)
    | write =>
      have hst := Except.ok.inj hok
      subst hst
      exact C9Inv_mono W _ _ hWsub (C9Inv_live_defs W st _ h)
  | tmp aloc action tmpId =>
    cases action with
    | read =>
      have hok2 : (match alookup st.temps tmpId with
          | none => Except.error (TrackErr.tmpKeyError tmpId)
          | some prev_code_loc => Except.ok (tmpReadStep tmpId aloc.codeLoc prev_code_loc st))
          = Except.ok st' := hok
      cases hl : alookup st.temps tmpId with
      | none => rw [hl] at hok2; cases hok2
      | some prev =>
        rw [hl] at hok2
        have hst := Except.ok.inj hok2
        subst hst
        have hprev : prev ∈ W := h.1 (tmpId, prev) (alookup_mem _ _ _ hl)
        exact C9Inv_mono W _ _ hWsub (C9Inv_tmpReadStep W tmpId aloc.codeLoc prev st hprev h)
    | write =>
      have hst := Except.ok.inj hok
      subst hst
      obtain ⟨h1, h2, h3, h4, h5⟩ := h
      have hcl : aloc.codeLoc ∈ W ++ tmpWriteLocsOf (SimAction.tmp aloc RW.write tmpId) := by
        refine List.mem_append.2 (Or.inr ?_)
        simp [tmpWriteLocsOf]
      refine ⟨?_, fun e he ht => hWsub _ (h2 e he ht), fun e he ht => hWsub _ (h3 e he ht),
        fun k es hk e he ht => hWsub _ (h4 k es hk e he ht),
        fun k es hk e he ht => hWsub _ (h5 k es hk e he ht)⟩
      intro q hq
      rcases mem_ainsert _ _ _ _ hq with h6 | h6
      · subst h6
        exact hcl
      · exact hWsub _ (h1 q h6)
  | exitA aloc tmpDeps =>
    refine C9Inv_mono W _ _ hWsub ?_
    exact foldlM_preserve (exitDepStep aloc.codeLoc) (C9Inv W) tmpDeps
      (fun s t s2 _ hs hok2 => C9Inv_exitDepStep W aloc.codeLoc s t s2 hok2 hs) st st' h hok

theorem trackActions_C9 (kd : Bool) (acts : List SimAction) :
    ∀ (st st' : TrackState) (W : List CodeLocation),
    C9Inv W st → acts.foldlM (fun s a => trackAction kd s a) st = .ok st' →
    C9Inv (W ++ tmpWriteLocs acts) st' := by
  induction acts with
  | nil =>
    intro st st' W h heq
    simp only [List.foldlM_nil] at heq
    cases heq
    simpa [tmpWriteLocs] using h
  | cons a rest ih =>
    intro st st' W h heq
    rw [List.foldlM_cons] at heq
    cases h1 : trackAction kd st a with
    | error e => rw [h1, except_bind_error] at heq; cases heq
    | ok st1 =>
      rw [h1, except_bind_ok] at heq
      have h2 := trackAction_C9 W kd st a st1 h1 h
      have h3 := ih st1 st' (W ++ tmpWriteLocsOf a) h2 heq
      refine C9Inv_mono _ _ _ ?_ h3
      intro x hx
      have hw : tmpWriteLocs (a :: rest) = tmpWriteLocsOf a ++ tmpWriteLocs rest := by
        simp [tmpWriteLocs]
      rw [hw]
      simp only [List.mem_append] at hx ⊢
      tauto

/-- Claim C9: every edge labeled as a temporary-read or exit dependence that a
trace replay creates (emits or queues) has as its source the code location of
a temporary write occurring in the same trace — never a location drawn from
the incoming snapshot (`live_defs` here is arbitrary) or from another trace.
Applying the theorem to a truncated trace (`state.actions` is arbitrary) gives
the stronger form that the write occurs earlier than the read. -/
theorem claim_C9_tmp_locality (keep_data : Bool) (state : FinalState)
    (live_defs : LiveDefs) (g : DepGraph) (ts : TrackState)
    (h : track keep_data state live_defs g = .ok ts) :
    (∀ e ∈ ts.emitted, isTmpEdge e → e.1 ∈ tmpWriteLocs state.actions) ∧
    (∀ e ∈ ts.enqueued, isTmpEdge e → e.1 ∈ tmpWriteLocs state.actions) := by
  obtain ⟨st1, hfold, _, _, henq, _, _, _, horg, _⟩ :=
    track_spec keep_data state live_defs g ts h
  have hinit : C9Inv []
      ({ live_defs := live_defs, temps := [], temps_to_edges := [],
         regs_to_edges := [], graph := g, emitted := [], enqueued := [] } : TrackState) := by
    refine ⟨?_, ?_, ?_, ?_, ?_⟩
    · intro q hq; exact absurd hq (by simp)
    · intro e he; exact absurd he (by simp)
    · intro e he; exact absurd he (by simp)
    · intro k es hk; cases hk
    · intro k es hk; cases hk
  have hinv : C9Inv ([] ++ tmpWriteLocs state.actions) st1 :=
    trackActions_C9 keep_data state.actions _ st1 [] hinit hfold
  have hinv2 : C9Inv (tmpWriteLocs state.actions) st1 := by
    simpa using hinv
  constructor
  · intro e he ht
    rcases horg e he with h2 | h2 | h2
    · exact hinv2.2.2.1 e h2 ht
    · obtain ⟨k, hk⟩ := h2
      cases hlk : alookup st1.temps_to_edges k with
      | none => rw [hlk] at hk; cases hk
      | some es =>
        rw [hlk] at hk
        exact hinv2.2.2.2.1 k es hlk e hk ht
    · obtain ⟨k, hk⟩ := h2
      cases hlk : alookup st1.regs_to_edges k with
      | none => rw [hlk] at hk; cases hk
      | some es =>
        rw [hlk] at hk
        exact hinv2.2.2.2.2 k es hlk e hk ht
  · intro e he ht
    rw [henq] at he
    exact hinv2.2.1 e he ht

/-- Witness for claim C5: merging a one-variable new-defs dict holding a new
defining location into a snapshot already holding a different location for the
same register reports a change. -/
theorem claim_C5_merge_witness :
    (mergeDefs [(SimVariable.reg 16 4, [CodeLocation.loc 0x1000 2])]
               [(SimVariable.reg 16 4, [CodeLocation.loc 0x3000 1])]).2 = true := by
  have h := claim_C5_merge [(SimVariable.reg 16 4, [CodeLocation.loc 0x1000 2])]
      [(SimVariable.reg 16 4, [CodeLocation.loc 0x3000 1])] (by decide) (by decide)
  exact h.2.2.mpr ⟨(SimVariable.reg 16 4, [CodeLocation.loc 0x1000 2]), by decide,
    CodeLocation.loc 0x1000 2, by decide, by decide⟩

/-! ### Temps-dict tracking and the undefined-temporary error (claim C10) -/

theorem memAddrStep_temps (kd : Bool) (action : RW) (ds : Nat) (ard atd drd dtd : List Nat)
    (cl : CodeLocation) (st : TrackState) (addr : Nat) :
    (memAddrStep kd action ds ard atd drd dtd cl st addr).temps = st.temps := by
  have h1 : ∀ s : TrackState, s.temps = st.temps → (if action = RW.read then
      (defLookup kd s.live_defs (SimVariable.mem addr ds)).foldl
        (fun st2 p => emitEdge st2 p.1 cl p.2) s else s).temps = st.temps := by
    intro s hs
    split
    · refine foldl_preserve _ (fun s2 : TrackState => s2.temps = st.temps) _ ?_ s hs
      intro s2 p _ hs2
      exact hs2
    · exact hs
  have h2 : ∀ s : TrackState, s.temps = st.temps → (if action = RW.write then
      { s with live_defs := kill s.live_defs (SimVariable.mem addr ds) cl } else s).temps
        = st.temps := by
    intro s hs
    split
    · exact hs
    · exact hs
  have h3 : ∀ s : TrackState, s.temps = st.temps → (ard.foldl
      (fun st2 r => { st2 with regs_to_edges := annotateEdges st2.regs_to_edges r .memAddr })
      s).temps = st.temps := by
    intro s hs
    refine foldl_preserve _ (fun s2 : TrackState => s2.temps = st.temps) _ ?_ s hs
    intro s2 r _ hs2
    exact hs2
  have h4 : ∀ s : TrackState, s.temps = st.temps → (atd.foldl
      (fun st2 t => { st2 with temps_to_edges := annotateEdges st2.temps_to_edges t .memAddr })
      s).temps = st.temps := by
    intro s hs
    refine foldl_preserve _ (fun s2 : TrackState => s2.temps = st.temps) _ ?_ s hs
    intro s2 r _ hs2
    exact hs2
  have h5 : ∀ s : TrackState, s.temps = st.temps → (drd.foldl
      (fun st2 r => { st2 with regs_to_edges := annotateEdges st2.regs_to_edges r .memData })
      s).temps = st.temps := by
    intro s hs
    refine foldl_preserve _ (fun s2 : TrackState => s2.temps = st.temps) _ ?_ s hs
    intro s2 r _ hs2
    exact hs2
  have h6 : ∀ s : TrackState, s.temps = st.temps → (dtd.foldl
      (fun st2 t => { st2 with temps_to_edges := annotateEdges st2.temps_to_edges t .memData })
      s).temps = st.temps := by
    intro s hs
    refine foldl_preserve _ (fun s2 : TrackState => s2.temps = st.temps) _ ?_ s hs
    intro s2 r _ hs2
    exact hs2
  exact h6 _ (h5 _ (h4 _ (h3 _ (h2 _ (h1 _ rfl)))))

theorem regReadStep_temps (kd : Bool) (offset ds : Nat) (cl : CodeLocation) (st : TrackState) :
    (regReadStep kd offset ds cl st).temps = st.temps := by
  have h1 : (if (alookup st.regs_to_edges offset).isSome then
      dumpRegs st offset true else st).temps = st.temps := by
    split
    · rfl
    · rfl
  refine foldl_preserve _ (fun s2 : TrackState => s2.temps = st.temps) _ ?_ _ h1
  intro s2 p _ hs2
  exact hs2

theorem tmpReadStep_temps (tmpId : Nat) (cl prev : CodeLocation) (st : TrackState) :
    (tmpReadStep tmpId cl prev st).temps = st.temps := by
  show (if (alookup st.temps_to_edges tmpId).isSome then dumpTemps st tmpId true
    else st).temps = st.temps
  split
  · rfl
  · rfl

theorem exitDepStep_temps (cl : CodeLocation) (st : TrackState) (t : Nat) (st' : TrackState)
    (hok : exitDepStep cl st t = .ok st') : st'.temps = st.temps := by
  unfold exitDepStep at hok
  cases hl : alookup st.temps t with
  | none => rw [hl] at hok; cases hok
  | some prev =>
    rw [hl] at hok
    have hst := Except.ok.inj hok
    subst hst
    show (if (alookup st.temps_to_edges t).isSome then dumpTemps st t true else st).temps
      = st.temps
    split
    · rfl
    · rfl

theorem trackAction_ok_temps (kd : Bool) (st : TrackState) (a : SimAction) (st' : TrackState)
    (hok : trackAction kd st a = .ok st') :
    ∀ u, alookup st'.temps u
      = if u ∈ tmpWritesOf a then some a.aloc.codeLoc else alookup st.temps u := by
  cases a with
  | mem aloc action aa ac ds ard atd drd dtd =>
    have hst := Except.ok.inj hok
    subst hst
    intro u
    rw [if_neg (by simp [tmpWritesOf])]
    have hT : ((memAddrList aa ac).foldl
        (memAddrStep kd action ds ard atd drd dtd aloc.codeLoc) st).temps = st.temps :=
      foldl_preserve _ (fun s2 : TrackState => s2.temps = st.temps) _
        (fun s2 addr _ hs2 =>
          (memAddrStep_temps kd action ds ard atd drd dtd aloc.codeLoc s2 addr).trans hs2)
        st rfl
    rw [hT]
  | reg aloc action offset ds =>
    cases action with
    | read =>
      have hst := Except.ok.inj hok
      subst hst
      intro u
      rw [if_neg (by simp [tmpWritesOf])]
      rw [regReadStep_temps]
    | write =>
      have hst := Except.ok.inj hok
      subst hst
      intro u
      rw [if_neg (by simp [tmpWritesOf])]
  | tmp aloc action tmpId =>
    cases action with
    | read =>
      have hok2 : (match alookup st.temps tmpId with
          | none => Except.error (TrackErr.tmpKeyError tmpId)
          | some prev_code_loc => Except.ok (tmpReadStep tmpId aloc.codeLoc prev_code_loc st))
          = Except.ok st' := hok
      cases hl : alookup st.temps tmpId with
      | none => rw [hl] at hok2; cases hok2
      | some prev =>
        rw [hl] at hok2
        have hst := Except.ok.inj hok2
        subst hst
        intro u
        rw [if_neg (by simp [tmpWritesOf])]
        rw [tmpReadStep_temps]
    | write =>
      have hst := Except.ok.inj hok
      subst hst
      intro u
      by_cases hu : u = tmpId
      · subst hu
        rw [if_pos (by simp [tmpWritesOf])]
        exact alookup_ainsert_self _ _ _
      · rw [if_neg (by simp [tmpWritesOf, hu])]
        exact alookup_ainsert_ne _ _ _ _ hu
  | exitA aloc tmpDeps =>
    intro u
    rw [if_neg (by simp [tmpWritesOf])]
    have hT : st'.temps = st.temps := by
      refine foldlM_preserve (exitDepStep aloc.codeLoc)
        (fun s2 : TrackState => s2.temps = st.temps) tmpDeps ?_ st st' rfl hok
      intro s2 t s3 _ hs2 hok2
      exact (exitDepStep_temps aloc.codeLoc s2 t s3 hok2).trans hs2
    rw [hT]

theorem exitDeps_err (cl : CodeLocation) (deps : List Nat) :
    ∀ (st : TrackState) (t : Nat), t ∈ deps → alookup st.temps t = none →
    ∃ e, deps.foldlM (exitDepStep cl) st = .error e := by
  induction deps with
  | nil =>
    intro st t ht _
    exact absurd ht (by simp)
  | cons d rest ih =>
    intro st t ht hmiss
    rw [List.foldlM_cons]
    cases hres : exitDepStep cl st d with
    | error e => exact ⟨e, rfl⟩
    | ok st1 =>
      have htemps := exitDepStep_temps cl st d st1 hres
      rcases List.mem_cons.1 ht with h2 | h2
      · subst h2
        have hcontra : exitDepStep cl st t = .error (.tmpKeyError t) := by
          unfold exitDepStep
          rw [hmiss]
        rw [hcontra] at hres
        cases hres
      · obtain ⟨e, he⟩ := ih st1 t h2 (by rw [htemps]; exact hmiss)
        exact ⟨e, he⟩

theorem trackAction_err (kd : Bool) (st : TrackState) (a : SimAction) (t : Nat)
    (hread : t ∈ tmpReadsOf a) (hmiss : alookup st.temps t = none) :
    ∃ e, trackAction kd st a = .error e := by
  cases a with
  | mem aloc action aa ac ds ard atd drd dtd => exact absurd hread (by simp [tmpReadsOf])
  | reg aloc action offset ds => exact absurd hread (by simp [tmpReadsOf])
  | tmp aloc action tmpId =>
    cases action with
    | read =>
      have ht : t = tmpId := by simpa [tmpReadsOf] using hread
      subst ht
      refine ⟨.tmpKeyError t, ?_⟩
      show (match alookup st.temps t with
        | none => Except.error (TrackErr.tmpKeyError t)
        | some prev_code_loc => Except.ok (tmpReadStep t aloc.codeLoc prev_code_loc st))
        = Except.error (TrackErr.tmpKeyError t)
      rw [hmiss]
    | write => exact absurd hread (by simp [tmpReadsOf])
  | exitA aloc deps =>
    have hread2 : t ∈ deps := by simpa [tmpReadsOf] using hread
    exact exitDeps_err aloc.codeLoc deps st t hread2 hmiss

theorem trackActions_err (kd : Bool) (acts : List SimAction) :
    ∀ (st : TrackState) (j : Nat) (hj : j < acts.length) (t : Nat),
      t ∈ tmpReadsOf (acts.get ⟨j, hj⟩) →
      alookup st.temps t = none →
      t ∉ (acts.take j).flatMap tmpWritesOf →
      ∃ e, acts.foldlM (fun s a => trackAction kd s a) st = .error e := by
  induction acts with
  | nil =>
    intro st j hj
    exact absurd hj (Nat.not_lt_zero j)
  | cons a rest ih =>
    intro st j hj t hread hmiss hnw
    rw [List.foldlM_cons]
    cases j with
    | zero =>
      obtain ⟨e, he⟩ := trackAction_err kd st a t (by simpa using hread) hmiss
      exact ⟨e, by rw [he, except_bind_error]⟩
    | succ k =>
      cases hres : trackAction kd st a with
      | error e => exact ⟨e, rfl⟩
      | ok st1 =>
        have htemps := trackAction_ok_temps kd st a st1 hres
        have hmiss1 : alookup st1.temps t = none := by
          rw [htemps t, if_neg, hmiss]
          intro hc
          apply hnw
          rw [List.take_succ_cons, List.flatMap_cons]
          exact List.mem_append.2 (Or.inl hc)
        have hk : k < rest.length := by
          simpa [Nat.succ_lt_succ_iff] using hj
        have hread1 : t ∈ tmpReadsOf (rest.get ⟨k, hk⟩) := by
          simpa using hread
        have hnw1 : t ∉ (rest.take k).flatMap tmpWritesOf := by
          intro hc
          apply hnw
          rw [List.take_succ_cons, List.flatMap_cons]
          exact List.mem_append.2 (Or.inr hc)
        obtain ⟨e, he⟩ := ih st1 k hk t hread1 hmiss1 hnw1
        exact ⟨e, he⟩

/-- Claim C10: a trace containing a temporary read (or an exit depending on a
temporary) whose temporary id was not written earlier in the same trace makes
the replay raise the missing-key error on the local temps dict, aborting the
construction (the error propagates as an uncaught exception: `processState`,
`ddgStep` and `ddgLoop` all pass a replay error straight through) rather than
being skipped silently the way an unresolvable transition is. -/
theorem claim_C10_undefined_tmp (keep_data : Bool) (state : FinalState)
    (live_defs : LiveDefs) (g : DepGraph) (j : Nat) (hj : j < state.actions.length) (t : Nat)
    (hread : t ∈ tmpReadsOf (state.actions.get ⟨j, hj⟩))
    (hnw : t ∉ (state.actions.take j).flatMap tmpWritesOf) :
    ∃ e, track keep_data state live_defs g = .error e := by
  obtain ⟨e, he⟩ := trackActions_err keep_data state.actions
    ({ live_defs := live_defs, temps := [], temps_to_edges := [],
       regs_to_edges := [], graph := g, emitted := [], enqueued := [] } : TrackState)
    j hj t hread rfl hnw
  refine ⟨e, ?_⟩
  show (match state.actions.foldlM (fun s a => trackAction keep_data s a)
      ({ live_defs := live_defs, temps := [], temps_to_edges := [], regs_to_edges := [],
         graph := g, emitted := [], enqueued := [] } : TrackState) with
    | Except.error e2 => (Except.error e2 : Except TrackErr TrackState)
    | Except.ok st => Except.ok
        ((st.regs_to_edges.foldl (fun s p => dumpRegs s p.1 false) st).temps_to_edges.foldl
          (fun s p => dumpTemps s p.1 false)
          (st.regs_to_edges.foldl (fun s p => dumpRegs s p.1 false) st)))
    = Except.error e
  rw [he]

/-! ### Witnesses for the track-level claims -/

/-- Witness for claim C8: in the write-then-read register trace the queued
edge (0x1000, 0) to (0x1000, 1) ends up in the emission log. -/
theorem claim_C8_witness :
    track false fsRegPair [] [] = Except.ok tsRegPair ∧
    pairEmitted tsRegPair.emitted (CodeLocation.loc 0x1000 0) (CodeLocation.loc 0x1000 1) := by
  refine ⟨rfl, ?_⟩
  exact claim_C8_no_group_dropped false fsRegPair [] [] tsRegPair rfl
    (CodeLocation.loc 0x1000 0, CodeLocation.loc 0x1000 1,
      { type := some DepType.reg, count := some 0 }) (by decide)

/-- Witness for claim C9: in the Scenario D trace the emitted exit edge has as
its source the location (0x1000, 1) of the write to temporary 3. -/
theorem claim_C9_witness :
    track false fsTmpExit [] [] = Except.ok tsTmpExit ∧
    CodeLocation.loc 0x1000 1 ∈ tmpWriteLocs fsTmpExit.actions := by
  refine ⟨rfl, ?_⟩
  exact (claim_C9_tmp_locality false fsTmpExit [] [] tsTmpExit rfl).1
    (CodeLocation.loc 0x1000 1, CodeLocation.loc 0x1000 2,
      { type := some DepType.exitT, data := some (EdgeData.tmp 3) })
    (by decide) (Or.inr rfl)

/-- Witness for claim C10: the trace reading the never-written temporary 5
raises the missing-key error. -/
theorem claim_C10_witness :
    track false fsTmpUndef [] [] = Except.error (TrackErr.tmpKeyError 5) := by
  obtain ⟨e, he⟩ :=
    claim_C10_undefined_tmp false fsTmpUndef [] [] 0 (by decide) 5 (by decide) (by decide)
  have hd : track false fsTmpUndef [] [] = Except.error (TrackErr.tmpKeyError 5) := rfl
  exact hd

/-! ### Graph well-formedness through the whole construction (claim C1) -/

theorem memAddrStep_DGWF (kd : Bool) (action : RW) (ds : Nat) (ard atd drd dtd : List Nat)
    (cl : CodeLocation) (st : TrackState) (addr : Nat) (h : DGWF st.graph) :
    DGWF (memAddrStep kd action ds ard atd drd dtd cl st addr).graph := by
  have h1 : ∀ s : TrackState, DGWF s.graph → DGWF ((if action = RW.read then
      (defLookup kd s.live_defs (SimVariable.mem addr ds)).foldl
        (fun st2 p => emitEdge st2 p.1 cl p.2) s else s).graph) := by
    intro s hs
    split
    · refine foldl_preserve _ (fun s2 : TrackState => DGWF s2.graph) _ ?_ s hs
      intro s2 p _ hs2
      exact DGWF_addEdge _ _ _ _ hs2
    · exact hs
  have h2 : ∀ s : TrackState, DGWF s.graph → DGWF ((if action = RW.write then
      { s with live_defs := kill s.live_defs (SimVariable.mem addr ds) cl } else s).graph) := by
    intro s hs
    split
    · exact hs
    · exact hs
  have h3 : ∀ s : TrackState, DGWF s.graph → DGWF ((ard.foldl
      (fun st2 r => { st2 with regs_to_edges := annotateEdges st2.regs_to_edges r .memAddr })
      s).graph) := by
    intro s hs
    refine foldl_preserve _ (fun s2 : TrackState => DGWF s2.graph) _ ?_ s hs
    intro s2 r _ hs2
    exact hs2
  have h4 : ∀ s : TrackState, DGWF s.graph → DGWF ((atd.foldl
      (fun st2 t => { st2 with temps_to_edges := annotateEdges st2.temps_to_edges t .memAddr })
      s).graph) := by
    intro s hs
    refine foldl_preserve _ (fun s2 : TrackState => DGWF s2.graph) _ ?_ s hs
    intro s2 r _ hs2
    exact hs2
  have h5 : ∀ s : TrackState, DGWF s.graph → DGWF ((drd.foldl
      (fun st2 r => { st2 with regs_to_edges := annotateEdges st2.regs_to_edges r .memData })
      s).graph) := by
    intro s hs
    refine foldl_preserve _ (fun s2 : TrackState => DGWF s2.graph) _ ?_ s hs
    intro s2 r _ hs2
    exact hs2
  have h6 : ∀ s : TrackState, DGWF s.graph → DGWF ((dtd.foldl
      (fun st2 t => { st2 with temps_to_edges := annotateEdges st2.temps_to_edges t .memData })
      s).graph) := by
    intro s hs
    refine foldl_preserve _ (fun s2 : TrackState => DGWF s2.graph) _ ?_ s hs
    intro s2 r _ hs2
    exact hs2
  exact h6 _ (h5 _ (h4 _ (h3 _ (h2 _ (h1 _ h)))))

theorem regReadStep_DGWF (kd : Bool) (offset ds : Nat) (cl : CodeLocation) (st : TrackState)
    (h : DGWF st.graph) : DGWF (regReadStep kd offset ds cl st).graph := by
  have h1 : DGWF ((if (alookup st.regs_to_edges offset).isSome then
      dumpRegs st offset true else st).graph) := by
    split
    · have hq : (dumpRegs st offset true).graph
          = (dumpFrom st.graph st.emitted st.regs_to_edges offset true).1 := rfl
      rw [hq]
      exact dumpFrom_DGWF _ _ _ _ _ h
    · exact h
  refine foldl_preserve _ (fun s2 : TrackState => DGWF s2.graph) _ ?_ _ h1
  intro s2 p _ hs2
  exact hs2

theorem tmpReadStep_DGWF (tmpId : Nat) (cl prev : CodeLocation) (st : TrackState)
    (h : DGWF st.graph) : DGWF (tmpReadStep tmpId cl prev st).graph := by
  show DGWF ((if (alookup st.temps_to_edges tmpId).isSome then dumpTemps st tmpId true
    else st).graph)
  split
  · have hq : (dumpTemps st tmpId true).graph
        = (dumpFrom st.graph st.emitted st.temps_to_edges tmpId true).1 := rfl
    rw [hq]
    exact dumpFrom_DGWF _ _ _ _ _ h
  · exact h

theorem exitDepStep_DGWF (cl : CodeLocation) (st : TrackState) (t : Nat) (st' : TrackState)
    (hok : exitDepStep cl st t = .ok st') (h : DGWF st.graph) : DGWF st'.graph := by
  unfold exitDepStep at hok
  cases hl : alookup st.temps t with
  | none => rw [hl] at hok; cases hok
  | some prev =>
    rw [hl] at hok
    have hst := Except.ok.inj hok
    subst hst
    show DGWF ((if (alookup st.temps_to_edges t).isSome then dumpTemps st t true else st).graph)
    split
    · have hq : (dumpTemps st t true).graph
          = (dumpFrom st.graph st.emitted st.temps_to_edges t true).1 := rfl
      rw [hq]
      exact dumpFrom_DGWF _ _ _ _ _ h
    · exact h

theorem trackAction_DGWF (kd : Bool) (st : TrackState) (a : SimAction) (st' : TrackState)
    (hok : trackAction kd st a = .ok st') (h : DGWF st.graph) : DGWF st'.graph := by
  cases a with
  | mem aloc action aa ac ds ard atd drd dtd =>
    have hst := Except.ok.inj hok
    subst hst
    refine foldl_preserve _ (fun s2 : TrackState => DGWF s2.graph) _ ?_ st h
    intro s2 addr _ hs2
    exact memAddrStep_DGWF kd action ds ard atd drd dtd aloc.codeLoc s2 addr hs2
  | reg aloc action offset ds =>
    cases action with
    | read =>
      have hst := Except.ok.inj hok
      subst hst
      exact regReadStep_DGWF kd offset ds aloc.codeLoc st h
    | write =>
      have hst := Except.ok.inj hok
      subst hst
      exact h
  | tmp aloc action tmpId =>
    cases action with
    | read =>
      have hok2 : (match alookup st.temps tmpId with
          | none => Except.error (TrackErr.tmpKeyError tmpId)
          | some prev_code_loc => Except.ok (tmpReadStep tmpId aloc.codeLoc prev_code_loc st))
          = Except.ok st' := hok
      cases hl : alookup st.temps tmpId with
      | none => rw [hl] at hok2; cases hok2
      | some prev =>
        rw [hl] at hok2
        have hst := Except.ok.inj hok2
        subst hst
        exact tmpReadStep_DGWF tmpId aloc.codeLoc prev st h
    | write =>
      have hst := Except.ok.inj hok
      subst hst
      exact h
  | exitA aloc tmpDeps =>
    exact foldlM_preserve (exitDepStep aloc.codeLoc) (fun s2 : TrackState => DGWF s2.graph)
      tmpDeps (fun s2 t s3 _ hs2 hok2 => exitDepStep_DGWF aloc.codeLoc s2 t s3 hok2 hs2)
      st st' h hok

theorem track_DGWF (kd : Bool) (state : FinalState) (live : LiveDefs) (g : DepGraph)
    (ts : TrackState) (h : track kd state live g = .ok ts) (hg : DGWF g) : DGWF ts.graph := by
  obtain ⟨st1, hfold, _, _, _, _, _, _, _, hdg⟩ := track_spec kd state live g ts h
  refine hdg ?_
  exact foldlM_preserve (fun s a => trackAction kd s a) (fun s2 : TrackState => DGWF s2.graph)
    state.actions (fun s2 a s3 _ hs2 hok => trackAction_DGWF kd s2 a s3 hok hs2)
    _ st1 hg hfold

theorem processState_DGWF (kd : Bool) (cfg : CFG) (node numFinal : Nat) (st : LoopState)
    (state : FinalState) (st' : LoopState)
    (hok : processState kd cfg node numFinal st state = .ok st') (h : DGWF st.graph) :
    DGWF st'.graph := by
  unfold processState at hok
  by_cases hf : (state.isFakeRet && decide (1 < numFinal)) = true
  · rw [if_pos hf] at hok
    have hst := Except.ok.inj hok
    subst hst
    exact h
  · rw [if_neg hf] at hok
    cases hfil : (cfg.successors node).filter (fun n => decide (n = state.ip)) with
    | nil =>
      rw [hfil] at hok
      have hst := Except.ok.inj hok
      subst hst
      exact h
    | cons succ rest2 =>
      rw [hfil] at hok
      have hok2 : (match track kd state ((alookup st.live_defs_per_node node).getD [])
          st.graph with
        | Except.error e => (Except.error e : Except TrackErr LoopState)
        | Except.ok ts => Except.ok
            { worklist := if (mergeDefs ts.live_defs
                  ((alookup (if (alookup st.live_defs_per_node succ).isSome
                      then st.live_defs_per_node
                      else st.live_defs_per_node ++ [(succ, [])]) succ).getD [])).2
                then enqueueChanged cfg st.worklist succ else st.worklist,
              live_defs_per_node := ainsert
                (if (alookup st.live_defs_per_node succ).isSome
                  then st.live_defs_per_node
                  else st.live_defs_per_node ++ [(succ, [])]) succ
                (mergeDefs ts.live_defs
                  ((alookup (if (alookup st.live_defs_per_node succ).isSome
                      then st.live_defs_per_node
                      else st.live_defs_per_node ++ [(succ, [])]) succ).getD [])).1,
              graph := ts.graph }) = Except.ok st' := hok
      cases htr : track kd state ((alookup st.live_defs_per_node node).getD []) st.graph with
      | error e => rw [htr] at hok2; cases hok2
      | ok ts =>
        rw [htr] at hok2
        have hst := Except.ok.inj hok2
        have hgr : st'.graph = ts.graph := by rw [← hst]
        rw [hgr]
        exact track_DGWF kd state _ st.graph ts htr h

theorem ddgStep_DGWF (kd : Bool) (cfg : CFG) (st st' : LoopState)
    (hok : ddgStep kd cfg st = .ok st') (h : DGWF st.graph) : DGWF st'.graph := by
  unfold ddgStep at hok
  cases hwl : st.worklist with
  | nil =>
    rw [hwl] at hok
    have hst := Except.ok.inj hok
    subst hst
    exact h
  | cons node rest =>
    rw [hwl] at hok
    have hok2 : (cfg.final_states node).foldlM (fun s state =>
        processState kd cfg node (cfg.final_states node).length s state)
        ({ worklist := rest,
           live_defs_per_node := if (alookup st.live_defs_per_node node).isSome
             then st.live_defs_per_node else st.live_defs_per_node ++ [(node, [])],
           graph := st.graph } : LoopState) = Except.ok st' := hok
    exact foldlM_preserve
      (fun s state => processState kd cfg node (cfg.final_states node).length s state)
      (fun s2 : LoopState => DGWF s2.graph) (cfg.final_states node)
      (fun s2 a s3 _ hs2 hok3 =>
        processState_DGWF kd cfg node (cfg.final_states node).length s2 a s3 hok3 hs2)
      ({ worklist := rest,
         live_defs_per_node := if (alookup st.live_defs_per_node node).isSome
           then st.live_defs_per_node else st.live_defs_per_node ++ [(node, [])],
         graph := st.graph } : LoopState) st' h hok2

theorem ddgLoop_DGWF (kd : Bool) (cfg : CFG) :
    ∀ (fuel : Nat) (st st' : LoopState),
      ddgLoop kd cfg fuel st = some (.ok st') → DGWF st.graph → DGWF st'.graph := by
  intro fuel
  induction fuel with
  | zero =>
    intro st st' h hg
    have h2 : (if st.worklist.isEmpty then some (Except.ok st) else none)
        = some (Except.ok st') := h
    split at h2
    · have h3 := Except.ok.inj (Option.some.inj h2)
      subst h3
      exact hg
    · cases h2
  | succ n ih =>
    intro st st' h hg
    have h2 : (if st.worklist.isEmpty then some (Except.ok st)
        else match ddgStep kd cfg st with
          | .error e => some (.error e)
          | .ok st1 => ddgLoop kd cfg n st1) = some (Except.ok st') := h
    split at h2
    · have h3 := Except.ok.inj (Option.some.inj h2)
      subst h3
      exact hg
    · cases hstep : ddgStep kd cfg st with
      | error e =>
        rw [hstep] at h2
        cases Option.some.inj h2
      | ok st1 =>
        rw [hstep] at h2
        exact ih st1 st' h2 (ddgStep_DGWF kd cfg st st1 hstep hg)

/-- Claim C1 (amended): after construction the dependence graph never holds
two edges with the same (source, target) pair — but on re-derivation of a
pair the new labels are dropped, not merged: `addEdge` leaves the graph
completely unchanged whenever the pair is already present. -/
theorem claim_C1_dedup (kd : Bool) (cfg : CFG) (start fuel : Nat) (st' : LoopState)
    (h : ddgConstruct kd cfg start fuel = some (.ok st')) :
    DGWF st'.graph ∧
    ∀ (g : DepGraph) (s t : CodeLocation) (lab : Labels),
      hasEdge g s t = true → addEdge g s t lab = g := by
  constructor
  · exact ddgLoop_DGWF kd cfg fuel _ st' h List.Pairwise.nil
  · exact fun g s t lab hh => addEdge_of_hasEdge g s t lab hh

/-- Witness for claim C1: the two-node CFG construction drains and its
one-edge graph has pairwise-distinct (source, target) pairs. -/
theorem claim_C1_witness :
    ddgConstruct false cfgEdge 0x1000 4 = some (Except.ok cEdgeState) ∧
    DGWF cEdgeState.graph :=
  ⟨rfl, (claim_C1_dedup false cfgEdge 0x1000 4 cEdgeState rfl).1⟩

/-! ### The missing-entry behaviour of the construction (claim C6) -/

/-- Claim C6 counterexample: with an entry address carried by no CFG node the
construction does not fail; it silently drains to a loop state whose graph is
nonempty (the None seed makes the dfs walk the whole graph). -/
theorem claim_C6_counterexample :
    getAnyNode cfgEdge 0x9999 = none ∧
    ddgConstruct false cfgEdge 0x9999 4 = some (Except.ok cEdgeState) ∧
    cEdgeState.graph ≠ [] := by
  refine ⟨rfl, rfl, ?_⟩
  decide

/-- Claim C6 (amended): when the entry address has no CFG node, the entry
lookup yields None and the construction, far from failing, seeds its worklist
from the depth-first-successor walk of the whole graph (the networkx
behaviour on a None source) and runs the fixpoint loop as usual. -/
theorem claim_C6_missing_entry (kd : Bool) (cfg : CFG) (start fuel : Nat)
    (h : getAnyNode cfg start = none) :
    ddgConstruct kd cfg start fuel = ddgLoop kd cfg fuel
      { worklist := (dfsSuccessors cfg.adj none).map Prod.fst,
        live_defs_per_node := [], graph := [] } := by
  unfold ddgConstruct initWorklist
  rw [h]

/-- Witness for claim C6: the two-node CFG with the absent entry address
0x9999. -/
theorem claim_C6_witness :
    getAnyNode cfgEdge 0x9999 = none ∧
    ddgConstruct false cfgEdge 0x9999 4 = ddgLoop false cfgEdge 4
      { worklist := (dfsSuccessors cfgEdge.adj none).map Prod.fst,
        live_defs_per_node := [], graph := [] } :=
  ⟨rfl, claim_C6_missing_entry false cfgEdge 0x9999 4 rfl⟩

/-! ### Size bounds and universe membership (towards claim C3) -/

theorem szPN_cons (p : Nat × LiveDefs) (rest : List (Nat × LiveDefs)) :
    szPN (p :: rest) = szLD p.2 + szPN rest := by simp [szPN]

theorem szPN_append_empty (d : List (Nat × LiveDefs)) (n : Nat) :
    szPN (d ++ [(n, [])]) = szPN d := by
  simp [szPN, szLD]

theorem szPN_ainsert (d : List (Nat × LiveDefs)) (k : Nat) (val old : LiveDefs)
    (hold : alookup d k = some old) :
    szPN (ainsert d k val) + szLD old = szPN d + szLD val := by
  induction d with
  | nil => cases hold
  | cons p rest ih =>
    rw [alookup] at hold
    by_cases hp : p.1 = k
    · rw [if_pos hp] at hold
      have h2 := Option.some.inj hold
      simp only [ainsert, if_pos hp, szPN_cons, h2]
      omega
    · rw [if_neg hp] at hold
      simp only [ainsert, if_neg hp, szPN_cons]
      have h3 := ih hold
      omega

theorem nodup_length_le_dedup {α : Type _} [DecidableEq α] (l u : List α)
    (hn : l.Nodup) (hsub : ∀ x ∈ l, x ∈ u) : l.length ≤ u.dedup.length := by
  have h1 : l.toFinset ⊆ u.toFinset := by
    intro x hx
    rw [List.mem_toFinset] at hx ⊢
    exact hsub x hx
  have h2 := Finset.card_le_card h1
  rw [List.card_toFinset, List.card_toFinset, hn.dedup] at h2
  exact h2

theorem szLD_le_mul (L : List CodeLocation) :
    ∀ ld : LiveDefs, (∀ p ∈ ld, p.2.length ≤ L.dedup.length) →
      szLD ld ≤ ld.length * L.dedup.length := by
  intro ld
  induction ld with
  | nil => intro _; simp [szLD]
  | cons p rest ih =>
    intro hlen
    rw [szLD_cons]
    have h1 := hlen p (List.mem_cons_self _ _)
    have h2 := ih (fun q hq => hlen q (List.mem_cons_of_mem _ hq))
    simp only [List.length_cons]
    calc p.2.length + szLD rest ≤ L.dedup.length + rest.length * L.dedup.length := by omega
      _ = (rest.length + 1) * L.dedup.length := by ring

theorem szLD_le_of_LDWF (V : List SimVariable) (L : List CodeLocation) (ld : LiveDefs)
    (h : LDWF V L ld) : szLD ld ≤ V.dedup.length * L.dedup.length := by
  have hsum : szLD ld ≤ ld.length * L.dedup.length := by
    refine szLD_le_mul L ld ?_
    intro p hp
    exact nodup_length_le_dedup _ _ (h.2 p hp).2.1 (h.2 p hp).2.2.1
  have hcnt : ld.length ≤ V.dedup.length := by
    have h3 := nodup_length_le_dedup (ld.map Prod.fst) V h.1 ?_
    · simpa using h3
    · intro x hx
      obtain ⟨p, hp, hpx⟩ := List.mem_map.1 hx
      rw [← hpx]
      exact (h.2 p hp).1
  calc szLD ld ≤ ld.length * L.dedup.length := hsum
    _ ≤ V.dedup.length * L.dedup.length := Nat.mul_le_mul_right _ hcnt

theorem szPN_le_mul (B : Nat) :
    ∀ d : List (Nat × LiveDefs), (∀ p ∈ d, szLD p.2 ≤ B) → szPN d ≤ d.length * B := by
  intro d
  induction d with
  | nil => intro _; simp [szPN]
  | cons p rest ih =>
    intro hlen
    rw [szPN_cons]
    have h1 := hlen p (List.mem_cons_self _ _)
    have h2 := ih (fun q hq => hlen q (List.mem_cons_of_mem _ hq))
    simp only [List.length_cons]
    calc szLD p.2 + szPN rest ≤ B + rest.length * B := by omega
      _ = (rest.length + 1) * B := by ring

theorem szPN_le_of_LoopWF (N : List Nat) (V : List SimVariable) (L : List CodeLocation)
    (st : LoopState) (h : LoopWF N V L st) :
    szPN st.live_defs_per_node ≤ N.dedup.length * (V.dedup.length * L.dedup.length) := by
  have hsum : szPN st.live_defs_per_node
      ≤ st.live_defs_per_node.length * (V.dedup.length * L.dedup.length) := by
    refine szPN_le_mul _ _ ?_
    intro p hp
    exact szLD_le_of_LDWF V L p.2 (h.2.2 p hp).2
  have hcnt : st.live_defs_per_node.length ≤ N.dedup.length := by
    have h3 := nodup_length_le_dedup (st.live_defs_per_node.map Prod.fst) N h.2.1 ?_
    · simpa using h3
    · intro x hx
      obtain ⟨p, hp, hpx⟩ := List.mem_map.1 hx
      rw [← hpx]
      exact (h.2.2 p hp).1
  calc szPN st.live_defs_per_node
      ≤ st.live_defs_per_node.length * (V.dedup.length * L.dedup.length) := hsum
    _ ≤ N.dedup.length * (V.dedup.length * L.dedup.length) := Nat.mul_le_mul_right _ hcnt

theorem alookup_append_of_none {α β : Type _} [DecidableEq α] (d : List (α × β)) (k : α)
    (v : β) (h : alookup d k = none) : alookup (d ++ [(k, v)]) k = some v := by
  induction d with
  | nil => simp [alookup]
  | cons p rest ih =>
    rw [alookup] at h
    by_cases hp : p.1 = k
    · rw [if_pos hp] at h; cases h
    · rw [if_neg hp] at h
      simp only [List.cons_append, alookup, if_neg hp]
      exact ih h

theorem mem_flatMap_snd_of_alookup (adj : List (Nat × List Nat)) (u c : Nat)
    (hc : c ∈ (alookup adj u).getD []) : c ∈ adj.flatMap Prod.snd := by
  cases hl : alookup adj u with
  | none =>
    rw [hl] at hc
    simp at hc
  | some l =>
    rw [hl] at hc
    simp only [Option.getD_some] at hc
    exact List.mem_flatMap.2 ⟨(u, l), alookup_mem adj u l hl, hc⟩

theorem dfsVisit_mem (adj : List (Nat × List Nat)) (N0 : List Nat)
    (hN : ∀ c, c ∈ adj.flatMap Prod.snd → c ∈ N0) :
    ∀ (fuel : Nat) (visited : List Nat) (u : Nat), u ∈ N0 →
      ∀ p ∈ (dfsVisit adj fuel visited u).2, p.1 ∈ N0 ∧ p.2 ∈ N0 := by
  intro fuel
  induction fuel with
  | zero =>
    intro visited u hu p hp
    simp [dfsVisit] at hp
  | succ n ih =>
    intro visited u hu
    show ∀ p ∈ (((alookup adj u).getD []).foldl
        (fun (acc : List Nat × List (Nat × Nat)) c =>
          if c ∈ acc.1 then acc
          else
            let r := dfsVisit adj n (acc.1 ++ [c]) c
            (r.1, acc.2 ++ [(u, c)] ++ r.2))
        (visited, [])).2, p.1 ∈ N0 ∧ p.2 ∈ N0
    refine foldl_preserve _ (fun acc : List Nat × List (Nat × Nat) =>
      ∀ p ∈ acc.2, p.1 ∈ N0 ∧ p.2 ∈ N0) _ ?_ (visited, [])
      (fun p hp => absurd hp (List.not_mem_nil p))
    intro acc c hc hacc
    have hcN : c ∈ N0 := hN c (mem_flatMap_snd_of_alookup adj u c hc)
    split
    · exact hacc
    · intro p hp
      rcases List.mem_append.1 hp with hp1 | hp1
      · rcases List.mem_append.1 hp1 with hp2 | hp2
        · exact hacc p hp2
        · have hpuc : p = (u, c) := by simpa using hp2
          rw [hpuc]
          exact ⟨hu, hcN⟩
      · exact ih (acc.1 ++ [c]) c hcN p hp1

theorem dfsEdges_mem (adj : List (Nat × List Nat)) (N0 : List Nat)
    (hN : ∀ c, c ∈ adj.flatMap Prod.snd → c ∈ N0)
    (hK : ∀ k, k ∈ adj.map Prod.fst → k ∈ N0) (source : Option Nat)
    (hs : ∀ s, source = some s → s ∈ N0) :
    ∀ p ∈ dfsEdges adj source, p.1 ∈ N0 ∧ p.2 ∈ N0 := by
  have hstarts : ∀ s ∈ (match source with
      | none => adj.map Prod.fst
      | some s => [s]), s ∈ N0 := by
    cases source with
    | none => intro s hsmem; exact hK s hsmem
    | some s0 =>
      intro s hsmem
      have hss : s = s0 := by simpa using hsmem
      rw [hss]
      exact hs s0 rfl
  show ∀ p ∈ ((match source with
      | none => adj.map Prod.fst
      | some s => [s]).foldl (fun (acc : List Nat × List (Nat × Nat)) s =>
        if s ∈ acc.1 then acc
        else
          let r := dfsVisit adj (dfsFuel adj) (acc.1 ++ [s]) s
          (r.1, acc.2 ++ r.2))
      ([], [])).2, p.1 ∈ N0 ∧ p.2 ∈ N0
  refine foldl_preserve _ (fun acc : List Nat × List (Nat × Nat) =>
    ∀ p ∈ acc.2, p.1 ∈ N0 ∧ p.2 ∈ N0) _ ?_ ([], [])
    (fun p hp => absurd hp (List.not_mem_nil p))
  intro acc s hsmem hacc
  have hsN : s ∈ N0 := hstarts s hsmem
  split
  · exact hacc
  · intro p hp
    rcases List.mem_append.1 hp with hp1 | hp1
    · exact hacc p hp1
    · exact dfsVisit_mem adj N0 hN (dfsFuel adj) (acc.1 ++ [s]) s hsN p hp1

theorem dfsSuccessors_keys (adj : List (Nat × List Nat)) (source : Option Nat) :
    ∀ k ∈ (dfsSuccessors adj source).map Prod.fst,
      ∃ p ∈ dfsEdges adj source, p.1 = k := by
  show ∀ k ∈ ((dfsEdges adj source).foldl
      (fun d pc => ddAppendNat d pc.1 pc.2) []).map Prod.fst,
    ∃ p ∈ dfsEdges adj source, p.1 = k
  refine foldl_preserve _ (fun d : List (Nat × List Nat) =>
    ∀ k ∈ d.map Prod.fst, ∃ p ∈ dfsEdges adj source, p.1 = k) _ ?_ []
    (fun k hk => absurd hk (by simp))
  intro d pc hpc hd k hk
  cases hl : alookup d pc.1 with
  | some vs =>
    have hk2 : k ∈ (ainsert d pc.1 (vs ++ [pc.2])).map Prod.fst := by
      have hdd : ddAppendNat d pc.1 pc.2 = ainsert d pc.1 (vs ++ [pc.2]) := by
        unfold ddAppendNat
        rw [hl]
      rw [← hdd]
      exact hk
    rcases keys_ainsert d pc.1 (vs ++ [pc.2]) with hkeq | hkeq
    · rw [hkeq] at hk2
      exact hd k hk2
    · rw [hkeq] at hk2
      rcases List.mem_append.1 hk2 with h1 | h1
      · exact hd k h1
      · have hkp : k = pc.1 := by simpa using h1
        rw [hkp]
        exact ⟨pc, hpc, rfl⟩
  | none =>
    have hk2 : k ∈ (d ++ [(pc.1, [pc.2])]).map Prod.fst := by
      have hdd : ddAppendNat d pc.1 pc.2 = d ++ [(pc.1, [pc.2])] := by
        unfold ddAppendNat
        rw [hl]
      rw [← hdd]
      exact hk
    simp only [List.map_append] at hk2
    rcases List.mem_append.1 hk2 with h1 | h1
    · exact hd k h1
    · have hkp : k = pc.1 := by simpa using h1
      rw [hkp]
      exact ⟨pc, hpc, rfl⟩

theorem initWorklist_mem (cfg : CFG) (start : Nat) :
    ∀ n ∈ initWorklist cfg start,
      n ∈ cfg.adj.map Prod.fst ++ cfg.adj.flatMap Prod.snd := by
  intro n hn
  obtain ⟨p, hp, hpn⟩ := dfsSuccessors_keys cfg.adj (getAnyNode cfg start) n hn
  have hs : ∀ s, getAnyNode cfg start = some s → s ∈ cfg.adj.map Prod.fst := by
    intro s hsome
    unfold getAnyNode at hsome
    split at hsome
    · rename_i hcond
      have h2 := Option.some.inj hsome
      rw [← h2]
      exact hcond
    · cases hsome
  have hmem := dfsEdges_mem cfg.adj (cfg.adj.map Prod.fst ++ cfg.adj.flatMap Prod.snd)
    (fun c hc => List.mem_append.2 (Or.inr hc))
    (fun k hk => List.mem_append.2 (Or.inl hk))
    (getAnyNode cfg start)
    (fun s hsome => List.mem_append.2 (Or.inl (hs s hsome)))
    p hp
  rw [← hpn]
  exact hmem.1

/-! ### Live-definition well-formedness through a trace replay (claim C3) -/

theorem LDWF_kill (V : List SimVariable) (L : List CodeLocation) (ld : LiveDefs)
    (var : SimVariable) (cl : CodeLocation) (h : LDWF V L ld) (hv : var ∈ V) (hc : cl ∈ L) :
    LDWF V L (kill ld var cl) := by
  constructor
  · exact keys_nodup_ainsert ld var [cl] h.1
  · intro p hp
    rcases mem_ainsert ld var [cl] p hp with hp1 | hp1
    · rw [hp1]
      exact ⟨hv, by simp, by simpa using hc, by simp⟩
    · exact h.2 p hp1

theorem memAddrStep_LDWF (V : List SimVariable) (L : List CodeLocation) (kd : Bool)
    (action : RW) (ds : Nat) (ard atd drd dtd : List Nat) (cl : CodeLocation)
    (st : TrackState) (addr : Nat) (hv : SimVariable.mem addr ds ∈ V) (hc : cl ∈ L)
    (h : LDWF V L st.live_defs) :
    LDWF V L (memAddrStep kd action ds ard atd drd dtd cl st addr).live_defs := by
  have h1 : ∀ s : TrackState, LDWF V L s.live_defs → LDWF V L ((if action = RW.read then
      (defLookup kd s.live_defs (SimVariable.mem addr ds)).foldl
        (fun st2 p => emitEdge st2 p.1 cl p.2) s else s).live_defs) := by
    intro s hs
    split
    · refine foldl_preserve _ (fun s2 : TrackState => LDWF V L s2.live_defs) _ ?_ s hs
      intro s2 p _ hs2
      exact hs2
    · exact hs
  have h2 : ∀ s : TrackState, LDWF V L s.live_defs → LDWF V L ((if action = RW.write then
      { s with live_defs := kill s.live_defs (SimVariable.mem addr ds) cl }
      else s).live_defs) := by
    intro s hs
    split
    · exact LDWF_kill V L s.live_defs _ cl hs hv hc
    · exact hs
  have h3 : ∀ s : TrackState, LDWF V L s.live_defs → LDWF V L ((ard.foldl
      (fun st2 r => { st2 with regs_to_edges := annotateEdges st2.regs_to_edges r .memAddr })
      s).live_defs) := by
    intro s hs
    refine foldl_preserve _ (fun s2 : TrackState => LDWF V L s2.live_defs) _ ?_ s hs
    intro s2 r _ hs2
    exact hs2
  have h4 : ∀ s : TrackState, LDWF V L s.live_defs → LDWF V L ((atd.foldl
      (fun st2 t => { st2 with temps_to_edges := annotateEdges st2.temps_to_edges t .memAddr })
      s).live_defs) := by
    intro s hs
    refine foldl_preserve _ (fun s2 : TrackState => LDWF V L s2.live_defs) _ ?_ s hs
    intro s2 r _ hs2
    exact hs2
  have h5 : ∀ s : TrackState, LDWF V L s.live_defs → LDWF V L ((drd.foldl
      (fun st2 r => { st2 with regs_to_edges := annotateEdges st2.regs_to_edges r .memData })
      s).live_defs) := by
    intro s hs
    refine foldl_preserve _ (fun s2 : TrackState => LDWF V L s2.live_defs) _ ?_ s hs
    intro s2 r _ hs2
    exact hs2
  have h6 : ∀ s : TrackState, LDWF V L s.live_defs → LDWF V L ((dtd.foldl
      (fun st2 t => { st2 with temps_to_edges := annotateEdges st2.temps_to_edges t .memData })
      s).live_defs) := by
    intro s hs
    refine foldl_preserve _ (fun s2 : TrackState => LDWF V L s2.live_defs) _ ?_ s hs
    intro s2 r _ hs2
    exact hs2
  exact h6 _ (h5 _ (h4 _ (h3 _ (h2 _ (h1 _ h)))))

theorem regReadStep_live_defs (kd : Bool) (offset ds : Nat) (cl : CodeLocation)
    (st : TrackState) : (regReadStep kd offset ds cl st).live_defs = st.live_defs := by
  have h1 : (if (alookup st.regs_to_edges offset).isSome then
      dumpRegs st offset true else st).live_defs = st.live_defs := by
    split
    · rfl
    · rfl
  refine foldl_preserve _ (fun s2 : TrackState => s2.live_defs = st.live_defs) _ ?_ _ h1
  intro s2 p _ hs2
  exact hs2

theorem tmpReadStep_live_defs (tmpId : Nat) (cl prev : CodeLocation) (st : TrackState) :
    (tmpReadStep tmpId cl prev st).live_defs = st.live_defs := by
  show (if (alookup st.temps_to_edges tmpId).isSome then dumpTemps st tmpId true
    else st).live_defs = st.live_defs
  split
  · rfl
  · rfl

theorem exitDepStep_live_defs (cl : CodeLocation) (st : TrackState) (t : Nat)
    (st' : TrackState) (hok : exitDepStep cl st t = .ok st') :
    st'.live_defs = st.live_defs := by
  unfold exitDepStep at hok
  cases hl : alookup st.temps t with
  | none => rw [hl] at hok; cases hok
  | some prev =>
    rw [hl] at hok
    have hst := Except.ok.inj hok
    rw [← hst]
    show (if (alookup st.temps_to_edges t).isSome then dumpTemps st t true else st).live_defs
      = st.live_defs
    split
    · rfl
    · rfl

theorem trackAction_LDWF (V : List SimVariable) (L : List CodeLocation) (kd : Bool)
    (st : TrackState) (a : SimAction) (st' : TrackState)
    (hok : trackAction kd st a = .ok st')
    (hv : ∀ v ∈ actionVars a, v ∈ V) (hc : SimAction.codeLoc a ∈ L)
    (h : LDWF V L st.live_defs) : LDWF V L st'.live_defs := by
  cases a with
  | mem aloc action aa ac ds ard atd drd dtd =>
    have hst := Except.ok.inj hok
    rw [← hst]
    refine foldl_preserve _ (fun s2 : TrackState => LDWF V L s2.live_defs) _ ?_ st h
    intro s2 addr haddr hs2
    refine memAddrStep_LDWF V L kd action ds ard atd drd dtd aloc.codeLoc s2 addr ?_ hc hs2
    exact hv _ (List.mem_map_of_mem (fun a2 => SimVariable.mem a2 ds) haddr)
  | reg aloc action offset ds =>
    cases action with
    | read =>
      have hst := Except.ok.inj hok
      rw [← hst]
      rw [regReadStep_live_defs]
      exact h
    | write =>
      have hst := Except.ok.inj hok
      rw [← hst]
      refine LDWF_kill V L st.live_defs _ aloc.codeLoc h ?_ hc
      exact hv _ (by simp [actionVars])
  | tmp aloc action tmpId =>
    cases action with
    | read =>
      have hok2 : (match alookup st.temps tmpId with
          | none => Except.error (TrackErr.tmpKeyError tmpId)
          | some prev_code_loc => Except.ok (tmpReadStep tmpId aloc.codeLoc prev_code_loc st))
          = Except.ok st' := hok
      cases hl : alookup st.temps tmpId with
      | none => rw [hl] at hok2; cases hok2
      | some prev =>
        rw [hl] at hok2
        have hst := Except.ok.inj hok2
        rw [← hst]
        rw [tmpReadStep_live_defs]
        exact h
    | write =>
      have hst := Except.ok.inj hok
      rw [← hst]
      exact h
  | exitA aloc tmpDeps =>
    refine foldlM_preserve (exitDepStep aloc.codeLoc)
      (fun s2 : TrackState => LDWF V L s2.live_defs) tmpDeps ?_ st st' h hok
    intro s2 t s3 _ hs2 hok2
    rw [exitDepStep_live_defs aloc.codeLoc s2 t s3 hok2]
    exact hs2

theorem track_LDWF (V : List SimVariable) (L : List CodeLocation) (kd : Bool)
    (state : FinalState) (live : LiveDefs) (g : DepGraph) (ts : TrackState)
    (h : track kd state live g = .ok ts) (hl : LDWF V L live)
    (hv : ∀ v ∈ actionsVars state.actions, v ∈ V)
    (hc : ∀ c ∈ actionsLocs state.actions, c ∈ L) : LDWF V L ts.live_defs := by
  obtain ⟨st1, hfold, hld, _, _, _, _, _, _, _⟩ := track_spec kd state live g ts h
  rw [hld]
  refine foldlM_preserve (fun s a => trackAction kd s a)
    (fun s2 : TrackState => LDWF V L s2.live_defs) state.actions ?_ _ st1 hl hfold
  intro s2 a s3 ha hs2 hok2
  refine trackAction_LDWF V L kd s2 a s3 hok2 ?_ ?_ hs2
  · intro v hvmem
    exact hv v (List.mem_flatMap.2 ⟨a, ha, hvmem⟩)
  · exact hc _ (List.mem_map_of_mem SimAction.codeLoc ha)

/-! ### Merge well-formedness and size facts (claim C3) -/

theorem enqueueChanged_eq (cfg : CFG) (wl : List Nat) (succ : Nat) :
    enqueueChanged cfg wl succ = if succ ∈ wl then wl else wl ++ [succ] := by
  have hrfl : enqueueChanged cfg wl succ
      = (dfsSuccessors cfg.adj (some succ)).foldl
          (fun wl2 p => p.2.foldl (fun wl3 s => if succ ∈ wl3 then wl3 else wl3 ++ [s]) wl2)
          (if succ ∈ wl then wl else wl ++ [succ]) := rfl
  have hmem : succ ∈ (if succ ∈ wl then wl else wl ++ [succ]) := by
    by_cases h : succ ∈ wl <;> simp [h]
  rw [hrfl, foldl_enqueue_outer succ _ _ hmem]

theorem mergeDefs_LDWF (V : List SimVariable) (L : List CodeLocation) (nd dfn : LiveDefs)
    (hnd : LDWF V L nd) (hdfn : LDWF V L dfn) :
    LDWF V L (mergeDefs nd dfn).1 ∧
    szLD dfn ≤ szLD (mergeDefs nd dfn).1 ∧
    ((mergeDefs nd dfn).2 = true → szLD dfn + 1 ≤ szLD (mergeDefs nd dfn).1) ∧
    ((mergeDefs nd dfn).2 = false → (mergeDefs nd dfn).1 = dfn) := by
  have hmd : mergeDefs nd dfn = nd.foldl mergeVarDefs (dfn, false) := rfl
  rw [hmd]
  obtain ⟨s1, s2, s3, s4, s5, s6, s7, s8⟩ := mergeDefs_fold_spec nd dfn false hnd.1
    (fun p hp => ⟨(hnd.2 p hp).2.2.2, (hnd.2 p hp).2.1⟩)
  refine ⟨⟨s8 hdfn.1, ?_⟩, s4, fun hch => s5 rfl hch, fun hf => (s6 hf).1⟩
  intro p hp
  have hlook : alookup (nd.foldl mergeVarDefs (dfn, false)).1 p.1 = some p.2 :=
    (mem_iff_alookup _ (s8 hdfn.1) p).1 hp
  by_cases hk : p.1 ∈ nd.map Prod.fst
  · obtain ⟨q, hq, hq1⟩ := List.mem_map.1 hk
    obtain ⟨added, m1, m2, m3, m4⟩ := s2 q hq
    rw [hq1] at m1 m2 m3
    have hp2 : p.2 = (alookup dfn p.1).getD [] ++ added := by
      rw [hlook] at m1
      exact Option.some.inj m1
    have hold : ((alookup dfn p.1).getD []).Nodup
        ∧ (∀ c ∈ (alookup dfn p.1).getD [], c ∈ L) := by
      cases ho : alookup dfn p.1 with
      | none => simp
      | some old =>
        have he := hdfn.2 _ (alookup_mem dfn p.1 old ho)
        simp only [Option.getD_some]
        exact ⟨he.2.1, he.2.2.1⟩
    have hqe := hnd.2 q hq
    refine ⟨by rw [← hq1]; exact hqe.1, ?_, ?_, ?_⟩
    · rw [hp2]
      refine List.Nodup.append hold.1 m4 ?_
      intro x hx1 hx2
      exact (m2 x hx2).1 hx1
    · intro c hcm
      rw [hp2] at hcm
      rcases List.mem_append.1 hcm with h1 | h1
      · exact hold.2 c h1
      · exact hqe.2.2.1 c ((m2 c h1).2)
    · obtain ⟨l, hlq⟩ := List.exists_mem_of_ne_nil q.2 hqe.2.2.2
      have hlp : l ∈ p.2 := by
        rw [hp2]
        exact m3 l hlq
      exact List.ne_nil_of_mem hlp
  · have hlook2 : alookup dfn p.1 = some p.2 := by
      rw [← s1 p.1 hk]
      exact hlook
    exact hdfn.2 p (alookup_mem dfn p.1 p.2 hlook2)

/-! ### Loop-state progress per processed final state (claim C3) -/

theorem processState_progress (kd : Bool) (cfg : CFG) (node numFinal : Nat)
    (st : LoopState) (state : FinalState) (st' : LoopState)
    (hok : processState kd cfg node numFinal st state = .ok st')
    (hstate : state ∈ cfg.final_states node)
    (hwf : LoopWF (cfg.adj.map Prod.fst ++ succUnion cfg) (cfgVars cfg) (cfgLocs cfg) st) :
    LoopWF (cfg.adj.map Prod.fst ++ succUnion cfg) (cfgVars cfg) (cfgLocs cfg) st' ∧
    szPN st.live_defs_per_node ≤ szPN st'.live_defs_per_node ∧
    st'.worklist.length + szPN st.live_defs_per_node
      ≤ st.worklist.length + szPN st'.live_defs_per_node := by
  unfold processState at hok
  by_cases hf : (state.isFakeRet && decide (1 < numFinal)) = true
  · rw [if_pos hf] at hok
    have hst := Except.ok.inj hok
    subst hst
    exact ⟨hwf, Nat.le_refl _, by omega⟩
  · rw [if_neg hf] at hok
    cases hfil : (cfg.successors node).filter (fun n => decide (n = state.ip)) with
    | nil =>
      rw [hfil] at hok
      have hst := Except.ok.inj hok
      subst hst
      exact ⟨hwf, Nat.le_refl _, by omega⟩
    | cons succ rest2 =>
      rw [hfil] at hok
      have hok2 : (match track kd state ((alookup st.live_defs_per_node node).getD [])
          st.graph with
        | Except.error e => (Except.error e : Except TrackErr LoopState)
        | Except.ok ts => Except.ok
            { worklist := if (mergeDefs ts.live_defs
                  ((alookup (if (alookup st.live_defs_per_node succ).isSome
                      then st.live_defs_per_node
                      else st.live_defs_per_node ++ [(succ, [])]) succ).getD [])).2
                then enqueueChanged cfg st.worklist succ else st.worklist,
              live_defs_per_node := ainsert
                (if (alookup st.live_defs_per_node succ).isSome
                  then st.live_defs_per_node
                  else st.live_defs_per_node ++ [(succ, [])]) succ
                (mergeDefs ts.live_defs
                  ((alookup (if (alookup st.live_defs_per_node succ).isSome
                      then st.live_defs_per_node
                      else st.live_defs_per_node ++ [(succ, [])]) succ).getD [])).1,
              graph := ts.graph }) = Except.ok st' := hok
      cases htr : track kd state ((alookup st.live_defs_per_node node).getD []) st.graph with
      | error e => rw [htr] at hok2; cases hok2
      | ok ts =>
        rw [htr] at hok2
        have hst := Except.ok.inj hok2
        have hsucc_mem : succ ∈ cfg.successors node := by
          have h3 : succ ∈ (cfg.successors node).filter (fun n => decide (n = state.ip)) := by
            rw [hfil]
            exact List.mem_cons_self _ _
          exact List.mem_of_mem_filter h3
        have hsuccN : succ ∈ cfg.adj.map Prod.fst ++ succUnion cfg :=
          List.mem_append.2 (Or.inr (mem_flatMap_snd_of_alookup cfg.adj node succ hsucc_mem))
        have hlive : LDWF (cfgVars cfg) (cfgLocs cfg)
            ((alookup st.live_defs_per_node node).getD []) := by
          cases hl0 : alookup st.live_defs_per_node node with
          | none =>
            refine ⟨by simp, ?_⟩
            intro p hp
            simp at hp
          | some l0 =>
            simp only [Option.getD_some]
            exact (hwf.2.2 _ (alookup_mem _ node l0 hl0)).2
        have htrace : (∀ v ∈ actionsVars state.actions, v ∈ cfgVars cfg) ∧
            (∀ c ∈ actionsLocs state.actions, c ∈ cfgLocs cfg) := by
          have hstate2 : state ∈ (alookup cfg.finals node).getD [] := hstate
          cases hfs : alookup cfg.finals node with
          | none =>
            rw [hfs] at hstate2
            simp at hstate2
          | some lst =>
            rw [hfs] at hstate2
            simp only [Option.getD_some] at hstate2
            have hmem : (node, lst) ∈ cfg.finals := alookup_mem _ node lst hfs
            constructor
            · intro v hv
              exact List.mem_flatMap.2
                ⟨(node, lst), hmem, List.mem_flatMap.2 ⟨state, hstate2, hv⟩⟩
            · intro c hc
              exact List.mem_flatMap.2
                ⟨(node, lst), hmem, List.mem_flatMap.2 ⟨state, hstate2, hc⟩⟩
        have hts : LDWF (cfgVars cfg) (cfgLocs cfg) ts.live_defs :=
          track_LDWF _ _ kd state _ st.graph ts htr hlive htrace.1 htrace.2
        have hE : ∃ dfn : LiveDefs,
            alookup (if (alookup st.live_defs_per_node succ).isSome
              then st.live_defs_per_node
              else st.live_defs_per_node ++ [(succ, [])]) succ = some dfn ∧
            LDWF (cfgVars cfg) (cfgLocs cfg) dfn ∧
            szPN (if (alookup st.live_defs_per_node succ).isSome
              then st.live_defs_per_node
              else st.live_defs_per_node ++ [(succ, [])]) = szPN st.live_defs_per_node ∧
            ((if (alookup st.live_defs_per_node succ).isSome
              then st.live_defs_per_node
              else st.live_defs_per_node ++ [(succ, [])]).map Prod.fst).Nodup ∧
            (∀ p ∈ (if (alookup st.live_defs_per_node succ).isSome
              then st.live_defs_per_node
              else st.live_defs_per_node ++ [(succ, [])]),
              p.1 ∈ cfg.adj.map Prod.fst ++ succUnion cfg ∧
              LDWF (cfgVars cfg) (cfgLocs cfg) p.2) := by
          by_cases hs0 : (alookup st.live_defs_per_node succ).isSome = true
          · rw [if_pos hs0]
            obtain ⟨d0, hd0⟩ := Option.isSome_iff_exists.mp hs0
            refine ⟨d0, hd0, ?_, rfl, hwf.2.1, hwf.2.2⟩
            exact (hwf.2.2 _ (alookup_mem _ succ d0 hd0)).2
          · rw [if_neg hs0]
            have hnone : alookup st.live_defs_per_node succ = none := by
              cases halo : alookup st.live_defs_per_node succ with
              | none => rfl
              | some d0 => exact absurd (by rw [halo]; rfl) hs0
            refine ⟨[], alookup_append_of_none _ succ [] hnone, ?_, szPN_append_empty _ _,
              ?_, ?_⟩
            · refine ⟨by simp, ?_⟩
              intro p hp
              simp at hp
            · simp only [List.map_append]
              refine List.Nodup.append hwf.2.1 (by simp) ?_
              intro x hx1 hx2
              have hx3 : x = succ := by simpa using hx2
              rw [hx3] at hx1
              exact (alookup_eq_none _ _).1 hnone hx1
            · intro p hp
              rcases List.mem_append.1 hp with h1 | h1
              · exact hwf.2.2 p h1
              · have hp2 : p = (succ, []) := by simpa using h1
                rw [hp2]
                refine ⟨hsuccN, by simp, ?_⟩
                intro q hq
                simp at hq
        obtain ⟨dfn, hdfn_look, hdfn_wf, hszE, hkeysE, hentE⟩ := hE
        have hgetD : (alookup (if (alookup st.live_defs_per_node succ).isSome
            then st.live_defs_per_node
            else st.live_defs_per_node ++ [(succ, [])]) succ).getD [] = dfn := by
          rw [hdfn_look]
          rfl
        obtain ⟨hm_wf, hm_mono, hm_strict, hm_same⟩ :=
          mergeDefs_LDWF (cfgVars cfg) (cfgLocs cfg) ts.live_defs dfn hts hdfn_wf
        have hwl2 : st'.worklist = if (mergeDefs ts.live_defs
              ((alookup (if (alookup st.live_defs_per_node succ).isSome
                  then st.live_defs_per_node
                  else st.live_defs_per_node ++ [(succ, [])]) succ).getD [])).2
            then enqueueChanged cfg st.worklist succ else st.worklist := by
          rw [← hst]
        have hld2 : st'.live_defs_per_node = ainsert
            (if (alookup st.live_defs_per_node succ).isSome
              then st.live_defs_per_node
              else st.live_defs_per_node ++ [(succ, [])]) succ
            (mergeDefs ts.live_defs
              ((alookup (if (alookup st.live_defs_per_node succ).isSome
                  then st.live_defs_per_node
                  else st.live_defs_per_node ++ [(succ, [])]) succ).getD [])).1 := by
          rw [← hst]
        rw [hgetD] at hwl2 hld2
        have hsz := szPN_ainsert (if (alookup st.live_defs_per_node succ).isSome
            then st.live_defs_per_node
            else st.live_defs_per_node ++ [(succ, [])]) succ
          (mergeDefs ts.live_defs dfn).1 dfn hdfn_look
        have hszPN : szPN st'.live_defs_per_node + szLD dfn
            = szPN st.live_defs_per_node + szLD (mergeDefs ts.live_defs dfn).1 := by
          rw [hld2, hsz, hszE]
        have hwl_mem : ∀ n ∈ st'.worklist, n ∈ cfg.adj.map Prod.fst ++ succUnion cfg := by
          rw [hwl2]
          split
          · rw [enqueueChanged_eq]
            split
            · exact hwf.1
            · intro n hn
              rcases List.mem_append.1 hn with h1 | h1
              · exact hwf.1 n h1
              · have hn2 : n = succ := by simpa using h1
                rw [hn2]
                exact hsuccN
          · exact hwf.1
        have hkeys2 : (st'.live_defs_per_node.map Prod.fst).Nodup := by
          rw [hld2]
          exact keys_nodup_ainsert _ _ _ hkeysE
        have hent2 : ∀ p ∈ st'.live_defs_per_node,
            p.1 ∈ cfg.adj.map Prod.fst ++ succUnion cfg ∧
            LDWF (cfgVars cfg) (cfgLocs cfg) p.2 := by
          rw [hld2]
          intro p hp
          rcases mem_ainsert _ _ _ p hp with hp1 | hp1
          · rw [hp1]
            exact ⟨hsuccN, hm_wf⟩
          · exact hentE p hp1
        refine ⟨⟨hwl_mem, hkeys2, hent2⟩, ?_, ?_⟩
        · omega
        · cases hmc : (mergeDefs ts.live_defs dfn).2 with
          | true =>
            have hlen : st'.worklist.length ≤ st.worklist.length + 1 := by
              rw [hwl2, if_pos hmc, enqueueChanged_eq]
              split
              · omega
              · simp
            have hstrict := hm_strict hmc
            omega
          | false =>
            have hlen : st'.worklist.length = st.worklist.length := by
              rw [hwl2, if_neg (by rw [hmc]; simp)]
            have hsame := hm_same hmc
            rw [hsame] at hszPN
            omega

theorem processState_fold_progress (kd : Bool) (cfg : CFG) (node : Nat) :
    ∀ (l : List FinalState), (∀ a ∈ l, a ∈ cfg.final_states node) →
      ∀ (s0 s1 : LoopState),
        l.foldlM (fun s state =>
          processState kd cfg node (cfg.final_states node).length s state) s0 = .ok s1 →
        LoopWF (cfg.adj.map Prod.fst ++ succUnion cfg) (cfgVars cfg) (cfgLocs cfg) s0 →
        LoopWF (cfg.adj.map Prod.fst ++ succUnion cfg) (cfgVars cfg) (cfgLocs cfg) s1 ∧
        szPN s0.live_defs_per_node ≤ szPN s1.live_defs_per_node ∧
        s1.worklist.length + szPN s0.live_defs_per_node
          ≤ s0.worklist.length + szPN s1.live_defs_per_node := by
  intro l
  induction l with
  | nil =>
    intro _ s0 s1 h hwf
    have h2 := Except.ok.inj h
    rw [← h2]
    exact ⟨hwf, Nat.le_refl _, by omega⟩
  | cons a rest ih =>
    intro hsub s0 s1 h hwf
    have h3 : processState kd cfg node (cfg.final_states node).length s0 a >>= (fun b =>
        rest.foldlM (fun s state =>
          processState kd cfg node (cfg.final_states node).length s state) b)
        = Except.ok s1 := h
    cases hstep : processState kd cfg node (cfg.final_states node).length s0 a with
    | error e =>
      rw [hstep] at h3
      have h4 : (Except.error e : Except TrackErr LoopState) = Except.ok s1 := h3
      cases h4
    | ok mid =>
      rw [hstep] at h3
      have h4 : rest.foldlM (fun s state =>
          processState kd cfg node (cfg.final_states node).length s state) mid
          = Except.ok s1 := h3
      obtain ⟨w1, w2, w3⟩ := processState_progress kd cfg node _ s0 a mid hstep
        (hsub a (List.mem_cons_self _ _)) hwf
      obtain ⟨v1, v2, v3⟩ := ih (fun b hb => hsub b (List.mem_cons_of_mem _ hb)) mid s1 h4 w1
      exact ⟨v1, Nat.le_trans w2 v2, by omega⟩

theorem ddgStep_progress (kd : Bool) (cfg : CFG) (st st' : LoopState)
    (hok : ddgStep kd cfg st = .ok st')
    (hwf : LoopWF (cfg.adj.map Prod.fst ++ succUnion cfg) (cfgVars cfg) (cfgLocs cfg) st)
    (hne : st.worklist ≠ []) :
    LoopWF (cfg.adj.map Prod.fst ++ succUnion cfg) (cfgVars cfg) (cfgLocs cfg) st' ∧
    st'.worklist.length + 1 + szPN st.live_defs_per_node
      ≤ st.worklist.length + szPN st'.live_defs_per_node := by
  unfold ddgStep at hok
  cases hwl : st.worklist with
  | nil => exact absurd hwl hne
  | cons node rest =>
    rw [hwl] at hok
    have hok2 : (cfg.final_states node).foldlM (fun s state =>
        processState kd cfg node (cfg.final_states node).length s state)
        ({ worklist := rest,
           live_defs_per_node := if (alookup st.live_defs_per_node node).isSome
             then st.live_defs_per_node else st.live_defs_per_node ++ [(node, [])],
           graph := st.graph } : LoopState) = Except.ok st' := hok
    have hnodeN : node ∈ cfg.adj.map Prod.fst ++ succUnion cfg := by
      refine hwf.1 node ?_
      rw [hwl]
      exact List.mem_cons_self _ _
    have hnone_of : ¬ (alookup st.live_defs_per_node node).isSome = true →
        alookup st.live_defs_per_node node = none := by
      intro hs0
      cases halo : alookup st.live_defs_per_node node with
      | none => rfl
      | some d0 => exact absurd (by rw [halo]; rfl) hs0
    have hwf1 : LoopWF (cfg.adj.map Prod.fst ++ succUnion cfg) (cfgVars cfg) (cfgLocs cfg)
        ({ worklist := rest,
           live_defs_per_node := if (alookup st.live_defs_per_node node).isSome
             then st.live_defs_per_node else st.live_defs_per_node ++ [(node, [])],
           graph := st.graph } : LoopState) := by
      refine ⟨?_, ?_, ?_⟩
      · intro n hn
        refine hwf.1 n ?_
        rw [hwl]
        exact List.mem_cons_of_mem _ hn
      · show ((if (alookup st.live_defs_per_node node).isSome
            then st.live_defs_per_node
            else st.live_defs_per_node ++ [(node, [])]).map Prod.fst).Nodup
        by_cases hs0 : (alookup st.live_defs_per_node node).isSome = true
        · rw [if_pos hs0]
          exact hwf.2.1
        · rw [if_neg hs0]
          simp only [List.map_append]
          refine List.Nodup.append hwf.2.1 (by simp) ?_
          intro x hx1 hx2
          have hx3 : x = node := by simpa using hx2
          rw [hx3] at hx1
          exact (alookup_eq_none _ _).1 (hnone_of hs0) hx1
      · intro p hp
        have hp2 : p ∈ (if (alookup st.live_defs_per_node node).isSome
            then st.live_defs_per_node
            else st.live_defs_per_node ++ [(node, [])]) := hp
        by_cases hs0 : (alookup st.live_defs_per_node node).isSome = true
        · rw [if_pos hs0] at hp2
          exact hwf.2.2 p hp2
        · rw [if_neg hs0] at hp2
          rcases List.mem_append.1 hp2 with h1 | h1
          · exact hwf.2.2 p h1
          · have hp3 : p = (node, []) := by simpa using h1
            rw [hp3]
            refine ⟨hnodeN, by simp, ?_⟩
            intro q hq
            simp at hq
    have hsz1 : szPN (if (alookup st.live_defs_per_node node).isSome
        then st.live_defs_per_node else st.live_defs_per_node ++ [(node, [])])
        = szPN st.live_defs_per_node := by
      by_cases hs0 : (alookup st.live_defs_per_node node).isSome = true
      · rw [if_pos hs0]
      · rw [if_neg hs0]
        exact szPN_append_empty _ _
    obtain ⟨r1, r2, r3⟩ := processState_fold_progress kd cfg node (cfg.final_states node)
      (fun a ha => ha) _ st' hok2 hwf1
    refine ⟨r1, ?_⟩
    have r3b : st'.worklist.length + szPN (if (alookup st.live_defs_per_node node).isSome
        then st.live_defs_per_node else st.live_defs_per_node ++ [(node, [])])
        ≤ rest.length + szPN st'.live_defs_per_node := r3
    rw [hsz1] at r3b
    have hlen : st.worklist.length = rest.length + 1 := by
      rw [hwl]
      rfl
    have hg : (node :: rest).length = rest.length + 1 := rfl
    omega

theorem ddgLoop_isSome (kd : Bool) (cfg : CFG) :
    ∀ (fuel : Nat) (st : LoopState),
      LoopWF (cfg.adj.map Prod.fst ++ succUnion cfg) (cfgVars cfg) (cfgLocs cfg) st →
      (cfg.adj.map Prod.fst ++ succUnion cfg).dedup.length
          * ((cfgVars cfg).dedup.length * (cfgLocs cfg).dedup.length)
          + st.worklist.length
        < fuel + szPN st.live_defs_per_node →
      (ddgLoop kd cfg fuel st).isSome := by
  intro fuel
  induction fuel with
  | zero =>
    intro st hwf hm
    have hb := szPN_le_of_LoopWF _ _ _ st hwf
    omega
  | succ n ih =>
    intro st hwf hm
    show (if st.worklist.isEmpty then some (Except.ok st)
      else match ddgStep kd cfg st with
        | .error e => some (.error e)
        | .ok st1 => ddgLoop kd cfg n st1).isSome
    split
    · rfl
    · rename_i hcond
      have hne : st.worklist ≠ [] := by
        intro hc
        exact hcond (by rw [hc]; rfl)
      cases hstep : ddgStep kd cfg st with
      | error e => rfl
      | ok st1 =>
        obtain ⟨w1, w2⟩ := ddgStep_progress kd cfg st st1 hstep hwf hne
        refine ih st1 w1 ?_
        have hb1 := szPN_le_of_LoopWF _ _ _ st1 w1
        omega

theorem ddgLoop_ok_empty (kd : Bool) (cfg : CFG) :
    ∀ (fuel : Nat) (st st' : LoopState),
      ddgLoop kd cfg fuel st = some (.ok st') → st'.worklist = [] := by
  intro fuel
  induction fuel with
  | zero =>
    intro st st' h
    have h2 : (if st.worklist.isEmpty then some (Except.ok st) else none)
        = some (Except.ok st') := h
    split at h2
    · rename_i hcond
      have h3 := Except.ok.inj (Option.some.inj h2)
      rw [← h3]
      simpa using hcond
    · cases h2
  | succ n ih =>
    intro st st' h
    have h2 : (if st.worklist.isEmpty then some (Except.ok st)
        else match ddgStep kd cfg st with
          | .error e => some (.error e)
          | .ok st1 => ddgLoop kd cfg n st1) = some (Except.ok st') := h
    split at h2
    · rename_i hcond
      have h3 := Except.ok.inj (Option.some.inj h2)
      rw [← h3]
      simpa using hcond
    · cases hstep : ddgStep kd cfg st with
      | error e =>
        rw [hstep] at h2
        cases Option.some.inj h2
      | ok st1 =>
        rw [hstep] at h2
        exact ih st1 st' h2

/-- Claim C3: for every finite CFG the fixpoint loop terminates with the
worklist drained.  Sufficient fuel always exists because every snapshot is
bounded by the product of the node, variable and location universes of the
CFG and a node is re-enqueued only when some snapshot strictly grew. -/
theorem claim_C3_termination (kd : Bool) (cfg : CFG) (start : Nat) :
    ∃ fuel out, ddgConstruct kd cfg start fuel = some out ∧
      ∀ st', out = Except.ok st' → st'.worklist = [] := by
  have hwf0 : LoopWF (cfg.adj.map Prod.fst ++ succUnion cfg) (cfgVars cfg) (cfgLocs cfg)
      ({ worklist := initWorklist cfg start, live_defs_per_node := [],
         graph := [] } : LoopState) := by
    refine ⟨?_, by simp, ?_⟩
    · intro n hn
      exact initWorklist_mem cfg start n hn
    · intro p hp
      simp at hp
  have hsome := ddgLoop_isSome kd cfg
    ((cfg.adj.map Prod.fst ++ succUnion cfg).dedup.length
        * ((cfgVars cfg).dedup.length * (cfgLocs cfg).dedup.length)
      + (initWorklist cfg start).length + 1)
    ({ worklist := initWorklist cfg start, live_defs_per_node := [],
       graph := [] } : LoopState) hwf0
    (by simp only [szPN, List.map_nil, List.sum_nil]; omega)
  obtain ⟨out, hout⟩ := Option.isSome_iff_exists.mp hsome
  refine ⟨(cfg.adj.map Prod.fst ++ succUnion cfg).dedup.length
      * ((cfgVars cfg).dedup.length * (cfgLocs cfg).dedup.length)
    + (initWorklist cfg start).length + 1, out, hout, ?_⟩
  intro st' hst'
  refine ddgLoop_ok_empty kd cfg
    ((cfg.adj.map Prod.fst ++ succUnion cfg).dedup.length
        * ((cfgVars cfg).dedup.length * (cfgLocs cfg).dedup.length)
      + (initWorklist cfg start).length + 1)
    ({ worklist := initWorklist cfg start, live_defs_per_node := [],
       graph := [] } : LoopState) st' ?_
  rw [hout, hst']

/-- Witness for claim C3: termination of the construction on the two-node
CFG. -/
theorem claim_C3_witness :
    ∃ fuel out, ddgConstruct false cfgEdge 0x1000 fuel = some out ∧
      ∀ st', out = Except.ok st' → st'.worklist = [] :=
  claim_C3_termination false cfgEdge 0x1000

end DDG
